import Mathlib

/-!
# MapReduce coordinator and worker: a shallow embedding

Source files embedded here: `mr/coordinator.go`, `mr/rpc.go`, `mr/worker.go`.

Conventions of the embedding.

* Go `int` values are Lean `Int`. The completion counters are incremented once
  per accepted report, so they are kept as unbounded integers (wrapping a
  64-bit counter needs 2^63 reports).
* `time.Time` is an `Int` number of nanoseconds; `time.Now()` is an explicit
  argument `now`.
* A Go `map[string]V` is an association list in which every key occurs once;
  `range` over a map visits the keys in an unspecified order, which is an
  explicit argument `rangeOrder` sending the key list to the order of the
  visit.
* A run-time panic is the `none` result of an `Option`.
-/

namespace MR

/-! ## Constants (`coordinator.go`, the `const` block)

`taskTimeout` is the first constant of the block, so `iota` is 1 at `mapTask`. -/

/-- The constant `taskTimeout = 10 * time.Second`, in nanoseconds. -/
def taskTimeout : Int := 10 * 1000000000

def mapTask : Int := 1
def reduceTask : Int := 2
def waitTask : Int := 3
def exitTask : Int := 4
def idleTask : Int := 5
def runningTask : Int := 6
def completedTask : Int := 7

/-! ## Data model -/

/-- The struct `Task`. -/
structure Task where
  id : Int
  tType : Int
  state : Int
  mapFileName : String
  reduceFileNames : List String
  workerID : Int
  startTime : Int
deriving DecidableEq, Repr

/-- The struct `Coordinator` without its mutex. `tasks` is the map from task
key (`map-<id>` or `reduce-<id>`) to task, `intermediateFileNames` the set of
keys of the Go map of that name (all its values are `true`). -/
structure Coordinator where
  done : Bool
  nMap : Int
  nReduce : Int
  nMapDone : Int
  nReduceDone : Int
  intermediateFileNames : List String
  tasks : List (String × Task)
deriving DecidableEq, Repr

/-- The struct `DoneArgs` of `rpc.go`. -/
structure DoneArgs where
  WorkerID : Int
  TaskID : Int
  TaskType : Int
  IntermediateFileNames : List String
deriving DecidableEq, Repr

/-- The struct `DoneReply` of `rpc.go`. -/
structure DoneReply where
  Exit : Bool
deriving DecidableEq, Repr

/-- The struct `TaskArgs` of `rpc.go`. -/
structure TaskArgs where
  WorkerID : Int
deriving DecidableEq, Repr

/-- The struct `TaskReply` of `rpc.go`. -/
structure TaskReply where
  TaskID : Int
  TaskType : Int
  MapFileName : String
  ReduceFileNames : List String
  NReduce : Int
deriving DecidableEq, Repr

/-- The zero value of `TaskReply`, which the RPC server hands to a handler. -/
def TaskReply.zero : TaskReply :=
  { TaskID := 0, TaskType := 0, MapFileName := "", ReduceFileNames := [], NReduce := 0 }

/-- The zero value of `DoneReply`. -/
def DoneReply.zero : DoneReply := { Exit := false }

/-! ## Go maps as association lists -/

/-- Map read `m[k]` with the `ok` flag: the value stored under `k`, if any. -/
def mapGet {V : Type} : List (String × V) → String → Option V
  | [], _ => none
  | (k', v) :: rest, k => if k' = k then some v else mapGet rest k

/-- The keys of a map. -/
def mapKeys {V : Type} (m : List (String × V)) : List String := m.map Prod.fst

/-- Writing through the pointer stored under `k`: the entry of `k` holds `v`
afterwards, no key is added. -/
def mapSet {V : Type} (m : List (String × V)) (k : String) (v : V) : List (String × V) :=
  m.map (fun e => if e.1 = k then (e.1, v) else e)

/-- Map write `m[k] = v`: replaces the entry of `k` or adds one. -/
def mapPut {V : Type} (m : List (String × V)) (k : String) (v : V) : List (String × V) :=
  if k ∈ mapKeys m then mapSet m k v else m ++ [(k, v)]

/-- Set insertion `s[f] = true` of a `map[string]bool`. -/
def setAdd (s : List String) (f : String) : List String :=
  if f ∈ s then s else s ++ [f]

/-- The function `strconv.Itoa`: decimal text of an integer. -/
def Itoa : Int → String
  | Int.ofNat n => Nat.repr n
  | Int.negSucc n => "-" ++ Nat.repr (n + 1)

/-- The task key `"map-" + strconv.Itoa(id)`. -/
def mapKey (id : Int) : String := "map-" ++ Itoa id

/-- The task key `"reduce-" + strconv.Itoa(id)`. -/
def reduceKey (id : Int) : String := "reduce-" ++ Itoa id

/-- The name `fmt.Sprintf("mr-%d-%d", taskID, i)` under which `executeMap`
publishes bucket `i` of Map task `taskID`. -/
def intermediateName (taskID i : Int) : String :=
  "mr-" ++ Itoa taskID ++ "-" ++ Itoa i

/-! ## `Coordinator.RequestTask` -/

/-- The body of the `for _, t := range c.tasks` loop of `RequestTask`, over the
keys still to visit; it stops at the first task found idle. -/
def requestLoop (c : Coordinator) (args : TaskArgs) (now : Int) (reply : TaskReply) :
    List String → Coordinator × TaskReply
  | [] => (c, reply)
  | k :: ks =>
    match mapGet c.tasks k with
    | none => requestLoop c args now reply ks
    | some t =>
      if t.state = idleTask then
        let r1 : TaskReply :=
          { reply with TaskID := t.id, TaskType := t.tType, NReduce := c.nReduce }
        let r2 : TaskReply :=
          if t.tType = mapTask then { r1 with MapFileName := t.mapFileName } else r1
        let r3 : TaskReply :=
          if t.tType = reduceTask then { r2 with ReduceFileNames := t.reduceFileNames } else r2
        let t1 : Task :=
          { t with state := runningTask, workerID := args.WorkerID, startTime := now }
        ({ c with tasks := mapSet c.tasks k t1 }, r3)
      else requestLoop c args now reply ks

/-- The RPC handler `RequestTask`; it always returns a nil error. -/
def RequestTask (rangeOrder : List String → List String) (c : Coordinator)
    (args : TaskArgs) (now : Int) : Coordinator × TaskReply :=
  let reply : TaskReply := { TaskReply.zero with TaskType := waitTask }
  if c.done then (c, { reply with TaskType := exitTask })
  else requestLoop c args now reply (rangeOrder (mapKeys c.tasks))

/-! ## Library functions used by `startReduce` -/

/-- Splitting a character sequence at every occurrence of `sep`; the result
has one more piece than there are separators. -/
def splitOnChar (sep : Char) : List Char → List (List Char)
  | [] => [[]]
  | c :: cs =>
    if c = sep then [] :: splitOnChar sep cs
    else
      match splitOnChar sep cs with
      | [] => [[c]]
      | p :: ps => (c :: p) :: ps

/-- The function `strings.Split(s, sep)` for a separator of one character. -/
def Split (s : String) (sep : Char) : List String :=
  (splitOnChar sep s.data).map String.mk

/-- Result of the digit loop of `strconv.ParseUint`. -/
inductive ParseRes where
  | value (n : Nat)
  | syntaxErr
  | rangeErr
deriving DecidableEq, Repr

/-- The digit loop of `strconv.ParseUint(s, 10, 64)`: a character that is not
a decimal digit is a syntax error, and a value leaving the range of `uint64`
is a range error, raised where it happens. -/
def parseUintLoop : Nat → List Char → ParseRes
  | n, [] => ParseRes.value n
  | n, ch :: rest =>
    if ch.isDigit then
      if n ≥ 2 ^ 64 / 10 + 1 then ParseRes.rangeErr
      else if n * 10 + (ch.toNat - 48) ≥ 2 ^ 64 then ParseRes.rangeErr
      else parseUintLoop (n * 10 + (ch.toNat - 48)) rest
    else ParseRes.syntaxErr

/-- The value `strconv.ParseInt(s, 10, 0)` returns next to its error, on a
64-bit platform, after the sign has been picked off. -/
def parseIntValue (neg : Bool) (digits : List Char) : Int :=
  if digits = [] then 0
  else
    match parseUintLoop 0 digits with
    | ParseRes.syntaxErr => 0
    | ParseRes.rangeErr => if neg then -(2 ^ 63) else 2 ^ 63 - 1
    | ParseRes.value un =>
      if neg then (if un > 2 ^ 63 then -(2 ^ 63) else -(un : Int))
      else (if un ≥ 2 ^ 63 then 2 ^ 63 - 1 else (un : Int))

/-- The value of `id, _ := strconv.Atoi(s)`: the integer `Atoi` returns, its
error dropped. A syntax error gives 0, a range error the nearest `int`. -/
def Atoi (s : String) : Int :=
  match s.data with
  | [] => 0
  | ch :: rest =>
    if ch = '+' then parseIntValue false rest
    else if ch = '-' then parseIntValue true rest
    else parseIntValue false (ch :: rest)

/-! ## `Coordinator.startReduce` -/

/-- The statement `a[id] = append(a[id], x)` on a slice of slices; `none` is
the index-out-of-range panic. -/
def bucketAppend {α : Type} : List (List α) → Nat → α → Option (List (List α))
  | [], _, _ => none
  | b :: bs, 0, f => some ((b ++ [f]) :: bs)
  | b :: bs, n + 1, f => (bucketAppend bs n f).map (fun bs1 => b :: bs1)

/-- The first loop of `startReduce`, over the file names still to visit. -/
def startReduceLoop : List (List String) → List String → Option (List (List String))
  | afilenames, [] => some afilenames
  | afilenames, filename :: rest =>
    match (Split filename '-').get? 2 with
    | none => none
    | some idstr =>
      let id := Atoi idstr
      if id < 0 then none
      else
        match bucketAppend afilenames id.toNat filename with
        | none => none
        | some a1 => startReduceLoop a1 rest

/-- The task built by the second loop of `startReduce` for index `i`. -/
def newReduceTask (i : Nat) (files : List String) : Task :=
  { id := i, tType := reduceTask, state := idleTask, mapFileName := "",
    reduceFileNames := files, workerID := 0, startTime := 0 }

/-- The second loop of `startReduce`, `for i := 0; i < c.nReduce; i++`. -/
def createReduceTasks (afilenames : List (List String)) (n : Nat)
    (tasks : List (String × Task)) : List (String × Task) :=
  (List.range n).foldl
    (fun ts (i : Nat) => mapPut ts (reduceKey i) (newReduceTask i (afilenames.getD i []))) tasks

/-- The method `startReduce`; `none` is a run-time panic (`make` with a
negative length, `parts[2]` or `afilenames[id]` out of range). -/
def startReduce (rangeOrder : List String → List String) (c : Coordinator) :
    Option Coordinator :=
  if c.nReduce < 0 then none
  else
    match startReduceLoop (List.replicate c.nReduce.toNat [])
        (rangeOrder c.intermediateFileNames) with
    | none => none
    | some afilenames =>
      some { c with tasks := createReduceTasks afilenames c.nReduce.toNat c.tasks }

/-! ## `Coordinator.TaskDone` -/

/-- What a call of `TaskDone` leaves behind: the coordinator, the reply and
the returned error (`none` for nil). -/
structure DoneResult where
  c : Coordinator
  reply : DoneReply
  err : Option String
deriving DecidableEq, Repr

/-- The block `if args.TaskType == mapTask { ... }`: `none` is a panic,
`Except.error` the early `return errors.New(...)`. -/
def taskDoneMap (rangeOrder : List String → List String) (c : Coordinator)
    (args : DoneArgs) : Option (Except String Coordinator) :=
  match mapGet c.tasks (mapKey args.TaskID) with
  | none => some (Except.error "task not found")
  | some t =>
    let c1 : Coordinator :=
      { c with tasks := mapSet c.tasks (mapKey args.TaskID) { t with state := completedTask } }
    let c2 : Coordinator := { c1 with nMapDone := c1.nMapDone + 1 }
    let c3 : Coordinator :=
      { c2 with intermediateFileNames :=
          args.IntermediateFileNames.foldl setAdd c2.intermediateFileNames }
    if c3.nMapDone = c3.nMap then (startReduce rangeOrder c3).map Except.ok
    else some (Except.ok c3)

/-- The block `if args.TaskType == reduceTask { ... }`. -/
def taskDoneReduce (c : Coordinator) (args : DoneArgs) : Except String Coordinator :=
  match mapGet c.tasks (reduceKey args.TaskID) with
  | none => Except.error "task not found"
  | some t =>
    let c1 : Coordinator :=
      { c with tasks := mapSet c.tasks (reduceKey args.TaskID) { t with state := completedTask } }
    Except.ok { c1 with nReduceDone := c1.nReduceDone + 1 }

/-- The closing statements of `TaskDone`: the completion test, `reply.Exit = true`
and `return nil`. -/
def taskDoneFinish (c : Coordinator) : DoneResult :=
  let c1 : Coordinator :=
    if c.nMapDone = c.nMap ∧ c.nReduceDone = c.nReduce then { c with done := true } else c
  { c := c1, reply := { Exit := true }, err := none }

/-- The RPC handler `TaskDone`; `none` is a run-time panic. -/
def TaskDone (rangeOrder : List String → List String) (c : Coordinator)
    (args : DoneArgs) : Option DoneResult :=
  let afterMap : Option (Except String Coordinator) :=
    if args.TaskType = mapTask then taskDoneMap rangeOrder c args else some (Except.ok c)
  match afterMap with
  | none => none
  | some (Except.error e) => some { c := c, reply := DoneReply.zero, err := some e }
  | some (Except.ok c1) =>
    let afterReduce : Except String Coordinator :=
      if args.TaskType = reduceTask then taskDoneReduce c1 args else Except.ok c1
    match afterReduce with
    | Except.error e => some { c := c1, reply := DoneReply.zero, err := some e }
    | Except.ok c2 => some (taskDoneFinish c2)

/-! ## `Coordinator.checkTimeout`, `Done`, `MakeCoordinator` -/

/-- What one pass of `checkTimeout` does to one task. -/
def timeoutTask (now : Int) (t : Task) : Task :=
  if t.state = runningTask then
    if now - t.startTime > taskTimeout then { t with state := idleTask } else t
  else t

/-- One pass of the loop of `checkTimeout`, made at time `now`. The body
touches the visited task only, so the order of the visit plays no part. -/
def checkTimeout (c : Coordinator) (now : Int) : Coordinator :=
  { c with tasks := c.tasks.map (fun e => (e.1, timeoutTask now e.2)) }

/-- The method `Done`. -/
def Done (c : Coordinator) : Bool := c.done

/-- The task built by `MakeCoordinator` for input number `i`. -/
def newMapTask (i : Nat) (file : String) : Task :=
  { id := i, tType := mapTask, state := idleTask, mapFileName := file,
    reduceFileNames := [], workerID := 0, startTime := 0 }

/-- The loop of `MakeCoordinator`, from index `i` on, `files` being the inputs
from that index on. -/
def makeMapTasks : Nat → List String → List (String × Task) → List (String × Task)
  | _, [], tasks => tasks
  | i, f :: fs, tasks => makeMapTasks (i + 1) fs (mapPut tasks (mapKey i) (newMapTask i f))

/-- The function `MakeCoordinator`: the state it builds before it starts the
server and the timeout monitor. -/
def MakeCoordinator (files : List String) (nReduce : Int) : Coordinator :=
  { done := false, nMap := files.length, nReduce := nReduce, nMapDone := 0,
    nReduceDone := 0, intermediateFileNames := [],
    tasks := makeMapTasks 0 files [] }

/-! ## `worker.go`: keys, hashing, files

Strings are sequences of Unicode characters; a file written through
`json.Encoder` is kept as the sequence of records that `json.Decoder` reads
back from it, whose strings are texts. The pairs a map function emits, whose
strings are any bytes, and inputs that are not kept as text are the subject of
the section on Go strings below. Resource errors of the operating system (a temp file that cannot
be created, a rename that fails) are left out; `log.Fatalf` is the `none`
result of an `Option`. -/

/-- The struct `KeyValue` with a key and a value that are texts, as
`json.Decoder` reads it from a file; `RawKeyValue` below is the struct with
strings of any bytes. -/
structure KeyValue where
  Key : String
  Value : String
deriving DecidableEq, Repr

/-- The UTF-8 bytes of a character. -/
def utf8Bytes (c : Char) : List Nat :=
  let v := c.toNat
  if v < 128 then [v]
  else if v < 2048 then [192 + v / 64, 128 + v % 64]
  else if v < 65536 then [224 + v / 4096, 128 + v / 64 % 64, 128 + v % 64]
  else [240 + v / 262144, 128 + v / 4096 % 64, 128 + v / 64 % 64, 128 + v % 64]

/-- The conversion `[]byte(key)`. -/
def stringBytes (s : String) : List Nat := (s.data.map utf8Bytes).flatten

/-- The hash of `hash/fnv`, `New32a` followed by `Write` and `Sum32`: FNV-1a on
32 bits. -/
def fnv32a (bytes : List Nat) : Nat :=
  bytes.foldl (fun h b => (Nat.xor h b * 16777619) % 2 ^ 32) 2166136261

/-- The function `ihash`. -/
def ihash (key : String) : Int := ((Nat.land (fnv32a (stringBytes key)) 0x7fffffff : Nat) : Int)

/-- Go's `a < b` on strings, character by character (the order of the UTF-8
bytes is the order of the code points). -/
def strLt : List Char → List Char → Bool
  | _, [] => false
  | [], _ :: _ => true
  | a :: as, b :: bs =>
    if a.toNat < b.toNat then true
    else if b.toNat < a.toNat then false
    else strLt as bs

/-- The comparison function handed to `slices.SortFunc` in `executeReduce`. -/
def cmpKey (a b : KeyValue) : Int :=
  if strLt a.Key.data b.Key.data then -1
  else if strLt b.Key.data a.Key.data then 1
  else 0

/-- The contract of `slices.SortFunc(kva, cmp)` for the comparison `cmpKey`:
the result is a rearrangement of `kva` in which no element is followed by one
that compares below it. The order among equal keys is not fixed. -/
def IsSortFunc (sortFunc : List KeyValue → List KeyValue) : Prop :=
  ∀ kva, (sortFunc kva).Perm kva ∧ (sortFunc kva).Pairwise (fun a b => cmpKey a b ≤ 0)

/-- Insertion into a sorted slice, after the elements that do not compare above. -/
def insertByKey (x : KeyValue) : List KeyValue → List KeyValue
  | [] => [x]
  | y :: ys => if cmpKey x y < 0 then x :: y :: ys else y :: insertByKey x ys

/-- One sorting function that meets `IsSortFunc`: stable insertion sort. -/
def sortByKey : List KeyValue → List KeyValue
  | [] => []
  | x :: xs => insertByKey x (sortByKey xs)

/-- What a file holds: text, or the records of a JSON stream. -/
inductive FileData where
  | text (content : String)
  | records (kva : List KeyValue)
deriving DecidableEq, Repr

/-- The directory shared by the workers: file name to content. -/
abbrev FileSystem := List (String × FileData)

/-- The name `fmt.Sprintf("mr-out-%d", taskID)` of a reduce output. -/
def outputName (taskID : Int) : String := "mr-out-" ++ Itoa taskID

/-! ## `executeMap` -/

/-- The partition loop of `executeMap`; `none` is a run-time panic (division
by zero in `%`, index out of range). -/
def partitionLoop (nReduce : Int) :
    List (List KeyValue) → List KeyValue → Option (List (List KeyValue))
  | buckets, [] => some buckets
  | buckets, kv :: rest =>
    if nReduce = 0 then none
    else
      let reduceID := Int.tmod (ihash kv.Key) nReduce
      if reduceID < 0 then none
      else
        match bucketAppend buckets reduceID.toNat kv with
        | none => none
        | some b1 => partitionLoop nReduce b1 rest

/-- The loop of `executeMap` that saves the buckets: bucket `i` is written to
a temp file, private to the call, which is then renamed to `mr-<TaskID>-<i>`;
the state is the file system and the names collected so far. -/
def writeBuckets (taskID : Int) (buckets : List (List KeyValue)) (n : Nat)
    (fs : FileSystem) : FileSystem × List String :=
  (List.range n).foldl
    (fun (st : FileSystem × List String) (i : Nat) =>
      (mapPut st.1 (intermediateName taskID i) (FileData.records (buckets.getD i [])),
       st.2 ++ [intermediateName taskID i]))
    (fs, [])

/-- The function `executeMap`, for an input kept as text and a map function
that emits texts: the file system it leaves and the names it returns; `none`
when it ends in `log.Fatalf` or a panic. `executeMapBytes` below is the
function on any input file and any emitted bytes; the two agree here
(`executeMapBytes_goBytes`). -/
def executeMap (mapf : String → String → List KeyValue) (taskReply : TaskReply)
    (fs : FileSystem) : Option (FileSystem × List String) :=
  match mapGet fs taskReply.MapFileName with
  | some (FileData.text content) =>
    let kva := mapf taskReply.MapFileName content
    if taskReply.NReduce < 0 then none
    else
      match partitionLoop taskReply.NReduce
          (List.replicate taskReply.NReduce.toNat []) kva with
      | none => none
      | some buckets =>
        some (writeBuckets taskReply.TaskID buckets taskReply.NReduce.toNat fs)
  | _ => none

/-! ## `executeReduce` -/

/-- The loop of `executeReduce` that reads the input files into `kva`. -/
def readLoop (fs : FileSystem) : List KeyValue → List String → Option (List KeyValue)
  | kva, [] => some kva
  | kva, filename :: rest =>
    match mapGet fs filename with
    | some (FileData.records kvs) => readLoop fs (kva ++ kvs) rest
    | _ => none

/-- The loop `for i < len(kva)` of `executeReduce` on the slice `kva[i:]`: one
pair (key, reduced value) for each call of `fmt.Fprintf`. The first argument
bounds the number of rounds; a round consumes at least one record, so
`len(kva)` rounds are enough. -/
def reduceLoop (reducef : String → List String → String) :
    Nat → List KeyValue → List (String × String)
  | 0, _ => []
  | _ + 1, [] => []
  | fuel + 1, kv :: rest =>
    let run := rest.takeWhile (fun x => x.Key = kv.Key)
    let values := kv.Value :: run.map (fun x => x.Value)
    (kv.Key, reducef kv.Key values)
      :: reduceLoop reducef fuel (rest.dropWhile (fun x => x.Key = kv.Key))

/-- The text `fmt.Fprintf(tempFile, "%v %v\n", key, finalv)` writes. -/
def formatLine (line : String × String) : String := line.1 ++ " " ++ line.2 ++ "\n"

/-- The content of an output file made of the given lines. -/
def formatLines (lines : List (String × String)) : String :=
  String.join (lines.map formatLine)

/-- The function `executeReduce`: the file system it leaves; `none` when it
ends in `log.Fatalf`. The output goes to a temp file, private to the call,
which is then renamed to `mr-out-<TaskID>`. -/
def executeReduce (sortFunc : List KeyValue → List KeyValue)
    (reducef : String → List String → String) (taskReply : TaskReply)
    (fs : FileSystem) : Option FileSystem :=
  match readLoop fs [] taskReply.ReduceFileNames with
  | none => none
  | some kva =>
    let sorted := sortFunc kva
    some (mapPut fs (outputName taskReply.TaskID)
      (FileData.text (formatLines (reduceLoop reducef sorted.length sorted))))

/-! ## A whole job, run task by task -/

/-- The files `mr-0-i` .. `mr-(n-1)-i` of bucket `i`. -/
def bucketFiles (n i : Nat) : List String :=
  (List.range n).map (fun (t : Nat) => intermediateName t i)

/-- Runs `executeReduce` for the buckets in turn, bucket `i` on `bucketFiles n i`. -/
def runReduces (sortFunc : List KeyValue → List KeyValue)
    (reducef : String → List String → String) (nMap : Nat) (nReduce : Int) :
    List Nat → FileSystem → Option FileSystem
  | [], fs => some fs
  | i :: rest, fs =>
    match executeReduce sortFunc reducef
        { TaskID := i, TaskType := reduceTask, MapFileName := "",
          ReduceFileNames := bucketFiles nMap i, NReduce := nReduce } fs with
    | none => none
    | some fs1 => runReduces sortFunc reducef nMap nReduce rest fs1

/-! ## The word-count application -/

/-- The function `strings.FieldsFunc(contents, f)` with `f` true off letters:
the maximal runs of letters, an empty piece where two cuts meet. -/
def letterRuns : List Char → List (List Char)
  | [] => [[]]
  | c :: cs =>
    if c.isAlpha then
      match letterRuns cs with
      | [] => [[c]]
      | w :: ws => (c :: w) :: ws
    else [] :: letterRuns cs

/-- Modelled from the spec: the word-count map function of scenario A (the
application is not under `src/`): one pair (word, "1") for each word. -/
def wcMap (_filename : String) (contents : String) : List KeyValue :=
  ((letterRuns contents.data).filter (fun w => w ≠ [])).map
    (fun w => { Key := String.mk w, Value := "1" })

/-- Modelled from the spec: the word-count reduce function of scenario A (the
application is not under `src/`): the number of values, in decimal. -/
def wcReduce (_key : String) (values : List String) : String :=
  Itoa values.length

/-! ## Iteration orders and executions -/

/-- A possible behaviour of `range` over a Go map: every key is visited once. -/
def IsRangeOrder (rangeOrder : List String → List String) : Prop :=
  ∀ l, (rangeOrder l).Perm l

/-- One step of an execution of the coordinator: an RPC it serves or one pass
of its timeout monitor. The mutex serialises the three, so an execution is a
sequence of such steps. -/
inductive Event where
  | requestTask (rangeOrder : List String → List String) (args : TaskArgs) (now : Int)
  | taskDone (rangeOrder : List String → List String) (args : DoneArgs)
  | timeoutScan (now : Int)

/-- The iteration order an event carries is a possible one. -/
def Event.valid : Event → Prop
  | Event.requestTask rangeOrder _ _ => IsRangeOrder rangeOrder
  | Event.taskDone rangeOrder _ => IsRangeOrder rangeOrder
  | Event.timeoutScan _ => True

/-- The state after one step; `none` when the step ends in a run-time panic. -/
def step (c : Coordinator) : Event → Option Coordinator
  | Event.requestTask rangeOrder args now => some (RequestTask rangeOrder c args now).1
  | Event.taskDone rangeOrder args => (TaskDone rangeOrder c args).map (fun r => r.c)
  | Event.timeoutScan now => some (checkTimeout c now)

/-- The state after a sequence of steps. -/
def run (c : Coordinator) : List Event → Option Coordinator
  | [] => some c
  | e :: es => (step c e).bind (fun c1 => run c1 es)

/-- The states reachable from `MakeCoordinator(files, nReduce)`. -/
def Reachable (files : List String) (nReduce : Int) (c : Coordinator) : Prop :=
  ∃ es : List Event, (∀ e ∈ es, e.valid) ∧ run (MakeCoordinator files nReduce) es = some c

/-- Key discipline of the ledger: an entry is stored under the key made of its
own kind and id. -/
def KeysOk (tasks : List (String × Task)) : Prop :=
  ∀ k t, mapGet tasks k = some t →
    (k = mapKey t.id ∧ t.tType = mapTask) ∨ (k = reduceKey t.id ∧ t.tType = reduceTask)

/-- The ledger holds Map tasks only. -/
def AllMap (tasks : List (String × Task)) : Prop :=
  ∀ k t, mapGet tasks k = some t → t.tType = mapTask

/-- No Map→Reduce transition has taken place yet: the Map counter has not
reached `nMap`, or there is no Map task at all (then it never does). -/
def BeforeTransition (c : Coordinator) : Prop :=
  c.nMapDone < c.nMap ∨ c.nMap = 0

/-- The invariant of the ledger used below: the key discipline, a Map counter
that is not negative, and Map tasks only before the transition. -/
def LedgerInv (c : Coordinator) : Prop :=
  KeysOk c.tasks ∧ 0 ≤ c.nMapDone ∧ (BeforeTransition c → AllMap c.tasks)

/-! ## What a step reports -/

/-- The task a step reports done with success: the kind and id of a `TaskDone`
request of kind Map or Reduce whose task is found in the ledger. -/
def reported (c : Coordinator) : Event → Option (Int × Int)
  | Event.taskDone _ args =>
    if args.TaskType = mapTask then
      (if (mapGet c.tasks (mapKey args.TaskID)).isSome then some (mapTask, args.TaskID)
       else none)
    else if args.TaskType = reduceTask then
      (if (mapGet c.tasks (reduceKey args.TaskID)).isSome then some (reduceTask, args.TaskID)
       else none)
    else none
  | _ => none

/-- The successful reports of an execution, in order. -/
def reportLog (c : Coordinator) : List Event → List (Int × Int)
  | [] => []
  | e :: es =>
    (reported c e).toList ++
      (match step c e with
       | some c1 => reportLog c1 es
       | none => [])

/-- The step reaches the call `c.startReduce()` of `TaskDone`: a Map report
that finds its task and brings `nMapDone` to `nMap`. -/
def callsStartReduce (c : Coordinator) (e : Event) : Bool :=
  match reported c e with
  | some (ty, _) => decide (ty = mapTask) && decide (c.nMapDone + 1 = c.nMap)
  | none => false

/-- The number of calls of `startReduce` in an execution. -/
def countStartReduce (c : Coordinator) : List Event → Nat
  | [] => 0
  | e :: es =>
    (if callsStartReduce c e then 1 else 0) +
      (match step c e with
       | some c1 => countStartReduce c1 es
       | none => 0)

/-- Lexicographic order of byte sequences: Go's `a < b` on the bytes of two
strings. -/
def bytesLt : List Nat → List Nat → Bool
  | _, [] => false
  | [], _ :: _ => true
  | a :: as, b :: bs =>
    if a < b then true
    else if b < a then false
    else bytesLt as bs

/-! ## Counting the tasks of the ledger -/

/-- The number of tasks of kind `ty` in the ledger. -/
def countTasks (ty : Int) (tasks : List (String × Task)) : Nat :=
  (tasks.filter (fun e => decide (e.2.tType = ty))).length

/-- The number of tasks of kind `ty` in state Completed. -/
def countCompleted (ty : Int) (tasks : List (String × Task)) : Nat :=
  (tasks.filter
    (fun e => decide (e.2.tType = ty) && decide (e.2.state = completedTask))).length

/-- The invariant behind the completion counters, for an execution whose
successful reports so far are `log`: each counter is the number of Completed
tasks of its kind, the ledger holds `nMap` Map tasks and, after the
transition, `nReduce` Reduce tasks, every Completed task has been reported,
and the flag is set only with both counters at their totals. -/
def CountInv (c : Coordinator) (log : List (Int × Int)) : Prop :=
  LedgerInv c ∧ (mapKeys c.tasks).Nodup ∧
  c.nMapDone = (countCompleted mapTask c.tasks : Int) ∧
  c.nReduceDone = (countCompleted reduceTask c.tasks : Int) ∧
  c.nMap = (countTasks mapTask c.tasks : Int) ∧
  (BeforeTransition c → countTasks reduceTask c.tasks = 0) ∧
  (¬ BeforeTransition c → (countTasks reduceTask c.tasks : Int) = c.nReduce) ∧
  (∀ k t, mapGet c.tasks k = some t → t.state = completedTask → (t.tType, t.id) ∈ log) ∧
  (c.done = true → c.nMapDone = c.nMap ∧ c.nReduceDone = c.nReduce)

/-! ## Reports that carry the names `executeMap` returned -/

/-- A Map report carries the names that a run of `executeMap` for that task,
with `N` buckets, returned. -/
def ReportsReturnedNames (N : Nat) : Event → Prop
  | Event.taskDone _ args =>
    args.TaskType = mapTask →
      ∃ (mapf : String → String → List KeyValue) (taskReply : TaskReply) (fs : FileSystem)
        (r : FileSystem × List String),
        taskReply.TaskID = args.TaskID ∧ taskReply.NReduce = (N : Int) ∧
        executeMap mapf taskReply fs = some r ∧ args.IntermediateFileNames = r.2
  | _ => True

/-- The invariant behind the round trip of the file names, for a job of `n`
inputs and `N` buckets whose successful reports so far are `log`: the set of
names the coordinator holds is made of the names of the Map tasks reported,
and after the transition Reduce task `i` holds the names `mr-t-i`, `t < n`. -/
def NamesInv (n N : Nat) (c : Coordinator) (log : List (Int × Int)) : Prop :=
  CountInv c log ∧ c.nReduce = (N : Int) ∧ c.nMap = (n : Int) ∧
  c.nMapDone = ((log.filter (fun p => decide (p.1 = mapTask))).length : Int) ∧
  (∀ t : Nat, t < n → ∃ task, mapGet c.tasks (mapKey (t : Int)) = some task) ∧
  (∀ k task, mapGet c.tasks k = some task → task.tType = mapTask →
    ∃ t : Nat, t < n ∧ task.id = (t : Int)) ∧
  (∀ id : Int, (mapTask, id) ∈ log → ∃ t : Nat, t < n ∧ id = (t : Int)) ∧
  c.intermediateFileNames.Nodup ∧
  (∀ f, f ∈ c.intermediateFileNames ↔
    ∃ t : Nat, (mapTask, (t : Int)) ∈ log ∧
      ∃ i : Nat, i < N ∧ f = intermediateName (t : Int) (i : Int)) ∧
  (¬ BeforeTransition c → ∀ i : Nat, i < N →
    ∃ task, mapGet c.tasks (reduceKey (i : Int)) = some task ∧
      task.tType = reduceTask ∧ task.id = (i : Int) ∧ task.reduceFileNames.Nodup ∧
      ∀ f, f ∈ task.reduceFileNames ↔
        ∃ t : Nat, t < n ∧ f = intermediateName (t : Int) (i : Int))

/-! ## `executeMap` and `executeReduce` as sequences of file-system operations

The functions above keep the outcome of "write a temp file, then rename it"
as one write. Here the calls on the file system are listed one by one, in the
order of the source, and run on the directory; a crash of the worker, or a
`log.Fatalf`, leaves the directory as it is after the calls made so far. Files
are named by their path; a temp file is written through its handle, and the
sources make no call on a handle after the rename of its file. -/

/-- Removing a name from the directory. -/
def mapErase {V : Type} (m : List (String × V)) (k : String) : List (String × V) :=
  m.filter (fun e => decide (e.1 ≠ k))

/-- The path of a file made by `os.CreateTemp("", "mr-tmp-*")`: the default
temp directory (with its separator), then the pattern with `*` replaced by a
string chosen at random. -/
def tempName (tempDir suffix : String) : String := tempDir ++ "mr-tmp-" ++ suffix

/-- The calls the two functions make on the file system. -/
inductive FsOp where
  /-- Reading of an input: `os.Open(name)`, the reads, `Close`. -/
  | openRead (name : String)
  /-- The call `os.CreateTemp`, which made the new empty file `name`; the
  second field is the empty content, as records or as text. -/
  | createTemp (name : String) (empty : FileData)
  /-- The call `enc.Encode(&kv)` on the temp file `name`. -/
  | encode (name : String) (kv : KeyValue)
  /-- The call `fmt.Fprintf(tempFile, "%v %v\n", key, value)` on the temp file `name`. -/
  | fprintf (name : String) (line : String × String)
  /-- The call `tempFile.Close()`. -/
  | close (name : String)
  /-- The call `os.Rename(oldName, newName)`. -/
  | rename (oldName newName : String)
deriving DecidableEq, Repr

/-- The operation names the path `nm`: it opens, creates or writes the file at
`nm`, or renames from or onto `nm`. -/
def FsOp.touches (nm : String) : FsOp → Bool
  | FsOp.openRead name => decide (name = nm)
  | FsOp.createTemp name _ => decide (name = nm)
  | FsOp.encode name _ => decide (name = nm)
  | FsOp.fprintf name _ => decide (name = nm)
  | FsOp.close name => decide (name = nm)
  | FsOp.rename oldName newName => decide (oldName = nm) || decide (newName = nm)

/-- The directory after one operation; `none` when the call fails (the file
to read, write or rename is missing, or `CreateTemp` is given a name in use,
which it never is). -/
def applyOp (fs : FileSystem) : FsOp → Option FileSystem
  | FsOp.openRead name => if (mapGet fs name).isSome then some fs else none
  | FsOp.createTemp name empty =>
    if (mapGet fs name).isSome then none else some (fs ++ [(name, empty)])
  | FsOp.encode name kv =>
    match mapGet fs name with
    | some (FileData.records kvs) => some (mapSet fs name (FileData.records (kvs ++ [kv])))
    | _ => none
  | FsOp.fprintf name line =>
    match mapGet fs name with
    | some (FileData.text s) => some (mapSet fs name (FileData.text (s ++ formatLine line)))
    | _ => none
  | FsOp.close name => if (mapGet fs name).isSome then some fs else none
  | FsOp.rename oldName newName =>
    match mapGet fs oldName with
    | some d => some (mapPut (mapErase fs oldName) newName d)
    | none => none

/-- The directory after a sequence of operations. -/
def runOps : FileSystem → List FsOp → Option FileSystem
  | fs, [] => some fs
  | fs, op :: ops => (applyOp fs op).bind (fun fs1 => runOps fs1 ops)

/-- The body of the loop `for i := 0; i < taskReply.NReduce; i++` of
`executeMap` for bucket `i`, `rnd i` being the random part of the name of its
temp file. -/
def bucketOps (tempDir : String) (rnd : Nat → String) (taskID : Int)
    (buckets : List (List KeyValue)) (i : Nat) : List FsOp :=
  FsOp.createTemp (tempName tempDir (rnd i)) (FileData.records [])
    :: ((buckets.getD i []).map (FsOp.encode (tempName tempDir (rnd i)))
      ++ [FsOp.close (tempName tempDir (rnd i)),
          FsOp.rename (tempName tempDir (rnd i)) (intermediateName taskID i)])

/-- The operations of `executeMap`, in the order of the source; `none` when
the function ends before its first write (`log.Fatalf` on the input, panic in
the partition loop). -/
def executeMapOps (tempDir : String) (rnd : Nat → String)
    (mapf : String → String → List KeyValue) (taskReply : TaskReply)
    (fs : FileSystem) : Option (List FsOp) :=
  match mapGet fs taskReply.MapFileName with
  | some (FileData.text content) =>
    let kva := mapf taskReply.MapFileName content
    if taskReply.NReduce < 0 then none
    else
      match partitionLoop taskReply.NReduce
          (List.replicate taskReply.NReduce.toNat []) kva with
      | none => none
      | some buckets =>
        some (FsOp.openRead taskReply.MapFileName
          :: (List.range taskReply.NReduce.toNat).flatMap
              (bucketOps tempDir rnd taskReply.TaskID buckets))
  | _ => none

/-- The operations of `executeReduce`, in the order of the source, `suffix`
being the random part of the name of its temp file; `none` when the function
ends in `log.Fatalf` while it reads its inputs. The source does not close the
temp file before the rename. -/
def executeReduceOps (tempDir suffix : String) (sortFunc : List KeyValue → List KeyValue)
    (reducef : String → List String → String) (taskReply : TaskReply)
    (fs : FileSystem) : Option (List FsOp) :=
  match readLoop fs [] taskReply.ReduceFileNames with
  | none => none
  | some kva =>
    let sorted := sortFunc kva
    some (taskReply.ReduceFileNames.map FsOp.openRead
      ++ FsOp.createTemp (tempName tempDir suffix) (FileData.text "")
        :: ((reduceLoop reducef sorted.length sorted).map
              (FsOp.fprintf (tempName tempDir suffix))
          ++ [FsOp.rename (tempName tempDir suffix) (outputName taskReply.TaskID)]))

/-! ## The map side on Go strings

A Go string is a sequence of bytes, not always the UTF-8 form of a text. A map
function may emit any bytes as key and value: `ihash` reads the bytes as they
are, while `json.Encoder` writes every byte that is not part of a valid UTF-8
sequence as U+FFFD, so that the record `json.Decoder` reads back is a text.
`KeyValue` above is such a record; `RawKeyValue` is a pair as emitted. Any file
can be an input: one kept as records is read as the text `json.Encoder` wrote,
which is left open (`enc`). -/

/-- The struct `KeyValue` as a map function returns it: key and value are Go
strings, sequences of bytes. -/
structure RawKeyValue where
  Key : List Nat
  Value : List Nat
deriving DecidableEq, Repr

/-- The bytes of a record whose strings are texts. -/
def goBytes (kv : KeyValue) : RawKeyValue :=
  { Key := stringBytes kv.Key, Value := stringBytes kv.Value }

/-- The Go string is the UTF-8 form of a text. -/
def IsValidUTF8 (bs : List Nat) : Prop := ∃ s : String, bs = stringBytes s

/-- The function `utf8.DecodeRune`: the code point at the head of the bytes
and its width; U+FFFD (65533) with width 1 when the head starts no valid
sequence (a stray continuation byte, an overlong form, a surrogate, a value
above U+10FFFF, a sequence cut short), and with width 0 on no bytes. -/
def decodeRune : List Nat → Nat × Nat
  | [] => (65533, 0)
  | b0 :: rest =>
    if b0 < 128 then (b0, 1)
    else if b0 < 194 then (65533, 1)
    else if b0 < 224 then
      match rest with
      | b1 :: _ =>
        if 128 ≤ b1 ∧ b1 ≤ 191 then ((b0 - 192) * 64 + (b1 - 128), 2) else (65533, 1)
      | [] => (65533, 1)
    else if b0 < 240 then
      match rest with
      | b1 :: b2 :: _ =>
        if (if b0 = 224 then 160 else 128) ≤ b1 ∧ b1 ≤ (if b0 = 237 then 159 else 191)
            ∧ 128 ≤ b2 ∧ b2 ≤ 191 then
          ((b0 - 224) * 4096 + (b1 - 128) * 64 + (b2 - 128), 3)
        else (65533, 1)
      | _ => (65533, 1)
    else if b0 < 245 then
      match rest with
      | b1 :: b2 :: b3 :: _ =>
        if (if b0 = 240 then 144 else 128) ≤ b1 ∧ b1 ≤ (if b0 = 244 then 143 else 191)
            ∧ 128 ≤ b2 ∧ b2 ≤ 191 ∧ 128 ≤ b3 ∧ b3 ≤ 191 then
          ((b0 - 240) * 262144 + (b1 - 128) * 4096 + (b2 - 128) * 64 + (b3 - 128), 4)
        else (65533, 1)
      | _ => (65533, 1)
    else (65533, 1)

/-- The characters `json.Decoder` reads back for a Go string that
`json.Encoder` wrote: the encoder goes through the bytes with
`utf8.DecodeRuneInString`, keeps each valid sequence (escaped or not) and
writes the escape of U+FFFD for a byte that starts none. The first argument
bounds the number of rounds; a round consumes at least one byte. -/
def jsonChars : Nat → List Nat → List Char
  | 0, _ => []
  | _, [] => []
  | fuel + 1, b :: bs =>
    Char.ofNat (decodeRune (b :: bs)).1
      :: jsonChars fuel ((b :: bs).drop (decodeRune (b :: bs)).2)

/-- The string read back from the JSON form of a Go string. -/
def jsonString (bs : List Nat) : String := String.mk (jsonChars bs.length bs)

/-- The record `dec.Decode(&kv)` reads for a pair written by `enc.Encode(&kv)`. -/
def jsonRecord (kv : RawKeyValue) : KeyValue :=
  { Key := jsonString kv.Key, Value := jsonString kv.Value }

/-- The function `ihash` on the bytes of its argument. -/
def ihashBytes (key : List Nat) : Int := ((Nat.land (fnv32a key) 0x7fffffff : Nat) : Int)

/-- The partition loop of `executeMap` on the pairs as emitted; `none` is a
run-time panic (division by zero in `%`, index out of range). -/
def partitionLoopBytes (nReduce : Int) :
    List (List RawKeyValue) → List RawKeyValue → Option (List (List RawKeyValue))
  | buckets, [] => some buckets
  | buckets, kv :: rest =>
    if nReduce = 0 then none
    else
      let reduceID := Int.tmod (ihashBytes kv.Key) nReduce
      if reduceID < 0 then none
      else
        match bucketAppend buckets reduceID.toNat kv with
        | none => none
        | some b1 => partitionLoopBytes nReduce b1 rest

/-- The string `io.ReadAll` gives for a file: its text, or, for a file written
through `json.Encoder`, the text `enc` of its records. -/
def fileText (enc : List KeyValue → String) : FileData → String
  | FileData.text content => content
  | FileData.records kva => enc kva

/-- The function `executeMap` for a map function that emits Go strings, on any
input file: the file system it leaves and the names it returns; `none` when it
ends in `log.Fatalf` (no input file) or a panic. Bucket file `i` holds the
records that decode from the JSON form of the pairs of bucket `i`. -/
def executeMapBytes (enc : List KeyValue → String)
    (mapf : String → String → List RawKeyValue) (taskReply : TaskReply)
    (fs : FileSystem) : Option (FileSystem × List String) :=
  match mapGet fs taskReply.MapFileName with
  | some d =>
    let kva := mapf taskReply.MapFileName (fileText enc d)
    if taskReply.NReduce < 0 then none
    else
      match partitionLoopBytes taskReply.NReduce
          (List.replicate taskReply.NReduce.toNat []) kva with
      | none => none
      | some buckets =>
        some (writeBuckets taskReply.TaskID (buckets.map (fun b => b.map jsonRecord))
          taskReply.NReduce.toNat fs)
  | none => none

/-- Runs `executeMapBytes` on the inputs in turn, with task ids `taskID`,
`taskID + 1`, ... -/
def runMapsBytes (enc : List KeyValue → String)
    (mapf : String → String → List RawKeyValue) (nReduce : Int) :
    Nat → List String → FileSystem → Option FileSystem
  | _, [], fs => some fs
  | taskID, file :: files, fs =>
    match executeMapBytes enc mapf
        { TaskID := taskID, TaskType := mapTask, MapFileName := file,
          ReduceFileNames := [], NReduce := nReduce } fs with
    | none => none
    | some r => runMapsBytes enc mapf nReduce (taskID + 1) files r.1

/-- What the map invocations of `runMapsBytes` read, in the order of the
tasks: the name of the input and its content when the task opens it. The map
invocation of a task emits `mapf` of this pair. -/
def mapReads (enc : List KeyValue → String)
    (mapf : String → String → List RawKeyValue) (nReduce : Int) :
    Nat → List String → FileSystem → List (String × String)
  | _, [], _ => []
  | taskID, file :: files, fs =>
    match mapGet fs file with
    | none => []
    | some d =>
      (file, fileText enc d) ::
        (match executeMapBytes enc mapf
            { TaskID := taskID, TaskType := mapTask, MapFileName := file,
              ReduceFileNames := [], NReduce := nReduce } fs with
         | none => []
         | some r => mapReads enc mapf nReduce (taskID + 1) files r.1)

/-- A job without failures, the map function emitting Go strings: every Map
task, then every Reduce task. -/
def runJobBytes (sortFunc : List KeyValue → List KeyValue) (enc : List KeyValue → String)
    (mapf : String → String → List RawKeyValue) (reducef : String → List String → String)
    (files : List String) (nReduce : Nat) (fs : FileSystem) : Option FileSystem :=
  match runMapsBytes enc mapf nReduce 0 files fs with
  | none => none
  | some fs1 => runReduces sortFunc reducef files.length nReduce (List.range nReduce) fs1

/-! # Properties -/

/-! ## Association lists -/

theorem mapGet_eq_none_iff {V : Type} (m : List (String × V)) (k : String) :
    mapGet m k = none ↔ k ∉ mapKeys m := by
  induction m with
  | nil => simp [mapGet, mapKeys]
  | cons e rest ih =>
    obtain ⟨k', v⟩ := e
    by_cases h : k' = k
    · simp [mapGet, mapKeys, h]
    · have h' : ¬ k = k' := fun x => h x.symm
      simp only [mapGet, h, if_false, ih, mapKeys, List.map_cons, List.mem_cons, h', false_or]

theorem mapGet_mem {V : Type} (m : List (String × V)) (k : String) (v : V)
    (h : mapGet m k = some v) : (k, v) ∈ m := by
  induction m with
  | nil => simp [mapGet] at h
  | cons e rest ih =>
    obtain ⟨k', v'⟩ := e
    by_cases hk : k' = k
    · simp [mapGet, hk] at h
      simp [hk, h]
    · simp [mapGet, hk] at h
      exact List.mem_cons_of_mem _ (ih h)

theorem mapGet_of_mem {V : Type} (m : List (String × V)) (k : String) (v : V)
    (h : (k, v) ∈ m) : ∃ v', mapGet m k = some v' := by
  cases hg : mapGet m k with
  | some v' => exact ⟨v', rfl⟩
  | none =>
    exfalso
    rw [mapGet_eq_none_iff] at hg
    exact hg (List.mem_map.mpr ⟨(k, v), h, rfl⟩)

theorem mapKeys_mapSet {V : Type} (m : List (String × V)) (k : String) (v : V) :
    mapKeys (mapSet m k v) = mapKeys m := by
  induction m with
  | nil => rfl
  | cons e rest ih =>
    simp only [mapKeys, mapSet, List.map_cons] at ih ⊢
    rw [ih]
    by_cases h : e.1 = k <;> simp [h]

theorem mapSet_cons {V : Type} (k0 : String) (v0 : V) (rest : List (String × V))
    (k : String) (v : V) :
    mapSet ((k0, v0) :: rest) k v
      = (if k0 = k then (k0, v) else (k0, v0)) :: mapSet rest k v := rfl

theorem mapGet_cons {V : Type} (k0 : String) (v0 : V) (rest : List (String × V))
    (k : String) :
    mapGet ((k0, v0) :: rest) k = if k0 = k then some v0 else mapGet rest k := rfl

theorem mapGet_mapSet_self {V : Type} (m : List (String × V)) (k : String) (v v0 : V)
    (h : mapGet m k = some v0) : mapGet (mapSet m k v) k = some v := by
  induction m with
  | nil => simp [mapGet] at h
  | cons e rest ih =>
    obtain ⟨k', v'⟩ := e
    rw [mapSet_cons]
    by_cases hk : k' = k
    · rw [if_pos hk, mapGet_cons, if_pos hk]
    · rw [mapGet_cons, if_neg hk] at h
      rw [if_neg hk, mapGet_cons, if_neg hk]
      exact ih h

theorem mapGet_mapSet_ne {V : Type} (m : List (String × V)) (k k' : String) (v : V)
    (hne : k' ≠ k) : mapGet (mapSet m k v) k' = mapGet m k' := by
  induction m with
  | nil => rfl
  | cons e rest ih =>
    obtain ⟨k0, v0⟩ := e
    rw [mapSet_cons, mapGet_cons]
    by_cases hk : k0 = k
    · have h0 : ¬ k0 = k' := fun x => hne (x.symm.trans hk)
      rw [if_pos hk, mapGet_cons, if_neg h0, if_neg h0]
      exact ih
    · rw [if_neg hk, mapGet_cons]
      by_cases hk' : k0 = k'
      · rw [if_pos hk', if_pos hk']
      · rw [if_neg hk', if_neg hk']
        exact ih

theorem mapGet_mapSet {V : Type} (m : List (String × V)) (k k' : String) (v : V) :
    mapGet (mapSet m k v) k'
      = if k' = k then (mapGet m k).map (fun _ => v) else mapGet m k' := by
  by_cases h : k' = k
  · subst h
    rw [if_pos rfl]
    cases hg : mapGet m k' with
    | none =>
      have h1 := (mapGet_eq_none_iff m k').mp hg
      rw [← mapKeys_mapSet m k' v] at h1
      rw [(mapGet_eq_none_iff _ k').mpr h1]
      rfl
    | some v0 => rw [mapGet_mapSet_self m k' v v0 hg]; rfl
  · rw [if_neg h]
    exact mapGet_mapSet_ne m k k' v h

theorem mapSet_of_not_mem {V : Type} (m : List (String × V)) (k : String) (v : V)
    (h : k ∉ mapKeys m) : mapSet m k v = m := by
  induction m with
  | nil => rfl
  | cons e rest ih =>
    obtain ⟨k0, v0⟩ := e
    simp only [mapKeys, List.map_cons, List.mem_cons, not_or] at h
    rw [mapSet_cons, if_neg (fun x => h.1 x.symm)]
    rw [ih (by simpa [mapKeys] using h.2)]

theorem mapKeys_mapPut {V : Type} (m : List (String × V)) (k : String) (v : V) :
    mapKeys (mapPut m k v) = if k ∈ mapKeys m then mapKeys m else mapKeys m ++ [k] := by
  unfold mapPut
  by_cases h : k ∈ mapKeys m
  · rw [if_pos h, if_pos h, mapKeys_mapSet]
  · rw [if_neg h, if_neg h]
    simp [mapKeys]

theorem mapGet_append_of_not_mem {V : Type} (m : List (String × V)) (k k' : String) (v : V)
    (h : k ∉ mapKeys m) :
    mapGet (m ++ [(k, v)]) k' = if k' = k then some v else mapGet m k' := by
  induction m with
  | nil =>
    by_cases hk : k = k'
    · subst hk; simp [mapGet]
    · have : ¬ k' = k := fun x => hk x.symm
      simp [mapGet, hk, this]
  | cons e rest ih =>
    obtain ⟨k0, v0⟩ := e
    simp only [mapKeys, List.map_cons, List.mem_cons, not_or] at h
    rw [List.cons_append, mapGet_cons, mapGet_cons, ih (by simpa [mapKeys] using h.2)]
    by_cases hk0 : k0 = k'
    · have : ¬ k' = k := fun x => h.1 (x.symm.trans hk0.symm)
      rw [if_pos hk0, if_pos hk0, if_neg this]
    · rw [if_neg hk0, if_neg hk0]

theorem mapGet_mapPut {V : Type} (m : List (String × V)) (k k' : String) (v : V) :
    mapGet (mapPut m k v) k' = if k' = k then some v else mapGet m k' := by
  unfold mapPut
  by_cases h : k ∈ mapKeys m
  · rw [if_pos h, mapGet_mapSet]
    by_cases hk : k' = k
    · rw [if_pos hk, if_pos hk]
      cases hg : mapGet m k with
      | none => exact absurd h ((mapGet_eq_none_iff m k).mp hg)
      | some v0 => rfl
    · rw [if_neg hk, if_neg hk]
  · rw [if_neg h]
    exact mapGet_append_of_not_mem m k k' v h

/-! ## `RequestTask` -/

theorem requestLoop_no_idle (c : Coordinator) (args : TaskArgs) (now : Int)
    (reply : TaskReply) (ks : List String)
    (h : ∀ k ∈ ks, ∀ t, mapGet c.tasks k = some t → t.state ≠ idleTask) :
    requestLoop c args now reply ks = (c, reply) := by
  induction ks with
  | nil => rfl
  | cons k ks ih =>
    have ih' := ih (fun k' hk' => h k' (List.mem_cons_of_mem _ hk'))
    cases hg : mapGet c.tasks k with
    | none => simp only [requestLoop, hg]; exact ih'
    | some t =>
      have hne := h k (List.mem_cons_self _ _) t hg
      simp only [requestLoop, hg, hne, if_false]
      exact ih'

/-- What the loop of `RequestTask` does when some visited key holds an idle task. -/
theorem requestLoop_idle (c : Coordinator) (args : TaskArgs) (now : Int)
    (reply : TaskReply) (ks : List String)
    (h : ∃ k ∈ ks, ∃ t, mapGet c.tasks k = some t ∧ t.state = idleTask) :
    ∃ k ∈ ks, ∃ t, mapGet c.tasks k = some t ∧ t.state = idleTask ∧
      (requestLoop c args now reply ks).1
        = { c with tasks := (mapSet c.tasks k
              { t with state := runningTask, workerID := args.WorkerID, startTime := now }) } ∧
      (requestLoop c args now reply ks).2.TaskID = t.id ∧
      (requestLoop c args now reply ks).2.TaskType = t.tType ∧
      (requestLoop c args now reply ks).2.NReduce = c.nReduce ∧
      (requestLoop c args now reply ks).2.MapFileName
        = (if t.tType = mapTask then t.mapFileName else reply.MapFileName) ∧
      (requestLoop c args now reply ks).2.ReduceFileNames
        = (if t.tType = reduceTask then t.reduceFileNames else reply.ReduceFileNames) := by
  induction ks with
  | nil => simp at h
  | cons k ks ih =>
    by_cases hk : ∃ t, mapGet c.tasks k = some t ∧ t.state = idleTask
    · obtain ⟨t, hg, hi⟩ := hk
      refine ⟨k, List.mem_cons_self _ _, t, hg, hi, ?_⟩
      simp only [requestLoop, hg, hi, if_true]
      refine ⟨trivial, ?_, ?_, ?_, ?_, ?_⟩
      · split_ifs <;> rfl
      · split_ifs <;> rfl
      · split_ifs <;> rfl
      · split_ifs <;> rfl
      · split_ifs <;> rfl
    · have hrest : ∃ k' ∈ ks, ∃ t, mapGet c.tasks k' = some t ∧ t.state = idleTask := by
        obtain ⟨k', hk', t, hg, hi⟩ := h
        rcases List.mem_cons.mp hk' with rfl | hmem
        · exact absurd ⟨t, hg, hi⟩ hk
        · exact ⟨k', hmem, t, hg, hi⟩
      obtain ⟨k', hk', t, hg, hi, hrest'⟩ := ih hrest
      refine ⟨k', List.mem_cons_of_mem _ hk', t, hg, hi, ?_⟩
      have hstep : requestLoop c args now reply (k :: ks) = requestLoop c args now reply ks := by
        cases hg0 : mapGet c.tasks k with
        | none => simp only [requestLoop, hg0]
        | some t0 =>
          have : ¬ t0.state = idleTask := fun hi0 => hk ⟨t0, hg0, hi0⟩
          simp only [requestLoop, hg0, this, if_false]
      rw [hstep]
      exact hrest'

/-- C1: when the job is not done and some task is Idle, `RequestTask` picks a
task that was Idle, makes it Running with the caller's id and the current time,
answers with its id, kind, `nReduce` and input, and changes nothing else: the
new state is the old one with that single ledger entry rewritten. -/
theorem C1_requestTask_assigns_idle (rangeOrder : List String → List String)
    (c : Coordinator) (args : TaskArgs) (now : Int)
    (hord : IsRangeOrder rangeOrder) (hdone : c.done = false)
    (hidle : ∃ k t, mapGet c.tasks k = some t ∧ t.state = idleTask) :
    ∃ k t, mapGet c.tasks k = some t ∧ t.state = idleTask ∧
      (RequestTask rangeOrder c args now).1
        = { c with tasks := (mapSet c.tasks k
              { t with state := runningTask, workerID := args.WorkerID, startTime := now }) } ∧
      mapGet (RequestTask rangeOrder c args now).1.tasks k
        = some { t with state := runningTask, workerID := args.WorkerID, startTime := now } ∧
      (∀ k', k' ≠ k →
        mapGet (RequestTask rangeOrder c args now).1.tasks k' = mapGet c.tasks k') ∧
      mapKeys (RequestTask rangeOrder c args now).1.tasks = mapKeys c.tasks ∧
      (RequestTask rangeOrder c args now).1.nMapDone = c.nMapDone ∧
      (RequestTask rangeOrder c args now).1.nReduceDone = c.nReduceDone ∧
      (RequestTask rangeOrder c args now).1.done = c.done ∧
      (RequestTask rangeOrder c args now).1.intermediateFileNames = c.intermediateFileNames ∧
      (RequestTask rangeOrder c args now).2.TaskID = t.id ∧
      (RequestTask rangeOrder c args now).2.TaskType = t.tType ∧
      (RequestTask rangeOrder c args now).2.NReduce = c.nReduce ∧
      (t.tType = mapTask → (RequestTask rangeOrder c args now).2.MapFileName = t.mapFileName) ∧
      (t.tType = reduceTask →
        (RequestTask rangeOrder c args now).2.ReduceFileNames = t.reduceFileNames) := by
  obtain ⟨k0, t0, hg0, hi0⟩ := hidle
  have hmem : k0 ∈ rangeOrder (mapKeys c.tasks) := by
    have hk : k0 ∈ mapKeys c.tasks := by
      by_contra hn
      rw [(mapGet_eq_none_iff c.tasks k0).mpr hn] at hg0
      exact Option.noConfusion hg0
    exact (hord (mapKeys c.tasks)).mem_iff.mpr hk
  have hrun : RequestTask rangeOrder c args now
      = requestLoop c args now { TaskReply.zero with TaskType := waitTask }
          (rangeOrder (mapKeys c.tasks)) := by
    simp [RequestTask, hdone]
  obtain ⟨k, _, t, hg, hi, hstate, hid, hty, hn, hmf, hrf⟩ :=
    requestLoop_idle c args now { TaskReply.zero with TaskType := waitTask }
      (rangeOrder (mapKeys c.tasks)) ⟨k0, hmem, t0, hg0, hi0⟩
  rw [hrun]
  refine ⟨k, t, hg, hi, hstate, ?_, ?_, ?_, ?_, ?_, ?_, ?_, hid, hty, hn, ?_, ?_⟩
  · rw [hstate]; exact mapGet_mapSet_self c.tasks k _ t hg
  · intro k' hne; rw [hstate]; exact mapGet_mapSet_ne c.tasks k k' _ hne
  · rw [hstate]; exact mapKeys_mapSet c.tasks k _
  · rw [hstate]
  · rw [hstate]
  · rw [hstate]
  · rw [hstate]
  · intro h1; rw [hmf, if_pos h1]
  · intro h2; rw [hrf, if_pos h2]

/-- C2: `RequestTask` answers Exit whenever the done flag is set and Wait
whenever it is not set and no task of the ledger is Idle; either way the
coordinator state it leaves is the state it found. -/
theorem C2_requestTask_exit_wait_frame (rangeOrder : List String → List String)
    (c : Coordinator) (args : TaskArgs) (now : Int) :
    (c.done = true →
      RequestTask rangeOrder c args now
        = (c, { TaskReply.zero with TaskType := exitTask })) ∧
    (c.done = false → (∀ e ∈ c.tasks, e.2.state ≠ idleTask) →
      RequestTask rangeOrder c args now
        = (c, { TaskReply.zero with TaskType := waitTask })) := by
  constructor
  · intro hd
    simp [RequestTask, hd]
  · intro hd hno
    have hrun : RequestTask rangeOrder c args now
        = requestLoop c args now { TaskReply.zero with TaskType := waitTask }
            (rangeOrder (mapKeys c.tasks)) := by
      simp [RequestTask, hd]
    rw [hrun]
    apply requestLoop_no_idle
    intro k _ t hg
    exact hno (k, t) (mapGet_mem c.tasks k t hg)

/-! ## Decimal text -/

theorem digitChar_spec : ∀ m, m < 10 →
    (Nat.digitChar m).isDigit = true ∧ (Nat.digitChar m).toNat - 48 = m := by
  decide

theorem toDigitsCore_append (fuel : Nat) : ∀ (n : Nat) (ds : List Char),
    Nat.toDigitsCore 10 fuel n ds = Nat.toDigitsCore 10 fuel n [] ++ ds := by
  induction fuel with
  | zero => intro n ds; simp [Nat.toDigitsCore]
  | succ fuel ih =>
    intro n ds
    simp only [Nat.toDigitsCore]
    by_cases h : n / 10 = 0
    · simp [h]
    · simp only [h, if_false]
      rw [ih (n / 10) (Nat.digitChar (n % 10) :: ds), ih (n / 10) [Nat.digitChar (n % 10)]]
      simp

/-- The decimal digits of `n`, most significant first, by the usual recursion. -/
theorem toDigits_step (n : Nat) (fuel : Nat) (h : n < fuel) :
    Nat.toDigitsCore 10 fuel n []
      = (if n / 10 = 0 then [] else Nat.toDigitsCore 10 (fuel - 1) (n / 10) [])
          ++ [Nat.digitChar (n % 10)] := by
  cases fuel with
  | zero => omega
  | succ fuel =>
    simp only [Nat.toDigitsCore, Nat.add_sub_cancel]
    by_cases h0 : n / 10 = 0
    · simp [h0]
    · simp only [h0, if_false]
      exact toDigitsCore_append fuel (n / 10) _

/-- Value of a digit string read from the left, starting from `acc`. -/
theorem foldl_digits_toDigitsCore : ∀ (n fuel acc : Nat), n < fuel →
    (Nat.toDigitsCore 10 fuel n []).foldl (fun a ch => a * 10 + (ch.toNat - 48)) acc
      = acc * 10 ^ (Nat.toDigitsCore 10 fuel n []).length + n := by
  intro n
  induction n using Nat.strong_induction_on with
  | _ n ih =>
    intro fuel acc h
    rw [toDigits_step n fuel h]
    have hd := digitChar_spec (n % 10) (Nat.mod_lt n (by decide))
    by_cases h0 : n / 10 = 0
    · simp only [h0, if_true, List.nil_append, List.foldl_cons, List.foldl_nil, hd.2,
        List.length_singleton, pow_one]
      omega
    · simp only [h0, if_false, List.foldl_append, List.foldl_cons, List.foldl_nil, hd.2,
        List.length_append, List.length_singleton]
      rw [ih (n / 10) (by omega) (fuel - 1) acc (by omega)]
      rw [pow_succ]
      have := Nat.div_add_mod n 10
      nlinarith [Nat.div_add_mod n 10]
theorem toDigitsCore_isDigit : ∀ (n fuel : Nat), n < fuel →
    ∀ ch ∈ Nat.toDigitsCore 10 fuel n [], ch.isDigit = true := by
  intro n
  induction n using Nat.strong_induction_on with
  | _ n ih =>
    intro fuel h ch hch
    rw [toDigits_step n fuel h] at hch
    have hd := digitChar_spec (n % 10) (Nat.mod_lt n (by decide))
    by_cases h0 : n / 10 = 0
    · simp only [h0, if_true, List.nil_append, List.mem_singleton] at hch
      rw [hch]; exact hd.1
    · simp only [h0, if_false, List.mem_append, List.mem_singleton] at hch
      rcases hch with hch | hch
      · exact ih (n / 10) (by omega) (fuel - 1) (by omega) ch hch
      · rw [hch]; exact hd.1

theorem toDigitsCore_ne_nil (n fuel : Nat) (h : n < fuel) :
    Nat.toDigitsCore 10 fuel n [] ≠ [] := by
  rw [toDigits_step n fuel h]
  simp

theorem repr_data (n : Nat) : (Nat.repr n).data = Nat.toDigitsCore 10 (n + 1) n [] := rfl

theorem repr_isDigit (n : Nat) : ∀ ch ∈ (Nat.repr n).data, ch.isDigit = true :=
  toDigitsCore_isDigit n (n + 1) (Nat.lt_succ_self n)

theorem repr_ne_nil (n : Nat) : (Nat.repr n).data ≠ [] :=
  toDigitsCore_ne_nil n (n + 1) (Nat.lt_succ_self n)

theorem repr_value (n : Nat) :
    (Nat.repr n).data.foldl (fun a ch => a * 10 + (ch.toNat - 48)) 0 = n := by
  rw [repr_data, foldl_digits_toDigitsCore n (n + 1) 0 (Nat.lt_succ_self n)]
  simp

theorem repr_injective (n m : Nat) (h : Nat.repr n = Nat.repr m) : n = m := by
  have h1 := repr_value n
  rw [h, repr_value m] at h1
  exact h1.symm

theorem isDigit_ne_minus (ch : Char) (h : ch.isDigit = true) : ch ≠ '-' := by
  intro hc
  rw [hc] at h
  exact absurd h (by decide)

theorem isDigit_ne_plus (ch : Char) (h : ch.isDigit = true) : ch ≠ '+' := by
  intro hc
  rw [hc] at h
  exact absurd h (by decide)

theorem string_eq_of_data (s t : String) (h : s.data = t.data) : s = t := by
  cases s; cases t
  simp only at h
  subst h
  rfl

theorem Itoa_nat (n : Nat) : Itoa (n : Int) = Nat.repr n := rfl

theorem Itoa_injective (i j : Int) (h : Itoa i = Itoa j) : i = j := by
  cases i with
  | ofNat n =>
    cases j with
    | ofNat m =>
      have : n = m := repr_injective n m h
      rw [this]
    | negSucc m =>
      exfalso
      have hd : (Nat.repr n).data = '-' :: (Nat.repr (m + 1)).data := by
        have := congrArg String.data h
        simpa [Itoa] using this
      have hne := repr_ne_nil n
      have hdig := repr_isDigit n
      rw [hd] at hdig
      exact isDigit_ne_minus '-' (hdig '-' (List.mem_cons_self _ _)) rfl
  | negSucc n =>
    cases j with
    | ofNat m =>
      exfalso
      have hd : '-' :: (Nat.repr (n + 1)).data = (Nat.repr m).data := by
        have := congrArg String.data h
        simpa [Itoa] using this
      have hdig := repr_isDigit m
      rw [← hd] at hdig
      exact isDigit_ne_minus '-' (hdig '-' (List.mem_cons_self _ _)) rfl
    | negSucc m =>
      have hd : (Nat.repr (n + 1)).data = (Nat.repr (m + 1)).data := by
        have := congrArg String.data h
        simpa [Itoa] using this
      have hs : Nat.repr (n + 1) = Nat.repr (m + 1) := string_eq_of_data _ _ hd
      have := repr_injective _ _ hs
      have : n = m := by omega
      rw [this]

theorem mapKey_ne_reduceKey (i j : Int) : mapKey i ≠ reduceKey j := by
  intro h
  have := congrArg String.data h
  simp [mapKey, reduceKey] at this

theorem mapKey_injective (i j : Int) (h : mapKey i = mapKey j) : i = j := by
  apply Itoa_injective
  have := congrArg String.data h
  simp only [mapKey, String.data_append, List.append_cancel_left_eq] at this
  exact string_eq_of_data _ _ this

theorem reduceKey_injective (i j : Int) (h : reduceKey i = reduceKey j) : i = j := by
  apply Itoa_injective
  have := congrArg String.data h
  simp only [reduceKey, String.data_append, List.append_cancel_left_eq] at this
  exact string_eq_of_data _ _ this
/-! ## `strconv.Atoi` after `strconv.Itoa`, and `strings.Split` -/

theorem foldl_digits_ge (cs : List Char) : ∀ acc : Nat,
    acc ≤ cs.foldl (fun a ch => a * 10 + (ch.toNat - 48)) acc := by
  induction cs with
  | nil => intro acc; exact Nat.le_refl _
  | cons ch rest ih =>
    intro acc
    simp only [List.foldl_cons]
    have := ih (acc * 10 + (ch.toNat - 48))
    omega

theorem parseUintLoop_digits (cs : List Char) : ∀ acc : Nat,
    (∀ ch ∈ cs, ch.isDigit = true) →
    cs.foldl (fun a ch => a * 10 + (ch.toNat - 48)) acc < 2 ^ 64 →
    parseUintLoop acc cs
      = ParseRes.value (cs.foldl (fun a ch => a * 10 + (ch.toNat - 48)) acc) := by
  induction cs with
  | nil => intro acc _ _; rfl
  | cons ch rest ih =>
    intro acc hdig hlt
    simp only [List.foldl_cons] at hlt ⊢
    have hge := foldl_digits_ge rest (acc * 10 + (ch.toNat - 48))
    have hch : ch.isDigit = true := hdig ch (List.mem_cons_self _ _)
    have h1 : ¬ acc ≥ 2 ^ 64 / 10 + 1 := by
      have : (2:Nat) ^ 64 / 10 + 1 = 1844674407370955162 := by norm_num
      rw [this]
      have h64 : (2:Nat) ^ 64 = 18446744073709551616 := by norm_num
      rw [h64] at hlt
      omega
    have h2 : ¬ acc * 10 + (ch.toNat - 48) ≥ 2 ^ 64 := by omega
    simp only [parseUintLoop, hch, if_true, h1, h2, if_false]
    exact ih _ (fun c hc => hdig c (List.mem_cons_of_mem _ hc)) hlt

theorem Atoi_repr (n : Nat) (h : n < 2 ^ 63) : Atoi (Nat.repr n) = (n : Int) := by
  have hdig := repr_isDigit n
  have hval := repr_value n
  have hne := repr_ne_nil n
  unfold Atoi
  cases hd : (Nat.repr n).data with
  | nil => exact absurd hd hne
  | cons ch rest =>
    rw [hd] at hdig hval
    have hch : ch.isDigit = true := hdig ch (List.mem_cons_self _ _)
    have hp := isDigit_ne_plus ch hch
    have hm := isDigit_ne_minus ch hch
    simp only [hp, hm, if_false]
    have h64 : (ch :: rest).foldl (fun a c => a * 10 + (c.toNat - 48)) 0 < 2 ^ 64 := by
      rw [hval]
      have : (2:Nat) ^ 63 < 2 ^ 64 := by norm_num
      omega
    have hloop := parseUintLoop_digits (ch :: rest) 0 hdig h64
    rw [hval] at hloop
    have hn : ¬ n ≥ 2 ^ 63 := by omega
    simp only [parseIntValue, hloop, hn, if_false]
    simp

theorem splitOnChar_ne_nil (sep : Char) (cs : List Char) : splitOnChar sep cs ≠ [] := by
  induction cs with
  | nil => simp [splitOnChar]
  | cons c cs ih =>
    simp only [splitOnChar]
    split_ifs
    · simp
    · cases h : splitOnChar sep cs with
      | nil => simp
      | cons p ps => simp

theorem splitOnChar_no_sep (sep : Char) (a : List Char) (h : ∀ c ∈ a, c ≠ sep) :
    splitOnChar sep a = [a] := by
  induction a with
  | nil => rfl
  | cons c cs ih =>
    have hc : c ≠ sep := h c (List.mem_cons_self _ _)
    simp only [splitOnChar, hc, if_false, ih (fun x hx => h x (List.mem_cons_of_mem _ hx))]

theorem splitOnChar_append (sep : Char) (a b : List Char) (h : ∀ c ∈ a, c ≠ sep) :
    splitOnChar sep (a ++ sep :: b) = a :: splitOnChar sep b := by
  induction a with
  | nil => simp [splitOnChar]
  | cons c cs ih =>
    have hc : c ≠ sep := h c (List.mem_cons_self _ _)
    have ih' := ih (fun x hx => h x (List.mem_cons_of_mem _ hx))
    rw [List.cons_append]
    simp only [splitOnChar, hc, if_false]
    rw [ih']

theorem repr_no_minus (n : Nat) : ∀ c ∈ (Nat.repr n).data, c ≠ '-' :=
  fun c hc => isDigit_ne_minus c (repr_isDigit n c hc)

theorem Split_intermediateName (x y : Nat) :
    Split (intermediateName x y) '-' = ["mr", Nat.repr x, Nat.repr y] := by
  have h1 : (intermediateName x y).data
      = ['m', 'r'] ++ '-' :: ((Nat.repr x).data ++ '-' :: (Nat.repr y).data) := by
    simp [intermediateName, Itoa_nat]
  unfold Split
  rw [h1, splitOnChar_append '-' ['m', 'r'] _ (by decide),
    splitOnChar_append '-' _ _ (repr_no_minus x), splitOnChar_no_sep '-' _ (repr_no_minus y)]
  rfl

/-- The bucket index that `startReduce` reads off a file name. -/
theorem bucket_of_intermediateName (x y : Nat) (hy : y < 2 ^ 63) :
    ((Split (intermediateName x y) '-').get? 2).map Atoi = some (y : Int) := by
  rw [Split_intermediateName]
  simp [Atoi_repr y hy]

/-! ## `TaskDone`: the paths through the handler -/

theorem mapTask_ne_reduceTask : mapTask ≠ reduceTask := by decide

theorem TaskDone_map_not_found (rangeOrder : List String → List String) (c : Coordinator)
    (args : DoneArgs) (hty : args.TaskType = mapTask)
    (hg : mapGet c.tasks (mapKey args.TaskID) = none) :
    TaskDone rangeOrder c args
      = some { c := c, reply := DoneReply.zero, err := some "task not found" } := by
  simp [TaskDone, hty, taskDoneMap, hg]

theorem TaskDone_reduce_not_found (rangeOrder : List String → List String) (c : Coordinator)
    (args : DoneArgs) (hty : args.TaskType = reduceTask)
    (hg : mapGet c.tasks (reduceKey args.TaskID) = none) :
    TaskDone rangeOrder c args
      = some { c := c, reply := DoneReply.zero, err := some "task not found" } := by
  have hne : ¬ args.TaskType = mapTask := by rw [hty]; decide
  simp [TaskDone, hty, hne, taskDoneReduce, hg, mapTask_ne_reduceTask.symm]

/-- The state a Map report leaves before the transition test. -/
theorem TaskDone_map_found (rangeOrder : List String → List String) (c : Coordinator)
    (args : DoneArgs) (t : Task) (hty : args.TaskType = mapTask)
    (hg : mapGet c.tasks (mapKey args.TaskID) = some t) :
    TaskDone rangeOrder c args
      = if c.nMapDone + 1 = c.nMap then
          (startReduce rangeOrder
            { c with
              tasks := mapSet c.tasks (mapKey args.TaskID) { t with state := completedTask },
              nMapDone := c.nMapDone + 1,
              intermediateFileNames :=
                args.IntermediateFileNames.foldl setAdd c.intermediateFileNames }).map
            taskDoneFinish
        else
          some (taskDoneFinish
            { c with
              tasks := mapSet c.tasks (mapKey args.TaskID) { t with state := completedTask },
              nMapDone := c.nMapDone + 1,
              intermediateFileNames :=
                args.IntermediateFileNames.foldl setAdd c.intermediateFileNames }) := by
  have hne : ¬ mapTask = reduceTask := by decide
  by_cases h : c.nMapDone + 1 = c.nMap
  · simp only [TaskDone, hty, if_true, taskDoneMap, hg, h, hne, if_false]
    cases startReduce rangeOrder _ <;> rfl
  · simp only [TaskDone, hty, if_true, taskDoneMap, hg, h, hne, if_false]

theorem TaskDone_reduce_found (rangeOrder : List String → List String) (c : Coordinator)
    (args : DoneArgs) (t : Task) (hty : args.TaskType = reduceTask)
    (hg : mapGet c.tasks (reduceKey args.TaskID) = some t) :
    TaskDone rangeOrder c args
      = some (taskDoneFinish
          { c with
            tasks := mapSet c.tasks (reduceKey args.TaskID) { t with state := completedTask },
            nReduceDone := c.nReduceDone + 1 }) := by
  have hne : ¬ reduceTask = mapTask := by decide
  simp only [TaskDone, hty, hne, if_false, if_true, taskDoneReduce, hg]

theorem TaskDone_other (rangeOrder : List String → List String) (c : Coordinator)
    (args : DoneArgs) (h1 : args.TaskType ≠ mapTask) (h2 : args.TaskType ≠ reduceTask) :
    TaskDone rangeOrder c args = some (taskDoneFinish c) := by
  simp only [TaskDone, h1, h2, if_false]

theorem taskDoneFinish_tasks (c : Coordinator) : (taskDoneFinish c).c.tasks = c.tasks := by
  unfold taskDoneFinish
  split_ifs <;> rfl

theorem taskDoneFinish_counters (c : Coordinator) :
    (taskDoneFinish c).c.nMapDone = c.nMapDone ∧ (taskDoneFinish c).c.nMap = c.nMap ∧
    (taskDoneFinish c).c.nReduceDone = c.nReduceDone ∧
    (taskDoneFinish c).c.nReduce = c.nReduce ∧
    (taskDoneFinish c).c.intermediateFileNames = c.intermediateFileNames := by
  unfold taskDoneFinish
  split_ifs <;> exact ⟨rfl, rfl, rfl, rfl, rfl⟩
/-! ## `startReduce`: the tasks it creates -/

theorem createReduceTasks_succ (af : List (List String)) (n : Nat)
    (tasks : List (String × Task)) :
    createReduceTasks af (n + 1) tasks
      = mapPut (createReduceTasks af n tasks) (reduceKey n)
          (newReduceTask n (af.getD n [])) := by
  simp [createReduceTasks, List.range_succ, List.foldl_append]

theorem reduceKey_nat_injective (i j : Nat) (h : reduceKey (i : Int) = reduceKey (j : Int)) :
    i = j := by
  have := reduceKey_injective _ _ h
  exact Int.ofNat.inj this

theorem mapGet_createReduceTasks_other (af : List (List String)) (n : Nat)
    (tasks : List (String × Task)) (k : String) (h : ∀ i, i < n → k ≠ reduceKey (i : Int)) :
    mapGet (createReduceTasks af n tasks) k = mapGet tasks k := by
  induction n with
  | zero => rfl
  | succ n ih =>
    rw [createReduceTasks_succ, mapGet_mapPut, if_neg (h n (Nat.lt_succ_self n))]
    exact ih (fun i hi => h i (Nat.lt_succ_of_lt hi))

theorem mapGet_createReduceTasks_self (af : List (List String)) (n : Nat)
    (tasks : List (String × Task)) (i : Nat) (h : i < n) :
    mapGet (createReduceTasks af n tasks) (reduceKey (i : Int))
      = some (newReduceTask i (af.getD i [])) := by
  induction n with
  | zero => omega
  | succ n ih =>
    rw [createReduceTasks_succ, mapGet_mapPut]
    by_cases hin : i = n
    · subst hin
      rw [if_pos rfl]
    · have hne : ¬ reduceKey (i : Int) = reduceKey (n : Int) :=
        fun hk => hin (reduceKey_nat_injective i n hk)
      rw [if_neg hne]
      exact ih (by omega)

/-- Every entry of the ledger after the second loop of `startReduce` is a task
the loop has just built or an entry that was there before. -/
theorem mapGet_createReduceTasks_cases (af : List (List String)) (n : Nat)
    (tasks : List (String × Task)) (k : String) (t : Task)
    (h : mapGet (createReduceTasks af n tasks) k = some t) :
    (∃ i, i < n ∧ k = reduceKey (i : Int) ∧ t = newReduceTask i (af.getD i [])) ∨
    ((∀ i, i < n → k ≠ reduceKey (i : Int)) ∧ mapGet tasks k = some t) := by
  by_cases hk : ∃ i, i < n ∧ k = reduceKey (i : Int)
  · obtain ⟨i, hi, rfl⟩ := hk
    rw [mapGet_createReduceTasks_self af n tasks i hi] at h
    exact Or.inl ⟨i, hi, rfl, (Option.some.inj h).symm⟩
  · have hk' : ∀ i, i < n → k ≠ reduceKey (i : Int) := fun i hi he => hk ⟨i, hi, he⟩
    rw [mapGet_createReduceTasks_other af n tasks k hk'] at h
    exact Or.inr ⟨hk', h⟩

theorem startReduce_eq (rangeOrder : List String → List String) (c c1 : Coordinator)
    (h : startReduce rangeOrder c = some c1) :
    0 ≤ c.nReduce ∧
    ∃ af, startReduceLoop (List.replicate c.nReduce.toNat [])
        (rangeOrder c.intermediateFileNames) = some af ∧
      c1 = { c with tasks := createReduceTasks af c.nReduce.toNat c.tasks } := by
  unfold startReduce at h
  by_cases hn : c.nReduce < 0
  · simp [hn] at h
  · simp only [hn, if_false] at h
    refine ⟨by omega, ?_⟩
    cases hl : startReduceLoop (List.replicate c.nReduce.toNat [])
        (rangeOrder c.intermediateFileNames) with
    | none => simp [hl] at h
    | some af =>
      simp only [hl, Option.some.injEq] at h
      exact ⟨af, rfl, h.symm⟩

/-! ## The ledger invariant -/

theorem KeysOk_mapSet (tasks : List (String × Task)) (k : String) (t t1 : Task)
    (hk : KeysOk tasks) (hg : mapGet tasks k = some t) (hid : t1.id = t.id)
    (hty : t1.tType = t.tType) : KeysOk (mapSet tasks k t1) := by
  intro k' t' hg'
  rw [mapGet_mapSet] at hg'
  by_cases hkk : k' = k
  · rw [if_pos hkk, hg] at hg'
    have : t' = t1 := (Option.some.inj hg').symm
    rw [this, hid, hty, hkk]
    exact hk k t hg
  · rw [if_neg hkk] at hg'
    exact hk k' t' hg'

theorem AllMap_mapSet (tasks : List (String × Task)) (k : String) (t t1 : Task)
    (hk : AllMap tasks) (hg : mapGet tasks k = some t)
    (hty : t1.tType = t.tType) : AllMap (mapSet tasks k t1) := by
  intro k' t' hg'
  rw [mapGet_mapSet] at hg'
  by_cases hkk : k' = k
  · rw [if_pos hkk, hg] at hg'
    have : t' = t1 := (Option.some.inj hg').symm
    rw [this, hty]
    exact hk k t hg
  · rw [if_neg hkk] at hg'
    exact hk k' t' hg'

theorem KeysOk_createReduceTasks (af : List (List String)) (n : Nat)
    (tasks : List (String × Task)) (hk : KeysOk tasks) :
    KeysOk (createReduceTasks af n tasks) := by
  intro k t hg
  rcases mapGet_createReduceTasks_cases af n tasks k t hg with ⟨i, _, hki, hti⟩ | ⟨_, hold⟩
  · right
    rw [hki, hti]
    exact ⟨rfl, rfl⟩
  · exact hk k t hold

theorem mapGet_map_values {V : Type} (f : V → V) (m : List (String × V)) (k : String) :
    mapGet (m.map (fun e => (e.1, f e.2))) k = (mapGet m k).map f := by
  induction m with
  | nil => rfl
  | cons e rest ih =>
    obtain ⟨k0, v0⟩ := e
    simp only [List.map_cons, mapGet_cons]
    by_cases h : k0 = k
    · rw [if_pos h, if_pos h]; rfl
    · rw [if_neg h, if_neg h]; exact ih

theorem timeoutTask_id (now : Int) (t : Task) :
    (timeoutTask now t).id = t.id ∧ (timeoutTask now t).tType = t.tType ∧
    (timeoutTask now t).mapFileName = t.mapFileName ∧
    (timeoutTask now t).reduceFileNames = t.reduceFileNames ∧
    (timeoutTask now t).workerID = t.workerID ∧
    (timeoutTask now t).startTime = t.startTime := by
  unfold timeoutTask
  split_ifs <;> exact ⟨rfl, rfl, rfl, rfl, rfl, rfl⟩

theorem makeMapTasks_inv : ∀ (files : List String) (i : Nat) (tasks : List (String × Task)),
    KeysOk tasks → AllMap tasks →
    KeysOk (makeMapTasks i files tasks) ∧ AllMap (makeMapTasks i files tasks) := by
  intro files
  induction files with
  | nil => intro i tasks h1 h2; exact ⟨h1, h2⟩
  | cons f fs ih =>
    intro i tasks h1 h2
    simp only [makeMapTasks]
    apply ih
    · intro k t hg
      rw [mapGet_mapPut] at hg
      by_cases hk : k = mapKey (i : Int)
      · rw [if_pos hk] at hg
        have : t = newMapTask i f := (Option.some.inj hg).symm
        left
        rw [this, hk]
        exact ⟨rfl, rfl⟩
      · rw [if_neg hk] at hg
        exact h1 k t hg
    · intro k t hg
      rw [mapGet_mapPut] at hg
      by_cases hk : k = mapKey (i : Int)
      · rw [if_pos hk] at hg
        have : t = newMapTask i f := (Option.some.inj hg).symm
        rw [this]
        rfl
      · rw [if_neg hk] at hg
        exact h2 k t hg

theorem LedgerInv_init (files : List String) (nReduce : Int) :
    LedgerInv (MakeCoordinator files nReduce) := by
  have h := makeMapTasks_inv files 0 []
    (fun k t hg => by simp [mapGet] at hg) (fun k t hg => by simp [mapGet] at hg)
  exact ⟨h.1, le_refl _, fun _ => h.2⟩

/-! ## Steps and executions -/

theorem RequestTask_cases (rangeOrder : List String → List String) (c : Coordinator)
    (args : TaskArgs) (now : Int) :
    (RequestTask rangeOrder c args now).1 = c ∨
    ∃ k t, mapGet c.tasks k = some t ∧ t.state = idleTask ∧ c.done = false ∧
      (RequestTask rangeOrder c args now).1
        = { c with tasks := (mapSet c.tasks k
              { t with state := runningTask, workerID := args.WorkerID, startTime := now }) } ∧
      (RequestTask rangeOrder c args now).2.TaskID = t.id ∧
      (RequestTask rangeOrder c args now).2.TaskType = t.tType := by
  by_cases hd : c.done = true
  · left
    simp [RequestTask, hd]
  · have hd' : c.done = false := by simpa using hd
    have hrun : RequestTask rangeOrder c args now
        = requestLoop c args now { TaskReply.zero with TaskType := waitTask }
            (rangeOrder (mapKeys c.tasks)) := by
      simp [RequestTask, hd']
    rw [hrun]
    by_cases hi : ∃ k ∈ rangeOrder (mapKeys c.tasks), ∃ t,
        mapGet c.tasks k = some t ∧ t.state = idleTask
    · right
      obtain ⟨k, _, t, hg, hidle, hst, hid, hty, _⟩ := requestLoop_idle c args now _ _ hi
      exact ⟨k, t, hg, hidle, hd', hst, hid, hty⟩
    · left
      rw [requestLoop_no_idle]
      intro k hk t hg hidle
      exact hi ⟨k, hk, t, hg, hidle⟩

theorem LedgerInv_requestTask (rangeOrder : List String → List String) (c : Coordinator)
    (args : TaskArgs) (now : Int) (h : LedgerInv c) :
    LedgerInv (RequestTask rangeOrder c args now).1 := by
  rcases RequestTask_cases rangeOrder c args now with heq | ⟨k, t, hg, _, _, heq, _, _⟩
  · rw [heq]; exact h
  · rw [heq]
    exact ⟨KeysOk_mapSet c.tasks k t _ h.1 hg rfl rfl, h.2.1,
      fun hlt => AllMap_mapSet c.tasks k t _ (h.2.2 hlt) hg rfl⟩

theorem LedgerInv_checkTimeout (c : Coordinator) (now : Int) (h : LedgerInv c) :
    LedgerInv (checkTimeout c now) := by
  refine ⟨?_, h.2.1, ?_⟩
  · intro k t hg
    simp only [checkTimeout] at hg
    rw [mapGet_map_values] at hg
    cases hg0 : mapGet c.tasks k with
    | none => rw [hg0] at hg; simp at hg
    | some t0 =>
      rw [hg0] at hg
      have ht : t = timeoutTask now t0 := by simpa using hg.symm
      have hid := timeoutTask_id now t0
      rw [ht, hid.1, hid.2.1]
      exact h.1 k t0 hg0
  · intro hlt k t hg
    simp only [checkTimeout] at hg
    rw [mapGet_map_values] at hg
    cases hg0 : mapGet c.tasks k with
    | none => rw [hg0] at hg; simp at hg
    | some t0 =>
      rw [hg0] at hg
      have ht : t = timeoutTask now t0 := by simpa using hg.symm
      have hid := timeoutTask_id now t0
      rw [ht, hid.2.1]
      exact h.2.2 hlt k t0 hg0

theorem LedgerInv_taskDoneFinish (c : Coordinator) (h : LedgerInv c) :
    LedgerInv (taskDoneFinish c).c := by
  unfold LedgerInv BeforeTransition
  rw [taskDoneFinish_tasks, (taskDoneFinish_counters c).1, (taskDoneFinish_counters c).2.1]
  exact h

theorem LedgerInv_taskDone (rangeOrder : List String → List String) (c : Coordinator)
    (args : DoneArgs) (r : DoneResult) (h : LedgerInv c)
    (hr : TaskDone rangeOrder c args = some r) : LedgerInv r.c := by
  by_cases hm : args.TaskType = mapTask
  · cases hg : mapGet c.tasks (mapKey args.TaskID) with
    | none =>
      rw [TaskDone_map_not_found rangeOrder c args hm hg] at hr
      rw [← Option.some.inj hr]; exact h
    | some t =>
      rw [TaskDone_map_found rangeOrder c args t hm hg] at hr
      by_cases hn : c.nMapDone + 1 = c.nMap
      · rw [if_pos hn] at hr
        cases hs : startReduce rangeOrder
            { c with
              tasks := mapSet c.tasks (mapKey args.TaskID) { t with state := completedTask },
              nMapDone := c.nMapDone + 1,
              intermediateFileNames :=
                args.IntermediateFileNames.foldl setAdd c.intermediateFileNames } with
        | none => rw [hs] at hr; simp at hr
        | some c4 =>
          rw [hs] at hr
          simp only [Option.map_some', Option.some.injEq] at hr
          rw [← hr]
          apply LedgerInv_taskDoneFinish
          obtain ⟨_, af, _, hc4⟩ := startReduce_eq rangeOrder _ c4 hs
          rw [hc4]
          have h0 := h.2.1
          refine ⟨?_, by simp only; omega, ?_⟩
          · apply KeysOk_createReduceTasks
            exact KeysOk_mapSet c.tasks _ t _ h.1 hg rfl rfl
          · intro hlt
            simp only [BeforeTransition] at hlt
            omega
      · rw [if_neg hn] at hr
        rw [← Option.some.inj hr]
        apply LedgerInv_taskDoneFinish
        have h0 := h.2.1
        refine ⟨KeysOk_mapSet c.tasks _ t _ h.1 hg rfl rfl, by simp only; omega, ?_⟩
        intro hlt
        simp only [BeforeTransition] at hlt
        exact AllMap_mapSet c.tasks _ t _ (h.2.2 (by unfold BeforeTransition; omega)) hg rfl
  · by_cases hrd : args.TaskType = reduceTask
    · cases hg : mapGet c.tasks (reduceKey args.TaskID) with
      | none =>
        rw [TaskDone_reduce_not_found rangeOrder c args hrd hg] at hr
        rw [← Option.some.inj hr]; exact h
      | some t =>
        rw [TaskDone_reduce_found rangeOrder c args t hrd hg] at hr
        rw [← Option.some.inj hr]
        apply LedgerInv_taskDoneFinish
        exact ⟨KeysOk_mapSet c.tasks _ t _ h.1 hg rfl rfl, h.2.1,
          fun hlt => AllMap_mapSet c.tasks _ t _ (h.2.2 hlt) hg rfl⟩
    · rw [TaskDone_other rangeOrder c args hm hrd] at hr
      rw [← Option.some.inj hr]
      exact LedgerInv_taskDoneFinish c h

theorem LedgerInv_step (c c1 : Coordinator) (e : Event) (h : LedgerInv c)
    (hs : step c e = some c1) : LedgerInv c1 := by
  cases e with
  | requestTask rangeOrder args now =>
    simp only [step, Option.some.injEq] at hs
    rw [← hs]; exact LedgerInv_requestTask rangeOrder c args now h
  | taskDone rangeOrder args =>
    simp only [step] at hs
    cases hr : TaskDone rangeOrder c args with
    | none => rw [hr] at hs; simp at hs
    | some r =>
      rw [hr] at hs
      simp only [Option.map_some', Option.some.injEq] at hs
      rw [← hs]; exact LedgerInv_taskDone rangeOrder c args r h hr
  | timeoutScan now =>
    simp only [step, Option.some.injEq] at hs
    rw [← hs]; exact LedgerInv_checkTimeout c now h

theorem LedgerInv_run (es : List Event) : ∀ (c c1 : Coordinator), LedgerInv c →
    run c es = some c1 → LedgerInv c1 := by
  induction es with
  | nil =>
    intro c c1 h hr
    simp only [run, Option.some.injEq] at hr
    rw [← hr]; exact h
  | cons e es ih =>
    intro c c1 h hr
    simp only [run] at hr
    cases hs : step c e with
    | none => rw [hs] at hr; simp at hr
    | some c2 =>
      rw [hs] at hr
      simp only [Option.some_bind] at hr
      exact ih c2 c1 (LedgerInv_step c c2 e h hs) hr

theorem LedgerInv_reachable (files : List String) (nReduce : Int) (c : Coordinator)
    (h : Reachable files nReduce c) : LedgerInv c := by
  obtain ⟨es, _, hr⟩ := h
  exact LedgerInv_run es _ c (LedgerInv_init files nReduce) hr

/-! ## Claims on `TaskDone` -/

/-- C3: a `TaskDone` report of kind Map or Reduce whose key names no task of
the ledger is answered with the error "task not found" and leaves the whole
coordinator state as it was. In an execution this is the fate of every Reduce
report that arrives before the Map→Reduce transition, and of every Map or
Reduce report for which the ledger holds no task of that kind and id. -/
theorem C3_taskDone_unknown_task (rangeOrder : List String → List String)
    (c : Coordinator) (args : DoneArgs) :
    (args.TaskType = mapTask → mapGet c.tasks (mapKey args.TaskID) = none →
      TaskDone rangeOrder c args
        = some { c := c, reply := DoneReply.zero, err := some "task not found" }) ∧
    (args.TaskType = reduceTask → mapGet c.tasks (reduceKey args.TaskID) = none →
      TaskDone rangeOrder c args
        = some { c := c, reply := DoneReply.zero, err := some "task not found" }) ∧
    (∀ files nReduce, Reachable files nReduce c → BeforeTransition c →
      args.TaskType = reduceTask →
      TaskDone rangeOrder c args
        = some { c := c, reply := DoneReply.zero, err := some "task not found" }) ∧
    (∀ files nReduce, Reachable files nReduce c →
      (args.TaskType = mapTask ∨ args.TaskType = reduceTask) →
      (∀ k t, mapGet c.tasks k = some t →
        ¬ (t.tType = args.TaskType ∧ t.id = args.TaskID)) →
      TaskDone rangeOrder c args
        = some { c := c, reply := DoneReply.zero, err := some "task not found" }) := by
  refine ⟨TaskDone_map_not_found rangeOrder c args,
    TaskDone_reduce_not_found rangeOrder c args, ?_, ?_⟩
  · intro files nReduce hreach hbefore hty
    apply TaskDone_reduce_not_found rangeOrder c args hty
    have hinv := LedgerInv_reachable files nReduce c hreach
    cases hg : mapGet c.tasks (reduceKey args.TaskID) with
    | none => rfl
    | some t =>
      exfalso
      have hmap : t.tType = mapTask := hinv.2.2 hbefore _ t hg
      rcases hinv.1 _ t hg with ⟨hk, _⟩ | ⟨_, hr⟩
      · exact mapKey_ne_reduceKey _ _ hk.symm
      · rw [hmap] at hr
        exact mapTask_ne_reduceTask hr
  · intro files nReduce hreach hkind hnone
    have hinv := LedgerInv_reachable files nReduce c hreach
    rcases hkind with hty | hty
    · apply TaskDone_map_not_found rangeOrder c args hty
      cases hg : mapGet c.tasks (mapKey args.TaskID) with
      | none => rfl
      | some t =>
        exfalso
        rcases hinv.1 _ t hg with ⟨hk, hm⟩ | ⟨hk, _⟩
        · exact hnone _ t hg ⟨hm.trans hty.symm, (mapKey_injective _ _ hk).symm⟩
        · exact mapKey_ne_reduceKey _ _ hk
    · apply TaskDone_reduce_not_found rangeOrder c args hty
      cases hg : mapGet c.tasks (reduceKey args.TaskID) with
      | none => rfl
      | some t =>
        exfalso
        rcases hinv.1 _ t hg with ⟨hk, _⟩ | ⟨hk, hr⟩
        · exact mapKey_ne_reduceKey _ _ hk.symm
        · exact hnone _ t hg ⟨hr.trans hty.symm, (reduceKey_injective _ _ hk).symm⟩

theorem C3_taskDone_unknown_task_witness :
    TaskDone id (MakeCoordinator ["a"] 1)
        { WorkerID := 1, TaskID := 5, TaskType := mapTask, IntermediateFileNames := [] }
      = some { c := MakeCoordinator ["a"] 1, reply := DoneReply.zero,
               err := some "task not found" } ∧
    TaskDone id (MakeCoordinator ["a"] 1)
        { WorkerID := 1, TaskID := 0, TaskType := reduceTask, IntermediateFileNames := [] }
      = some { c := MakeCoordinator ["a"] 1, reply := DoneReply.zero,
               err := some "task not found" } :=
  ⟨(C3_taskDone_unknown_task id (MakeCoordinator ["a"] 1)
      { WorkerID := 1, TaskID := 5, TaskType := mapTask, IntermediateFileNames := [] }).1
      rfl (by decide),
   (C3_taskDone_unknown_task id (MakeCoordinator ["a"] 1)
      { WorkerID := 1, TaskID := 0, TaskType := reduceTask, IntermediateFileNames := [] }).2.2.1
      ["a"] 1 ⟨[], by simp, rfl⟩ (Or.inl (by decide)) rfl⟩

/-- C4: the code at the failing input. Of three Map tasks, task 0 is reported
done twice with the same file list: the first report makes it Completed and
brings `nMapDone` to 1, the second report brings `nMapDone` to 2. -/
theorem C4_duplicate_map_report_counted_twice :
    (run (MakeCoordinator ["a", "b", "c"] 1)
        [Event.taskDone id
          { WorkerID := 1, TaskID := 0, TaskType := mapTask,
            IntermediateFileNames := ["mr-0-0"] }]).map
      (fun c => ((mapGet c.tasks (mapKey 0)).map (fun t => t.state), c.nMapDone))
      = some (some completedTask, 1) ∧
    (run (MakeCoordinator ["a", "b", "c"] 1)
        [Event.taskDone id
          { WorkerID := 1, TaskID := 0, TaskType := mapTask,
            IntermediateFileNames := ["mr-0-0"] },
         Event.taskDone id
          { WorkerID := 1, TaskID := 0, TaskType := mapTask,
            IntermediateFileNames := ["mr-0-0"] }]).map
      (fun c => ((mapGet c.tasks (mapKey 0)).map (fun t => t.state), c.nMapDone))
      = some (some completedTask, 2) := by
  constructor <;> decide

theorem isRangeOrder_id : IsRangeOrder id := fun l => List.Perm.refl l

theorem isRangeOrder_reverse : IsRangeOrder List.reverse := fun l => List.reverse_perm l

/-- C5: the code at the failing input. Two Map tasks; worker 1 is given Map
task 0 and stalls, the task times out and is given to worker 2, and both
workers report it. The second report brings `nMapDone` to `nMap = 2`, the
transition runs, and the reached state holds Reduce task 0 while Map task 1 is
still Idle; the next `RequestTask` can answer with the Reduce task. -/
theorem C5_reduce_task_while_map_idle :
    ∃ c, Reachable ["a", "b"] 1 c ∧
      (mapGet c.tasks (reduceKey 0)).map (fun t => t.tType) = some reduceTask ∧
      (mapGet c.tasks (mapKey 1)).map (fun t => (t.tType, t.state))
        = some (mapTask, idleTask) ∧
      (RequestTask List.reverse c { WorkerID := 3 } 12000000000).2.TaskType = reduceTask := by
  refine ⟨_, ⟨[Event.requestTask id { WorkerID := 1 } 0,
      Event.timeoutScan 11000000000,
      Event.requestTask id { WorkerID := 2 } 11000000000,
      Event.taskDone id
        { WorkerID := 1, TaskID := 0, TaskType := mapTask,
          IntermediateFileNames := ["mr-0-0"] },
      Event.taskDone id
        { WorkerID := 2, TaskID := 0, TaskType := mapTask,
          IntermediateFileNames := ["mr-0-0"] }], ?_, rfl⟩, ?_, ?_, ?_⟩
  · intro e he
    simp only [List.mem_cons, List.mem_singleton, List.not_mem_nil, or_false] at he
    rcases he with rfl | rfl | rfl | rfl | rfl
    · exact isRangeOrder_id
    · trivial
    · exact isRangeOrder_id
    · exact isRangeOrder_id
    · exact isRangeOrder_id
  · decide
  · decide
  · decide

/-- C6: the code at the failing input. After the execution of C5 worker 3 is
given Reduce task 0 and reports it: `nReduceDone = nReduce = 1` and
`nMapDone = nMap = 2`, so `Done()` is true although Map task 1 is still Idle
and was never handed out. -/
theorem C6_done_while_map_idle :
    ∃ c, Reachable ["a", "b"] 1 c ∧ Done c = true ∧
      (mapGet c.tasks (mapKey 1)).map (fun t => (t.tType, t.state))
        = some (mapTask, idleTask) := by
  refine ⟨_, ⟨[Event.requestTask id { WorkerID := 1 } 0,
      Event.timeoutScan 11000000000,
      Event.requestTask id { WorkerID := 2 } 11000000000,
      Event.taskDone id
        { WorkerID := 1, TaskID := 0, TaskType := mapTask,
          IntermediateFileNames := ["mr-0-0"] },
      Event.taskDone id
        { WorkerID := 2, TaskID := 0, TaskType := mapTask,
          IntermediateFileNames := ["mr-0-0"] },
      Event.requestTask List.reverse { WorkerID := 3 } 12000000000,
      Event.taskDone id
        { WorkerID := 3, TaskID := 0, TaskType := reduceTask,
          IntermediateFileNames := [] }], ?_, rfl⟩, ?_, ?_⟩
  · intro e he
    simp only [List.mem_cons, List.mem_singleton, List.not_mem_nil, or_false] at he
    rcases he with rfl | rfl | rfl | rfl | rfl | rfl | rfl
    · exact isRangeOrder_id
    · trivial
    · exact isRangeOrder_id
    · exact isRangeOrder_id
    · exact isRangeOrder_id
    · exact isRangeOrder_reverse
    · exact isRangeOrder_id
  · decide
  · decide

/-! ## Completed tasks and the timeout scan -/

theorem task_completed_eq (t : Task) (h : t.state = completedTask) :
    { t with state := completedTask } = t := by
  cases t
  simp only at h
  subst h
  rfl

theorem timeoutTask_completed (now : Int) (t : Task) (h : t.state = completedTask) :
    timeoutTask now t = t := by
  have : ¬ t.state = runningTask := by rw [h]; decide
  simp [timeoutTask, this]

theorem mapGet_mapSet_completed (tasks : List (String × Task)) (k0 : String) (t0 : Task)
    (hg0 : mapGet tasks k0 = some t0) (k : String) (t : Task)
    (hg : mapGet tasks k = some t) (hc : t.state = completedTask) :
    mapGet (mapSet tasks k0 { t0 with state := completedTask }) k = some t := by
  rw [mapGet_mapSet]
  by_cases hk : k = k0
  · rw [if_pos hk, hg0]
    rw [hk, hg0] at hg
    have : t0 = t := Option.some.inj hg
    rw [this]
    simp only [Option.map_some']
    rw [task_completed_eq t hc]
  · rw [if_neg hk]; exact hg

theorem completed_kept_by_step (c c1 : Coordinator) (e : Event) (hinv : LedgerInv c)
    (hs : step c e = some c1) (k : String) (t : Task)
    (hg : mapGet c.tasks k = some t) (hc : t.state = completedTask) :
    mapGet c1.tasks k = some t := by
  cases e with
  | requestTask rangeOrder args now =>
    simp only [step, Option.some.injEq] at hs
    rw [← hs]
    rcases RequestTask_cases rangeOrder c args now with heq | ⟨k0, t0, hg0, hidle, _, heq, _, _⟩
    · rw [heq]; exact hg
    · rw [heq]
      simp only
      rw [mapGet_mapSet]
      by_cases hk : k = k0
      · exfalso
        rw [hk, hg0] at hg
        have : t0 = t := Option.some.inj hg
        rw [this, hc] at hidle
        exact absurd hidle (by decide)
      · rw [if_neg hk]; exact hg
  | timeoutScan now =>
    simp only [step, Option.some.injEq] at hs
    rw [← hs]
    simp only [checkTimeout]
    rw [mapGet_map_values, hg]
    simp only [Option.map_some']
    rw [timeoutTask_completed now t hc]
  | taskDone rangeOrder args =>
    simp only [step] at hs
    cases hr : TaskDone rangeOrder c args with
    | none => rw [hr] at hs; simp at hs
    | some r =>
      rw [hr] at hs
      simp only [Option.map_some', Option.some.injEq] at hs
      rw [← hs]
      by_cases hm : args.TaskType = mapTask
      · cases hg0 : mapGet c.tasks (mapKey args.TaskID) with
        | none =>
          rw [TaskDone_map_not_found rangeOrder c args hm hg0] at hr
          rw [← Option.some.inj hr]; exact hg
        | some t0 =>
          rw [TaskDone_map_found rangeOrder c args t0 hm hg0] at hr
          have hset := mapGet_mapSet_completed c.tasks _ t0 hg0 k t hg hc
          by_cases hn : c.nMapDone + 1 = c.nMap
          · rw [if_pos hn] at hr
            cases hsr : startReduce rangeOrder
                { c with
                  tasks := mapSet c.tasks (mapKey args.TaskID)
                    { t0 with state := completedTask },
                  nMapDone := c.nMapDone + 1,
                  intermediateFileNames :=
                    args.IntermediateFileNames.foldl setAdd c.intermediateFileNames } with
            | none => rw [hsr] at hr; simp at hr
            | some c4 =>
              rw [hsr] at hr
              simp only [Option.map_some', Option.some.injEq] at hr
              rw [← hr, taskDoneFinish_tasks]
              obtain ⟨_, af, _, hc4⟩ := startReduce_eq rangeOrder _ c4 hsr
              rw [hc4]
              simp only
              rw [mapGet_createReduceTasks_other]
              · exact hset
              · intro i _ hki
                have hall : AllMap c.tasks := hinv.2.2 (Or.inl (by omega))
                have hmap : t.tType = mapTask := hall k t hg
                rcases hinv.1 k t hg with ⟨hk, _⟩ | ⟨_, hrt⟩
                · rw [hki] at hk
                  exact mapKey_ne_reduceKey _ _ hk.symm
                · rw [hmap] at hrt
                  exact mapTask_ne_reduceTask hrt
          · rw [if_neg hn] at hr
            rw [← Option.some.inj hr, taskDoneFinish_tasks]
            exact hset
      · by_cases hrd : args.TaskType = reduceTask
        · cases hg0 : mapGet c.tasks (reduceKey args.TaskID) with
          | none =>
            rw [TaskDone_reduce_not_found rangeOrder c args hrd hg0] at hr
            rw [← Option.some.inj hr]; exact hg
          | some t0 =>
            rw [TaskDone_reduce_found rangeOrder c args t0 hrd hg0] at hr
            rw [← Option.some.inj hr, taskDoneFinish_tasks]
            exact mapGet_mapSet_completed c.tasks _ t0 hg0 k t hg hc
        · rw [TaskDone_other rangeOrder c args hm hrd] at hr
          rw [← Option.some.inj hr, taskDoneFinish_tasks]
          exact hg

theorem RequestTask_reply_cases (rangeOrder : List String → List String) (c : Coordinator)
    (args : TaskArgs) (now : Int) :
    (RequestTask rangeOrder c args now).2.TaskType = waitTask ∨
    (RequestTask rangeOrder c args now).2.TaskType = exitTask ∨
    ∃ k t, mapGet c.tasks k = some t ∧ t.state = idleTask ∧
      (RequestTask rangeOrder c args now).2.TaskID = t.id ∧
      (RequestTask rangeOrder c args now).2.TaskType = t.tType := by
  by_cases hd : c.done = true
  · right; left
    simp [RequestTask, hd]
  · have hd' : c.done = false := by simpa using hd
    have hrun : RequestTask rangeOrder c args now
        = requestLoop c args now { TaskReply.zero with TaskType := waitTask }
            (rangeOrder (mapKeys c.tasks)) := by
      simp [RequestTask, hd']
    rw [hrun]
    by_cases hi : ∃ k ∈ rangeOrder (mapKeys c.tasks), ∃ t,
        mapGet c.tasks k = some t ∧ t.state = idleTask
    · right; right
      obtain ⟨k, _, t, hg, hidle, _, hid, hty, _⟩ := requestLoop_idle c args now _ _ hi
      exact ⟨k, t, hg, hidle, hid, hty⟩
    · left
      rw [requestLoop_no_idle]
      intro k hk t hg hidle
      exact hi ⟨k, hk, t, hg, hidle⟩

/-- C7: Completed is terminal. In a reachable state, whatever step comes next
(a `RequestTask`, a `TaskDone` with the Map→Reduce transition it may trigger, a
timeout scan at any time), a task that is Completed before the step is in the
ledger, unchanged, after it; and the reply of `RequestTask` never names the
kind and id of a Completed task. -/
theorem C7_completed_is_terminal (files : List String) (nReduce : Int) (c : Coordinator)
    (hreach : Reachable files nReduce c) (k : String) (t : Task)
    (hg : mapGet c.tasks k = some t) (hc : t.state = completedTask) :
    (∀ e c1, step c e = some c1 → mapGet c1.tasks k = some t) ∧
    (∀ rangeOrder args now,
      ¬ ((RequestTask rangeOrder c args now).2.TaskType = t.tType ∧
         (RequestTask rangeOrder c args now).2.TaskID = t.id)) := by
  have hinv := LedgerInv_reachable files nReduce c hreach
  refine ⟨fun e c1 hs => completed_kept_by_step c c1 e hinv hs k t hg hc, ?_⟩
  intro rangeOrder args now ⟨hty, hid⟩
  have hkind : t.tType = mapTask ∨ t.tType = reduceTask := by
    rcases hinv.1 k t hg with ⟨_, h⟩ | ⟨_, h⟩
    · exact Or.inl h
    · exact Or.inr h
  rcases RequestTask_reply_cases rangeOrder c args now with hw | hx | ⟨k0, t0, hg0, hidle, hid0, hty0⟩
  · rw [hw] at hty
    rcases hkind with h | h <;> rw [h] at hty <;> exact absurd hty (by decide)
  · rw [hx] at hty
    rcases hkind with h | h <;> rw [h] at hty <;> exact absurd hty (by decide)
  · have hidEq : t0.id = t.id := hid0.symm.trans hid
    have htyEq : t0.tType = t.tType := hty0.symm.trans hty
    have hkk : k0 = k := by
      rcases hinv.1 k0 t0 hg0 with ⟨hk0, h0⟩ | ⟨hk0, h0⟩ <;>
        rcases hinv.1 k t hg with ⟨hk, h⟩ | ⟨hk, h⟩
      · rw [hk0, hk, hidEq]
      · rw [htyEq, h] at h0; exact absurd h0.symm mapTask_ne_reduceTask
      · rw [htyEq, h] at h0; exact absurd h0 mapTask_ne_reduceTask
      · rw [hk0, hk, hidEq]
    rw [hkk, hg] at hg0
    have : t = t0 := Option.some.inj hg0
    rw [← this, hc] at hidle
    exact absurd hidle (by decide)

/-- C8: one timeout scan at time `now` makes Idle exactly the tasks that are
Running with `now - startTime` above 10 seconds (10^10 ns) and changes nothing
else: any other task keeps its state, every task keeps its other fields, and
the keys, counters, flag and file set of the coordinator stay as they were. -/
theorem C8_checkTimeout_scan (c : Coordinator) (now : Int) :
    (∀ k t, mapGet c.tasks k = some t →
      t.state = runningTask ∧ now - t.startTime > 10000000000 →
      mapGet (checkTimeout c now).tasks k = some { t with state := idleTask }) ∧
    (∀ k t, mapGet c.tasks k = some t →
      ¬ (t.state = runningTask ∧ now - t.startTime > 10000000000) →
      mapGet (checkTimeout c now).tasks k = some t) ∧
    (∀ k, mapGet c.tasks k = none → mapGet (checkTimeout c now).tasks k = none) ∧
    mapKeys (checkTimeout c now).tasks = mapKeys c.tasks ∧
    checkTimeout c now = { c with tasks := (checkTimeout c now).tasks } := by
  refine ⟨?_, ?_, ?_, ?_, rfl⟩
  · intro k t hg ⟨hr, hlate⟩
    simp only [checkTimeout]
    rw [mapGet_map_values, hg]
    have : now - t.startTime > taskTimeout := by unfold taskTimeout; omega
    simp [timeoutTask, hr, this]
  · intro k t hg hnot
    simp only [checkTimeout]
    rw [mapGet_map_values, hg]
    simp only [Option.map_some', Option.some.injEq]
    unfold timeoutTask
    by_cases hr : t.state = runningTask
    · have : ¬ now - t.startTime > taskTimeout := by
        unfold taskTimeout
        intro hl
        exact hnot ⟨hr, by omega⟩
      simp [hr, this]
    · simp [hr]
  · intro k hg
    simp only [checkTimeout]
    rw [mapGet_map_values, hg]
    rfl
  · simp [checkTimeout, mapKeys, Function.comp_def]

/-! ## `startReduce`: the partition of the file names -/

theorem bucketAppend_spec {α : Type} (f : α) : ∀ (af : List (List α)) (i : Nat),
    i < af.length →
    ∃ af1, bucketAppend af i f = some af1 ∧ af1.length = af.length ∧
      ∀ j, af1.getD j [] = if j = i then af.getD j [] ++ [f] else af.getD j [] := by
  intro af
  induction af with
  | nil => intro i hi; simp at hi
  | cons b bs ih =>
    intro i hi
    cases i with
    | zero =>
      refine ⟨(b ++ [f]) :: bs, rfl, rfl, ?_⟩
      intro j
      cases j with
      | zero => simp
      | succ j => simp
    | succ i =>
      obtain ⟨bs1, h1, h2, h3⟩ := ih i (by simpa using hi)
      refine ⟨b :: bs1, ?_, ?_, ?_⟩
      · simp [bucketAppend, h1]
      · simp [h2]
      · intro j
        cases j with
        | zero => simp
        | succ j =>
          have := h3 j
          simp only [List.getD_cons_succ, Nat.add_right_cancel_iff]
          exact this

theorem startReduceLoop_spec : ∀ (files : List String) (af : List (List String)),
    (∀ f ∈ files, ∃ y : Nat, y < af.length ∧
      ((Split f '-').get? 2).map Atoi = some (y : Int)) →
    ∃ af1, startReduceLoop af files = some af1 ∧ af1.length = af.length ∧
      ∀ j : Nat, af1.getD j []
        = af.getD j [] ++
          files.filter (fun f => decide (((Split f '-').get? 2).map Atoi = some (j : Int))) := by
  intro files
  induction files with
  | nil =>
    intro af _
    exact ⟨af, rfl, rfl, fun j => by simp⟩
  | cons f rest ih =>
    intro af h
    obtain ⟨y, hy, hb⟩ := h f (List.mem_cons_self _ _)
    cases hp : (Split f '-').get? 2 with
    | none => rw [hp] at hb; simp at hb
    | some idstr =>
      rw [hp] at hb
      have hat : Atoi idstr = (y : Int) := by simpa using hb
      obtain ⟨a1, ha1, hlen1, hget1⟩ := bucketAppend_spec f af y hy
      obtain ⟨af1, haf1, hlen, hget⟩ := ih a1 (by
        intro g hg
        obtain ⟨z, hz, hzb⟩ := h g (List.mem_cons_of_mem _ hg)
        exact ⟨z, by rw [hlen1]; exact hz, hzb⟩)
      refine ⟨af1, ?_, by rw [hlen, hlen1], ?_⟩
      · have hneg : ¬ ((y : Int) < 0) := by omega
        simp only [startReduceLoop, hp, hat, hneg, if_false, Int.toNat_ofNat, ha1]
        exact haf1
      · intro j
        have hpf : ((Split f '-').get? 2).map Atoi = some (y : Int) := by
          rw [hp]; simp [hat]
        rw [hget j, hget1 j, List.filter_cons]
        by_cases hj : j = y
        · subst hj
          rw [if_pos rfl, if_pos (decide_eq_true hpf)]
          simp
        · have hne : ¬ (((Split f '-').get? 2).map Atoi = some (j : Int)) := by
            rw [hpf]
            intro he
            exact hj (Int.ofNat.inj (Option.some.inj he)).symm
          rw [if_neg hj, if_neg (by simpa using hne)]

theorem replicate_nil_getD {α : Type} (N i : Nat) :
    (List.replicate N ([] : List α)).getD i [] = [] := by
  induction N generalizing i with
  | zero => simp
  | succ N ih =>
    cases i with
    | zero => simp [List.replicate_succ]
    | succ i => simp [List.replicate_succ, ih i]

theorem intermediateName_bucket (x y : Nat) (hy : y < 2 ^ 63) (j : Nat) :
    ((Split (intermediateName x y) '-').get? 2).map Atoi = some (j : Int) ↔ y = j := by
  rw [bucket_of_intermediateName x y hy]
  constructor
  · intro h
    exact Int.ofNat.inj (Option.some.inj h)
  · intro h; rw [h]

/-- C9: for `nReduce = N` and a set of intermediate file names that all have
the form `mr-<x>-<y>` with `x` a task id and `0 ≤ y < N`, `startReduce` ends
without a panic, changes only the ledger, and stores a Reduce task under each
of the N distinct keys `reduce-0` .. `reduce-(N-1)`: task `i` has id `i`, is
Idle, and its file list holds exactly the names of the set whose bucket index
is `i`, each once. No other key of the ledger changes; Map tasks in particular
are untouched. -/
theorem C9_startReduce_partitions (rangeOrder : List String → List String)
    (c : Coordinator) (N : Nat) (hord : IsRangeOrder rangeOrder)
    (hN : N < 2 ^ 63) (hc : c.nReduce = (N : Int))
    (hnodup : c.intermediateFileNames.Nodup)
    (hform : ∀ f ∈ c.intermediateFileNames,
      ∃ x y : Nat, y < N ∧ f = intermediateName x y) :
    ∃ c1, startReduce rangeOrder c = some c1 ∧
      c1 = { c with tasks := c1.tasks } ∧
      (∀ i : Nat, i < N → ∃ t, mapGet c1.tasks (reduceKey i) = some t ∧
        t.id = (i : Int) ∧ t.tType = reduceTask ∧ t.state = idleTask ∧
        t.reduceFileNames.Nodup ∧
        ∀ f, f ∈ t.reduceFileNames ↔
          (f ∈ c.intermediateFileNames ∧ ∃ x : Nat, f = intermediateName x i)) ∧
      (∀ i j : Nat, i < N → j < N → reduceKey i = reduceKey j → i = j) ∧
      (∀ k, (∀ i : Nat, i < N → k ≠ reduceKey i) → mapGet c1.tasks k = mapGet c.tasks k) ∧
      (∀ j : Int, mapGet c1.tasks (mapKey j) = mapGet c.tasks (mapKey j)) ∧
      (∀ k, k ∈ mapKeys c1.tasks ↔
        (k ∈ mapKeys c.tasks ∨ ∃ i : Nat, i < N ∧ k = reduceKey i)) := by
  have hperm := hord c.intermediateFileNames
  have hloop := startReduceLoop_spec (rangeOrder c.intermediateFileNames)
    (List.replicate N []) (by
      intro f hf
      obtain ⟨x, y, hy, hfe⟩ := hform f (hperm.mem_iff.mp hf)
      refine ⟨y, by simpa using hy, ?_⟩
      rw [hfe]
      exact bucket_of_intermediateName x y (by omega))
  obtain ⟨af, haf, _, hget⟩ := hloop
  have hnneg : ¬ (c.nReduce < 0) := by rw [hc]; omega
  have htoNat : c.nReduce.toNat = N := by rw [hc]; exact Int.toNat_ofNat N
  have hstart : startReduce rangeOrder c
      = some { c with tasks := createReduceTasks af N c.tasks } := by
    simp only [startReduce, hnneg, if_false, htoNat, haf]
  refine ⟨_, hstart, rfl, ?_, ?_, ?_, ?_, ?_⟩
  · intro i hi
    refine ⟨newReduceTask i (af.getD i []), ?_, rfl, rfl, rfl, ?_, ?_⟩
    · simp only
      exact mapGet_createReduceTasks_self af N c.tasks i hi
    · simp only [newReduceTask]
      rw [hget i]
      have hr := @replicate_nil_getD String N i
      rw [hr, List.nil_append]
      exact (hperm.nodup_iff.mpr hnodup).filter _
    · intro f
      simp only [newReduceTask]
      rw [hget i]
      have hr := @replicate_nil_getD String N i
      rw [hr, List.nil_append, List.mem_filter, hperm.mem_iff, decide_eq_true_eq]
      constructor
      · rintro ⟨hmem, hb⟩
        obtain ⟨x, y, hy, hfe⟩ := hform f hmem
        rw [hfe] at hb
        have := (intermediateName_bucket x y (by omega) i).mp hb
        exact ⟨hmem, x, by rw [hfe, this]⟩
      · rintro ⟨hmem, x, hfe⟩
        refine ⟨hmem, ?_⟩
        rw [hfe]
        exact (intermediateName_bucket x i (by omega) i).mpr rfl
  · intro i j _ _ h
    exact reduceKey_nat_injective i j h
  · intro k hk
    exact mapGet_createReduceTasks_other af N c.tasks k hk
  · intro j
    exact mapGet_createReduceTasks_other af N c.tasks _
      (fun i _ => mapKey_ne_reduceKey j i)
  · intro k
    simp only
    constructor
    · intro hk
      by_cases hex : ∃ i : Nat, i < N ∧ k = reduceKey i
      · exact Or.inr hex
      · left
        by_contra hnot
        have h1 := (mapGet_eq_none_iff c.tasks k).mpr hnot
        rw [← mapGet_createReduceTasks_other af N c.tasks k
          (fun i hi he => hex ⟨i, hi, he⟩)] at h1
        exact (mapGet_eq_none_iff _ k).mp h1 hk
    · intro hk
      by_contra hnot
      have h1 := (mapGet_eq_none_iff _ k).mpr hnot
      by_cases hex : ∃ i : Nat, i < N ∧ k = reduceKey i
      · obtain ⟨i, hi, rfl⟩ := hex
        rw [mapGet_createReduceTasks_self af N c.tasks i hi] at h1
        exact Option.noConfusion h1
      · rw [mapGet_createReduceTasks_other af N c.tasks k
          (fun i hi he => hex ⟨i, hi, he⟩)] at h1
        rcases hk with hk | hk
        · exact (mapGet_eq_none_iff _ k).mp h1 hk
        · exact hex hk

/-! ## The claims at concrete inputs -/

theorem C1_requestTask_assigns_idle_witness :
    IsRangeOrder id ∧ (MakeCoordinator ["a"] 1).done = false ∧
    ∃ k t, mapGet (MakeCoordinator ["a"] 1).tasks k = some t ∧ t.state = idleTask ∧
      mapGet (RequestTask id (MakeCoordinator ["a"] 1) { WorkerID := 7 } 100).1.tasks k
        = some { t with state := runningTask, workerID := 7, startTime := 100 } ∧
      (RequestTask id (MakeCoordinator ["a"] 1) { WorkerID := 7 } 100).2.TaskID = t.id ∧
      (RequestTask id (MakeCoordinator ["a"] 1) { WorkerID := 7 } 100).2.TaskType
        = t.tType := by
  obtain ⟨k, t, h1, h2, _, h4, _, _, _, _, _, _, h9, h10, _⟩ :=
    C1_requestTask_assigns_idle id (MakeCoordinator ["a"] 1) { WorkerID := 7 } 100
      isRangeOrder_id rfl ⟨"map-0", newMapTask 0 "a", by decide, by decide⟩
  exact ⟨isRangeOrder_id, rfl, k, t, h1, h2, h4, h9, h10⟩

theorem C2_requestTask_exit_wait_frame_witness :
    RequestTask id { MakeCoordinator ["a"] 1 with done := true } { WorkerID := 7 } 100
      = ({ MakeCoordinator ["a"] 1 with done := true },
         { TaskReply.zero with TaskType := exitTask }) ∧
    RequestTask id (RequestTask id (MakeCoordinator ["a"] 1) { WorkerID := 7 } 100).1
        { WorkerID := 8 } 200
      = ((RequestTask id (MakeCoordinator ["a"] 1) { WorkerID := 7 } 100).1,
         { TaskReply.zero with TaskType := waitTask }) :=
  ⟨(C2_requestTask_exit_wait_frame id { MakeCoordinator ["a"] 1 with done := true }
      { WorkerID := 7 } 100).1 rfl,
   (C2_requestTask_exit_wait_frame id
      (RequestTask id (MakeCoordinator ["a"] 1) { WorkerID := 7 } 100).1
      { WorkerID := 8 } 200).2 rfl (by decide)⟩

theorem C7_completed_is_terminal_witness :
    ∃ c t, Reachable ["a", "b"] 1 c ∧ mapGet c.tasks (mapKey 0) = some t ∧
      t.state = completedTask ∧
      (∀ e c1, step c e = some c1 → mapGet c1.tasks (mapKey 0) = some t) ∧
      (∀ rangeOrder args now,
        ¬ ((RequestTask rangeOrder c args now).2.TaskType = t.tType ∧
           (RequestTask rangeOrder c args now).2.TaskID = t.id)) := by
  have hreach : Reachable ["a", "b"] 1
      (taskDoneFinish
        { MakeCoordinator ["a", "b"] 1 with
          tasks := mapSet (MakeCoordinator ["a", "b"] 1).tasks (mapKey 0)
            { newMapTask 0 "a" with state := completedTask },
          nMapDone := 1,
          intermediateFileNames := ["mr-0-0"] }).c :=
    ⟨[Event.taskDone id
        { WorkerID := 1, TaskID := 0, TaskType := mapTask,
          IntermediateFileNames := ["mr-0-0"] }],
      by
        intro e he
        simp only [List.mem_singleton] at he
        rw [he]
        exact isRangeOrder_id,
      by decide⟩
  exact ⟨_, { newMapTask 0 "a" with state := completedTask }, hreach, by decide, rfl,
    C7_completed_is_terminal ["a", "b"] 1 _ hreach (mapKey 0) _ (by decide) rfl⟩

theorem C8_checkTimeout_scan_witness :
    mapGet (checkTimeout (RequestTask id (MakeCoordinator ["a"] 1) { WorkerID := 7 } 0).1
        10000000001).tasks (mapKey 0)
      = some { newMapTask 0 "a" with state := idleTask, workerID := 7, startTime := 0 } ∧
    mapGet (checkTimeout (RequestTask id (MakeCoordinator ["a"] 1) { WorkerID := 7 } 0).1
        10000000000).tasks (mapKey 0)
      = some { newMapTask 0 "a" with state := runningTask, workerID := 7, startTime := 0 } :=
  ⟨(C8_checkTimeout_scan (RequestTask id (MakeCoordinator ["a"] 1) { WorkerID := 7 } 0).1
      10000000001).1 (mapKey 0)
      { newMapTask 0 "a" with state := runningTask, workerID := 7, startTime := 0 }
      (by decide) ⟨rfl, by decide⟩,
   (C8_checkTimeout_scan (RequestTask id (MakeCoordinator ["a"] 1) { WorkerID := 7 } 0).1
      10000000000).2.1 (mapKey 0)
      { newMapTask 0 "a" with state := runningTask, workerID := 7, startTime := 0 }
      (by decide) (by decide)⟩

theorem C9_startReduce_partitions_witness :
    ∃ c1, startReduce List.reverse
        { MakeCoordinator ["a", "b"] 2 with
          intermediateFileNames := ["mr-0-0", "mr-0-1", "mr-1-0", "mr-1-1"] } = some c1 ∧
      ∃ t, mapGet c1.tasks (reduceKey 1) = some t ∧ t.state = idleTask ∧
        ∀ f, f ∈ t.reduceFileNames ↔
          (f ∈ ["mr-0-0", "mr-0-1", "mr-1-0", "mr-1-1"] ∧
            ∃ x : Nat, f = intermediateName x 1) := by
  obtain ⟨c1, h1, _, h3, _⟩ := C9_startReduce_partitions List.reverse
    { MakeCoordinator ["a", "b"] 2 with
      intermediateFileNames := ["mr-0-0", "mr-0-1", "mr-1-0", "mr-1-1"] } 2
    isRangeOrder_reverse (by norm_num) rfl (by decide)
    (by
      intro f hf
      simp only [List.mem_cons, List.mem_singleton, List.not_mem_nil, or_false] at hf
      rcases hf with rfl | rfl | rfl | rfl
      · exact ⟨0, 0, by decide, by decide⟩
      · exact ⟨0, 1, by decide, by decide⟩
      · exact ⟨1, 0, by decide, by decide⟩
      · exact ⟨1, 1, by decide, by decide⟩)
  obtain ⟨t, ht, _, _, hidle, _, hmem⟩ := h3 1 (by decide)
  exact ⟨c1, h1, t, ht, hidle, hmem⟩

/-! ## The order of the keys and the sorting function -/

theorem strLt_irrefl (a : List Char) : strLt a a = false := by
  induction a with
  | nil => rfl
  | cons c cs ih => simp [strLt, ih]

theorem strLt_asymm : ∀ (a b : List Char), strLt a b = true → strLt b a = false := by
  intro a
  induction a with
  | nil =>
    intro b _
    cases b <;> rfl
  | cons c cs ih =>
    intro b h
    cases b with
    | nil => simp [strLt] at h
    | cons d ds =>
      simp only [strLt] at h ⊢
      by_cases h1 : c.toNat < d.toNat
      · have h2 : ¬ d.toNat < c.toNat := by omega
        simp [h1, h2]
      · by_cases h2 : d.toNat < c.toNat
        · simp [h1, h2] at h
        · simp only [h1, h2, if_false] at h ⊢
          exact ih ds h

theorem char_eq_of_toNat (c d : Char) (h : c.toNat = d.toNat) : c = d := by
  apply Char.ext
  apply UInt32.ext
  exact h

theorem strLt_total : ∀ (a b : List Char), strLt a b = false → strLt b a = false → a = b := by
  intro a
  induction a with
  | nil =>
    intro b h _
    cases b with
    | nil => rfl
    | cons d ds => simp [strLt] at h
  | cons c cs ih =>
    intro b h1 h2
    cases b with
    | nil => simp [strLt] at h2
    | cons d ds =>
      simp only [strLt] at h1 h2
      by_cases hcd : c.toNat < d.toNat
      · simp [hcd] at h1
      · by_cases hdc : d.toNat < c.toNat
        · simp [hdc] at h2
        · simp only [hcd, hdc, if_false] at h1 h2
          have hc : c = d := char_eq_of_toNat c d (by omega)
          rw [hc, ih ds h1 h2]

theorem strLt_trans : ∀ (a b c : List Char), strLt a b = true → strLt b c = true →
    strLt a c = true := by
  intro a
  induction a with
  | nil =>
    intro b c _ h2
    cases c with
    | nil => cases b <;> simp [strLt] at h2
    | cons e es => rfl
  | cons x xs ih =>
    intro b c h1 h2
    cases b with
    | nil => simp [strLt] at h1
    | cons y ys =>
      cases c with
      | nil => simp [strLt] at h2
      | cons z zs =>
        simp only [strLt] at h1 h2 ⊢
        by_cases hxy : x.toNat < y.toNat
        · by_cases hyz : y.toNat < z.toNat
          · have : x.toNat < z.toNat := by omega
            simp [this]
          · by_cases hzy : z.toNat < y.toNat
            · simp [hyz, hzy] at h2
            · have : x.toNat < z.toNat := by omega
              simp [this]
        · by_cases hyx : y.toNat < x.toNat
          · simp [hxy, hyx] at h1
          · simp only [hxy, hyx, if_false] at h1
            by_cases hyz : y.toNat < z.toNat
            · have : x.toNat < z.toNat := by omega
              simp [this]
            · by_cases hzy : z.toNat < y.toNat
              · simp [hyz, hzy] at h2
              · simp only [hyz, hzy, if_false] at h2
                have h3 : ¬ x.toNat < z.toNat := by omega
                have h4 : ¬ z.toNat < x.toNat := by omega
                simp only [h3, h4, if_false]
                exact ih ys zs h1 h2

/-- In terms of the order of the keys, `cmpKey a b ≤ 0` says that `b` is not
below `a`. -/
theorem cmpKey_le_iff (a b : KeyValue) :
    cmpKey a b ≤ 0 ↔ strLt b.Key.data a.Key.data = false := by
  unfold cmpKey
  by_cases h1 : strLt a.Key.data b.Key.data = true
  · have h2 := strLt_asymm _ _ h1
    simp [h1, h2]
  · by_cases h2 : strLt b.Key.data a.Key.data = true
    · simp [h1, h2]
    · simp [h1, h2]

theorem cmpKey_lt_iff (a b : KeyValue) :
    cmpKey a b < 0 ↔ strLt a.Key.data b.Key.data = true := by
  unfold cmpKey
  by_cases h1 : strLt a.Key.data b.Key.data = true
  · simp [h1]
  · by_cases h2 : strLt b.Key.data a.Key.data = true
    · simp [h1, h2]
    · simp [h1, h2]

theorem cmpKey_le_trans (a b c : KeyValue) (h1 : cmpKey a b ≤ 0) (h2 : cmpKey b c ≤ 0) :
    cmpKey a c ≤ 0 := by
  rw [cmpKey_le_iff] at h1 h2 ⊢
  cases h : strLt c.Key.data a.Key.data with
  | false => rfl
  | true =>
    exfalso
    cases hbc : strLt b.Key.data c.Key.data with
    | true =>
      have := strLt_trans _ _ _ hbc h
      rw [h1] at this
      exact Bool.noConfusion this
    | false =>
      have hEq := strLt_total _ _ hbc h2
      rw [← hEq, h1] at h
      exact Bool.noConfusion h

theorem insertByKey_perm (x : KeyValue) (l : List KeyValue) :
    (insertByKey x l).Perm (x :: l) := by
  induction l with
  | nil => exact List.Perm.refl _
  | cons y ys ih =>
    simp only [insertByKey]
    split_ifs
    · exact List.Perm.refl _
    · exact (List.Perm.cons y ih).trans (List.Perm.swap x y ys)

theorem sortByKey_perm (l : List KeyValue) : (sortByKey l).Perm l := by
  induction l with
  | nil => exact List.Perm.refl _
  | cons x xs ih =>
    simp only [sortByKey]
    exact (insertByKey_perm x _).trans (List.Perm.cons x ih)

theorem insertByKey_pairwise (x : KeyValue) (l : List KeyValue)
    (h : l.Pairwise (fun a b => cmpKey a b ≤ 0)) :
    (insertByKey x l).Pairwise (fun a b => cmpKey a b ≤ 0) := by
  induction l with
  | nil => simp [insertByKey]
  | cons y ys ih =>
    rw [List.pairwise_cons] at h
    simp only [insertByKey]
    by_cases hxy : cmpKey x y < 0
    · rw [if_pos hxy]
      rw [List.pairwise_cons]
      refine ⟨?_, List.pairwise_cons.mpr h⟩
      intro z hz
      rcases List.mem_cons.mp hz with rfl | hz
      · omega
      · exact cmpKey_le_trans x y z (by omega) (h.1 z hz)
    · rw [if_neg hxy]
      rw [List.pairwise_cons]
      refine ⟨?_, ih h.2⟩
      intro z hz
      rcases List.mem_cons.mp ((insertByKey_perm x ys).mem_iff.mp hz) with rfl | hz
      · rw [cmpKey_le_iff]
        rw [cmpKey_lt_iff] at hxy
        simpa using hxy
      · exact h.1 z hz

theorem isSortFunc_sortByKey : IsSortFunc sortByKey := by
  intro kva
  refine ⟨sortByKey_perm kva, ?_⟩
  induction kva with
  | nil => simp [sortByKey]
  | cons x xs ih =>
    simp only [sortByKey]
    exact insertByKey_pairwise x _ ih

/-! ## File names -/

theorem intermediateName_injective (x y x1 y1 : Nat)
    (h : intermediateName x y = intermediateName x1 y1) : x = x1 ∧ y = y1 := by
  have hs := congrArg (fun s => Split s '-') h
  simp only [Split_intermediateName] at hs
  simp only [List.cons.injEq, and_true, true_and] at hs
  exact ⟨repr_injective _ _ hs.1, repr_injective _ _ hs.2⟩

theorem Split_outputName (i : Nat) :
    Split (outputName i) '-' = ["mr", "out", Nat.repr i] := by
  have h1 : (outputName i).data
      = ['m', 'r'] ++ '-' :: (['o', 'u', 't'] ++ '-' :: (Nat.repr i).data) := by
    simp [outputName, Itoa_nat]
  unfold Split
  rw [h1, splitOnChar_append '-' ['m', 'r'] _ (by decide),
    splitOnChar_append '-' ['o', 'u', 't'] _ (by decide),
    splitOnChar_no_sep '-' _ (repr_no_minus i)]
  rfl

theorem outputName_ne_intermediateName (i t j : Nat) :
    outputName i ≠ intermediateName t j := by
  intro h
  have hs := congrArg (fun s => Split s '-') h
  simp only [Split_intermediateName, Split_outputName] at hs
  simp only [List.cons.injEq, and_true, true_and] at hs
  have hd := repr_isDigit t 'o' (by rw [← hs.1]; decide)
  exact absurd hd (by decide)

theorem outputName_injective (i j : Nat) (h : outputName i = outputName j) : i = j := by
  have hs := congrArg (fun s => Split s '-') h
  simp only [Split_outputName] at hs
  simp only [List.cons.injEq, and_true, true_and] at hs
  exact repr_injective _ _ hs

/-! ## `executeMap` -/

theorem ihash_nonneg (key : String) : 0 ≤ ihash key := by
  unfold ihash
  exact Int.ofNat_nonneg _

/-- The bucket of a key for `M` buckets, as a natural number. -/
theorem bucket_lt (key : String) (M : Nat) (hM : 0 < M) :
    0 ≤ Int.tmod (ihash key) (M : Int) ∧ (Int.tmod (ihash key) (M : Int)).toNat < M := by
  have h0 := Int.tmod_nonneg (M : Int) (ihash_nonneg key)
  have h1 := Int.tmod_lt_of_pos (ihash key) (show (0 : Int) < (M : Int) by omega)
  refine ⟨h0, ?_⟩
  omega

theorem partitionLoop_spec (M : Nat) (hM : 0 < M) : ∀ (kva : List KeyValue)
    (buckets : List (List KeyValue)), buckets.length = M →
    ∃ b1, partitionLoop (M : Int) buckets kva = some b1 ∧ b1.length = M ∧
      ∀ j : Nat, b1.getD j []
        = buckets.getD j [] ++
          kva.filter (fun kv => decide ((Int.tmod (ihash kv.Key) (M : Int)).toNat = j)) := by
  intro kva
  induction kva with
  | nil =>
    intro buckets hlen
    exact ⟨buckets, rfl, hlen, fun j => by simp⟩
  | cons kv rest ih =>
    intro buckets hlen
    have hb := bucket_lt kv.Key M hM
    obtain ⟨a1, ha1, hlen1, hget1⟩ :=
      bucketAppend_spec kv buckets (Int.tmod (ihash kv.Key) (M : Int)).toNat
        (by rw [hlen]; exact hb.2)
    obtain ⟨b1, hb1, hlenb, hget⟩ := ih a1 (by rw [hlen1, hlen])
    refine ⟨b1, ?_, hlenb, ?_⟩
    · have hM0 : ¬ ((M : Int) = 0) := by omega
      have hneg : ¬ (Int.tmod (ihash kv.Key) (M : Int) < 0) := by omega
      simp only [partitionLoop, hM0, if_false, hneg, ha1]
      exact hb1
    · intro j
      rw [hget j, hget1 j, List.filter_cons]
      by_cases hj : j = (Int.tmod (ihash kv.Key) (M : Int)).toNat
      · rw [if_pos hj, if_pos (decide_eq_true hj.symm)]
        simp
      · have hne : ¬ ((Int.tmod (ihash kv.Key) (M : Int)).toNat = j) := fun he => hj he.symm
        rw [if_neg hj, if_neg (by simpa using hne)]

theorem writeBuckets_succ (taskID : Int) (buckets : List (List KeyValue)) (n : Nat)
    (fs : FileSystem) :
    writeBuckets taskID buckets (n + 1) fs
      = (mapPut (writeBuckets taskID buckets n fs).1 (intermediateName taskID n)
            (FileData.records (buckets.getD n [])),
         (writeBuckets taskID buckets n fs).2 ++ [intermediateName taskID n]) := by
  simp [writeBuckets, List.range_succ, List.foldl_append]

theorem writeBuckets_other (t : Nat) (buckets : List (List KeyValue)) (n : Nat)
    (fs : FileSystem) (k : String) (h : ∀ i : Nat, i < n → k ≠ intermediateName t i) :
    mapGet (writeBuckets t buckets n fs).1 k = mapGet fs k := by
  induction n with
  | zero => rfl
  | succ n ih =>
    rw [writeBuckets_succ]
    simp only
    rw [mapGet_mapPut, if_neg (h n (Nat.lt_succ_self n))]
    exact ih (fun i hi => h i (Nat.lt_succ_of_lt hi))

theorem writeBuckets_self (t : Nat) (buckets : List (List KeyValue)) (n : Nat)
    (fs : FileSystem) (i : Nat) (h : i < n) :
    mapGet (writeBuckets t buckets n fs).1 (intermediateName t i)
      = some (FileData.records (buckets.getD i [])) := by
  induction n with
  | zero => omega
  | succ n ih =>
    rw [writeBuckets_succ]
    simp only
    rw [mapGet_mapPut]
    by_cases hin : i = n
    · subst hin
      rw [if_pos rfl]
    · have hne : ¬ intermediateName t i = intermediateName t n :=
        fun hk => hin (intermediateName_injective t i t n hk).2
      rw [if_neg hne]
      exact ih (by omega)

theorem writeBuckets_names (taskID : Int) (buckets : List (List KeyValue)) (n : Nat)
    (fs : FileSystem) :
    (writeBuckets taskID buckets n fs).2
      = (List.range n).map (fun (i : Nat) => intermediateName taskID i) := by
  induction n with
  | zero => rfl
  | succ n ih =>
    rw [writeBuckets_succ]
    simp only
    rw [ih, List.range_succ, List.map_append]
    rfl

/-- What `executeMap` does for Map task `t` and `M ≥ 1` buckets when its input
is a text file: it returns, bucket file `mr-t-i` holds the pairs of the map
output whose key hashes to `i`, in the order of emission, and no other file
changes. -/
theorem executeMap_spec (mapf : String → String → List KeyValue) (t M : Nat) (hM : 0 < M)
    (file content : String) (ty : Int) (rf : List String) (fs : FileSystem)
    (hin : mapGet fs file = some (FileData.text content)) :
    ∃ r, executeMap mapf
        { TaskID := t, TaskType := ty, MapFileName := file, ReduceFileNames := rf,
          NReduce := M } fs = some r ∧
      r.2 = (List.range M).map (fun (i : Nat) => intermediateName t i) ∧
      (∀ i : Nat, i < M → mapGet r.1 (intermediateName t i)
        = some (FileData.records ((mapf file content).filter
            (fun kv => decide ((Int.tmod (ihash kv.Key) (M : Int)).toNat = i))))) ∧
      (∀ k, (∀ i : Nat, i < M → k ≠ intermediateName t i) → mapGet r.1 k = mapGet fs k) := by
  obtain ⟨b1, hb1, _, hget⟩ := partitionLoop_spec M hM (mapf file content)
    (List.replicate M []) (by simp)
  have hneg : ¬ ((M : Int) < 0) := by omega
  have hrun : executeMap mapf
      { TaskID := t, TaskType := ty, MapFileName := file, ReduceFileNames := rf,
        NReduce := M } fs = some (writeBuckets (t : Int) b1 M fs) := by
    simp only [executeMap, hin, hneg, if_false, Int.toNat_ofNat, hb1]
  refine ⟨_, hrun, writeBuckets_names _ b1 M fs, ?_, ?_⟩
  · intro i hi
    rw [writeBuckets_self t b1 M fs i hi, hget i, replicate_nil_getD, List.nil_append]
  · intro k hk
    exact writeBuckets_other t b1 M fs k hk

/-! ## `executeReduce` -/

theorem readLoop_spec (fs : FileSystem) (i : Nat) (g : String × String → List KeyValue) :
    ∀ (inputs : List (String × String)) (t0 : Nat) (acc : List KeyValue),
    (∀ (j : Nat) (p : String × String), inputs.get? j = some p →
      mapGet fs (intermediateName ((t0 + j : Nat) : Int) i) = some (FileData.records (g p))) →
    readLoop fs acc ((List.range' t0 inputs.length).map
        (fun (t : Nat) => intermediateName t i))
      = some (acc ++ (inputs.map g).flatten) := by
  intro inputs
  induction inputs with
  | nil => intro t0 acc _; simp [readLoop]
  | cons p0 rest ih =>
    intro t0 acc h
    have h0 := h 0 p0 rfl
    simp only [Nat.add_zero] at h0
    simp only [List.length_cons, List.range'_succ, List.map_cons, readLoop, h0]
    rw [ih (t0 + 1) (acc ++ g p0) (fun j p hj => by
      have := h (j + 1) p (by simpa using hj)
      have harith : t0 + 1 + j = t0 + (j + 1) := by omega
      rw [harith]
      exact this)]
    simp [List.append_assoc]

theorem dropWhile_head_not {α : Type} (p : α → Bool) : ∀ (l : List α) (h : α) (tl : List α),
    l.dropWhile p = h :: tl → p h = false := by
  intro l
  induction l with
  | nil => intro h tl he; simp at he
  | cons x xs ih =>
    intro h tl he
    rw [List.dropWhile_cons] at he
    by_cases hx : p x = true
    · rw [if_pos hx] at he
      exact ih h tl he
    · rw [if_neg hx] at he
      have : x = h := (List.cons.inj he).1
      rw [← this]
      simpa using hx

/-- In a sorted slice, the records left after the run of the first key do not
carry that key. -/
theorem sorted_tail_no_key (kv : KeyValue) (rest : List KeyValue)
    (hs : (kv :: rest).Pairwise (fun a b => cmpKey a b ≤ 0)) :
    ∀ x ∈ rest.dropWhile (fun x => decide (x.Key = kv.Key)), x.Key ≠ kv.Key := by
  rw [List.pairwise_cons] at hs
  have hsuf : (rest.dropWhile (fun x => decide (x.Key = kv.Key))).Sublist rest :=
    (List.dropWhile_suffix _).sublist
  cases htail : rest.dropWhile (fun x => decide (x.Key = kv.Key)) with
  | nil => intro x hx; simp at hx
  | cons h tl =>
    have hh : h.Key ≠ kv.Key := by
      have := dropWhile_head_not _ rest h tl htail
      simpa using this
    have hmem : h ∈ rest := hsuf.subset (by rw [htail]; exact List.mem_cons_self _ _)
    have h1 : strLt h.Key.data kv.Key.data = false := (cmpKey_le_iff kv h).mp (hs.1 h hmem)
    have h2 : strLt kv.Key.data h.Key.data = true := by
      cases hlt : strLt kv.Key.data h.Key.data with
      | true => rfl
      | false =>
        exfalso
        exact hh (string_eq_of_data _ _ (strLt_total _ _ h1 hlt))
    have hpt : (h :: tl).Pairwise (fun a b => cmpKey a b ≤ 0) := by
      rw [← htail]; exact hs.2.sublist hsuf
    rw [List.pairwise_cons] at hpt
    intro x hx
    rcases List.mem_cons.mp hx with rfl | hx
    · exact hh
    · intro hxk
      have h3 : strLt x.Key.data h.Key.data = false := (cmpKey_le_iff h x).mp (hpt.1 x hx)
      rw [hxk, h2] at h3
      exact Bool.noConfusion h3

theorem filter_eq_self_of_all {α : Type} (p : α → Bool) (l : List α)
    (h : ∀ x ∈ l, p x = true) : l.filter p = l :=
  List.filter_eq_self.mpr h

theorem filter_eq_nil_of_none {α : Type} (p : α → Bool) (l : List α)
    (h : ∀ x ∈ l, p x = false) : l.filter p = [] := by
  apply List.filter_eq_nil_iff.mpr
  intro x hx
  simp [h x hx]

/-- The lines `executeReduce` writes for a sorted slice: one line for each key
of the slice, with the reduced value of that key's records, and no other line. -/
theorem reduceLoop_filter (reducef : String → List String → String) :
    ∀ (fuel : Nat) (l : List KeyValue), l.length ≤ fuel →
    l.Pairwise (fun a b => cmpKey a b ≤ 0) → ∀ key : String,
    ((∃ kv ∈ l, kv.Key = key) →
      (reduceLoop reducef fuel l).filter (fun p => decide (p.1 = key))
        = [(key, reducef key
            ((l.filter (fun kv => decide (kv.Key = key))).map (fun kv => kv.Value)))]) ∧
    ((¬ ∃ kv ∈ l, kv.Key = key) →
      (reduceLoop reducef fuel l).filter (fun p => decide (p.1 = key)) = []) := by
  intro fuel
  induction fuel with
  | zero =>
    intro l hlen _ key
    have : l = [] := List.length_eq_zero.mp (Nat.le_zero.mp hlen)
    subst this
    exact ⟨fun ⟨kv, hkv, _⟩ => by simp at hkv, fun _ => rfl⟩
  | succ fuel ih =>
    intro l hlen hs key
    cases l with
    | nil => exact ⟨fun ⟨kv, hkv, _⟩ => by simp at hkv, fun _ => rfl⟩
    | cons kv rest =>
      have hsplit : rest.takeWhile (fun x => decide (x.Key = kv.Key))
          ++ rest.dropWhile (fun x => decide (x.Key = kv.Key)) = rest :=
        List.takeWhile_append_dropWhile _ rest
      have hrun : ∀ x ∈ rest.takeWhile (fun x => decide (x.Key = kv.Key)),
          x.Key = kv.Key := by
        intro x hx
        have := List.mem_takeWhile_imp hx
        simpa using this
      have htail := sorted_tail_no_key kv rest hs
      have hsuf : (rest.dropWhile (fun x => decide (x.Key = kv.Key))).Sublist rest :=
        (List.dropWhile_suffix _).sublist
      have hlen1 : (rest.dropWhile (fun x => decide (x.Key = kv.Key))).length ≤ fuel := by
        have := hsuf.length_le
        simp only [List.length_cons] at hlen
        omega
      have hs1 : (rest.dropWhile (fun x => decide (x.Key = kv.Key))).Pairwise
          (fun a b => cmpKey a b ≤ 0) := (List.pairwise_cons.mp hs).2.sublist hsuf
      have ih1 := ih _ hlen1 hs1 key
      simp only [reduceLoop]
      rw [List.filter_cons]
      by_cases hk : kv.Key = key
      · rw [if_pos (decide_eq_true hk)]
        have hno : ¬ ∃ x ∈ rest.dropWhile (fun x => decide (x.Key = kv.Key)), x.Key = key := by
          rintro ⟨x, hx, hxk⟩
          exact htail x hx (hxk.trans hk.symm)
        refine ⟨fun _ => ?_, fun hnot => absurd ⟨kv, List.mem_cons_self _ _, hk⟩ hnot⟩
        rw [ih1.2 hno]
        have hfilt : (kv :: rest).filter (fun x => decide (x.Key = key))
            = kv :: rest.takeWhile (fun x => decide (x.Key = kv.Key)) := by
          rw [List.filter_cons, if_pos (decide_eq_true hk)]
          congr 1
          conv_lhs => rw [← hsplit]
          rw [List.filter_append,
            filter_eq_self_of_all _ _ (fun x hx => decide_eq_true ((hrun x hx).trans hk)),
            filter_eq_nil_of_none _ _ (fun x hx => decide_eq_false
              (fun hxk => htail x hx (hxk.trans hk.symm))),
            List.append_nil]
        rw [hfilt, hk]
        rfl
      · have hkd : ¬ (decide (kv.Key = key) = true) := by simpa using hk
        rw [if_neg hkd]
        have hfilt : (kv :: rest).filter (fun x => decide (x.Key = key))
            = (rest.dropWhile (fun x => decide (x.Key = kv.Key))).filter
                (fun x => decide (x.Key = key)) := by
          rw [List.filter_cons, if_neg hkd]
          conv_lhs => rw [← hsplit]
          rw [List.filter_append,
            filter_eq_nil_of_none _ _ (fun x hx => decide_eq_false
              (fun hxk => hk ((hrun x hx).symm.trans hxk))),
            List.nil_append]
        have hex : (∃ x ∈ kv :: rest, x.Key = key) ↔
            ∃ x ∈ rest.dropWhile (fun x => decide (x.Key = kv.Key)), x.Key = key := by
          constructor
          · rintro ⟨x, hx, hxk⟩
            rcases List.mem_cons.mp hx with rfl | hx
            · exact absurd hxk hk
            · rw [← hsplit] at hx
              rcases List.mem_append.mp hx with hx | hx
              · exact absurd ((hrun x hx).symm.trans hxk) hk
              · exact ⟨x, hx, hxk⟩
          · rintro ⟨x, hx, hxk⟩
            exact ⟨x, List.mem_cons_of_mem _ (hsuf.subset hx), hxk⟩
        refine ⟨fun h => ?_, fun h => ?_⟩
        · rw [ih1.1 (hex.mp h), hfilt]
        · exact ih1.2 (fun h1 => h (hex.mpr h1))

theorem executeReduce_spec (sortFunc : List KeyValue → List KeyValue)
    (reducef : String → List String → String) (fs : FileSystem) (i : Nat)
    (g : String × String → List KeyValue) (inputs : List (String × String))
    (ty nr : Int) (mf : String)
    (h : ∀ (j : Nat) (p : String × String), inputs.get? j = some p →
      mapGet fs (intermediateName (j : Int) i) = some (FileData.records (g p))) :
    executeReduce sortFunc reducef
        { TaskID := i, TaskType := ty, MapFileName := mf,
          ReduceFileNames := bucketFiles inputs.length i, NReduce := nr } fs
      = some (mapPut fs (outputName i)
          (FileData.text (formatLines
            (reduceLoop reducef (sortFunc (inputs.map g).flatten).length
              (sortFunc (inputs.map g).flatten))))) := by
  have hread := readLoop_spec fs i g inputs 0 [] (fun j p hj => by
    have := h j p hj
    simpa using this)
  simp only [List.nil_append] at hread
  have hb : bucketFiles inputs.length i
      = (List.range' 0 inputs.length).map (fun (t : Nat) => intermediateName t i) := by
    simp [bucketFiles, List.range_eq_range']
  simp only [executeReduce, hb, hread]

theorem runReduces_spec (sortFunc : List KeyValue → List KeyValue)
    (reducef : String → List String → String) (g : Nat → String × String → List KeyValue)
    (inputs : List (String × String)) (nr : Int) :
    ∀ (is : List Nat) (fs : FileSystem), is.Nodup →
    (∀ i ∈ is, ∀ (j : Nat) (p : String × String), inputs.get? j = some p →
      mapGet fs (intermediateName (j : Int) i) = some (FileData.records (g i p))) →
    ∃ fs1, runReduces sortFunc reducef inputs.length nr is fs = some fs1 ∧
      (∀ i ∈ is, mapGet fs1 (outputName i)
        = some (FileData.text (formatLines
            (reduceLoop reducef (sortFunc (inputs.map (g i)).flatten).length
              (sortFunc (inputs.map (g i)).flatten))))) ∧
      (∀ k, (∀ i ∈ is, k ≠ outputName (i : Int)) → mapGet fs1 k = mapGet fs k) := by
  intro is
  induction is with
  | nil =>
    intro fs _ _
    exact ⟨fs, rfl, fun i hi => by simp at hi, fun k _ => rfl⟩
  | cons i0 rest ih =>
    intro fs hnd h
    rw [List.nodup_cons] at hnd
    have hexec := executeReduce_spec sortFunc reducef fs i0 (g i0) inputs reduceTask nr ""
      (h i0 (List.mem_cons_self _ _))
    obtain ⟨fs1, hfs1, hout, hother⟩ := ih
      (mapPut fs (outputName i0)
        (FileData.text (formatLines
          (reduceLoop reducef (sortFunc (inputs.map (g i0)).flatten).length
            (sortFunc (inputs.map (g i0)).flatten))))) hnd.2
      (fun i hi j p hj => by
        rw [mapGet_mapPut, if_neg (fun he => outputName_ne_intermediateName i0 j i he.symm)]
        exact h i (List.mem_cons_of_mem _ hi) j p hj)
    refine ⟨fs1, ?_, ?_, ?_⟩
    · simp only [runReduces, hexec]
      exact hfs1
    · intro i hi
      rcases List.mem_cons.mp hi with rfl | hi
      · rw [hother _ (fun i' hi' he => hnd.1 (by
          have := outputName_injective _ _ he
          rw [this]; exact hi'))]
        rw [mapGet_mapPut, if_pos rfl]
      · exact hout i hi
    · intro k hk
      rw [hother k (fun i hi => hk i (List.mem_cons_of_mem _ hi))]
      rw [mapGet_mapPut, if_neg (hk i0 (List.mem_cons_self _ _))]

theorem filter_flatten_map {α β : Type} (f : α → List β) (p : β → Bool) (l : List α) :
    (l.map (fun a => (f a).filter p)).flatten = ((l.map f).flatten).filter p := by
  induction l with
  | nil => rfl
  | cons a as ih => simp [List.filter_append, ih]

/-- The records of bucket `i` that carry `key`: all the records emitted for
`key` when `key` hashes to `i`, none otherwise. -/
theorem bucket_filter_key (emitted : List KeyValue) (M i : Nat) (key : String) :
    ((emitted.filter
        (fun kv => decide ((Int.tmod (ihash kv.Key) (M : Int)).toNat = i))).filter
      (fun kv => decide (kv.Key = key)))
      = if (Int.tmod (ihash key) (M : Int)).toNat = i
        then emitted.filter (fun kv => decide (kv.Key = key)) else [] := by
  rw [List.filter_filter]
  by_cases hb : (Int.tmod (ihash key) (M : Int)).toNat = i
  · rw [if_pos hb]
    apply List.filter_congr
    intro x _
    by_cases hx : x.Key = key
    · simp [hx, hb]
    · simp [hx]
  · rw [if_neg hb]
    apply filter_eq_nil_of_none
    intro x _
    by_cases hx : x.Key = key
    · simp [hx, hb]
    · simp [hx]

/-! ## `ihash` -/

theorem fnv32a_foldl_lt (bs : List Nat) : ∀ h : Nat, h < 2 ^ 32 →
    bs.foldl (fun h b => (Nat.xor h b * 16777619) % 2 ^ 32) h < 2 ^ 32 := by
  induction bs with
  | nil => intro h hh; exact hh
  | cons b rest ih =>
    intro h _
    simp only [List.foldl_cons]
    exact ih _ (Nat.mod_lt _ (by norm_num))

theorem fnv32a_lt (bs : List Nat) : fnv32a bs < 2 ^ 32 :=
  fnv32a_foldl_lt bs 2166136261 (by norm_num)

theorem ihash_eq_mod (key : String) :
    ihash key = ((fnv32a (stringBytes key) % 2 ^ 31 : Nat) : Int) := by
  unfold ihash
  have h : (0x7fffffff : Nat) = 2 ^ 31 - 1 := by norm_num
  have h2 : Nat.land (fnv32a (stringBytes key)) 0x7fffffff
      = fnv32a (stringBytes key) % 2 ^ 31 := by
    rw [h]
    exact Nat.and_pow_two_sub_one_eq_mod _ 31
  rw [h2]

theorem ihash_lt (key : String) : ihash key < 2 ^ 31 := by
  rw [ihash_eq_mod]
  have : fnv32a (stringBytes key) % 2 ^ 31 < 2 ^ 31 := Nat.mod_lt _ (by norm_num)
  exact_mod_cast this

/-- C18: `ihash(key)` is the FNV-1a hash on 32 bits of the bytes of the key
(offset basis 2166136261; for each byte, xor it in and multiply by 16777619
modulo 2^32) with the top bit cleared, so `0 ≤ ihash(key) < 2^31`; for every
`N ≥ 1` the index `ihash(key) % N` lies in `[0, N)` and the partition loop of
`executeMap` never indexes out of range; equal keys have equal hashes. -/
theorem C18_ihash_range (key : String) :
    fnv32a [] = 2166136261 ∧
    (∀ (bs : List Nat) (b : Nat),
      fnv32a (bs ++ [b]) = (Nat.xor (fnv32a bs) b * 16777619) % 2 ^ 32) ∧
    fnv32a (stringBytes key) < 2 ^ 32 ∧
    ihash key = ((fnv32a (stringBytes key) % 2 ^ 31 : Nat) : Int) ∧
    0 ≤ ihash key ∧ ihash key < 2 ^ 31 ∧
    (∀ N : Int, 1 ≤ N → 0 ≤ Int.tmod (ihash key) N ∧ Int.tmod (ihash key) N < N) ∧
    (∀ (N : Nat) (kva : List KeyValue), 1 ≤ N →
      ∃ buckets, partitionLoop (N : Int) (List.replicate N []) kva = some buckets ∧
        buckets.length = N) ∧
    (∀ key2 : String, key2 = key → ihash key2 = ihash key) ∧
    (fnv32a (stringBytes "a") = 0xe40c292c ∧ ihash "a" = 0x640c292c) := by
  refine ⟨rfl, ?_, fnv32a_lt _, ihash_eq_mod key, ihash_nonneg key, ihash_lt key,
    ?_, ?_, ?_, by decide, by decide⟩
  · intro bs b
    simp [fnv32a, List.foldl_append]
  · intro N hN
    exact ⟨Int.tmod_nonneg N (ihash_nonneg key), Int.tmod_lt_of_pos (ihash key) (by omega)⟩
  · intro N kva hN
    obtain ⟨b1, hb1, hlen, _⟩ := partitionLoop_spec N (by omega) kva (List.replicate N [])
      (by simp)
    exact ⟨b1, hb1, hlen⟩
  · intro key2 h
    rw [h]

/-! ## Counters along an execution -/

theorem reported_taskDone_map (c : Coordinator) (rangeOrder : List String → List String)
    (args : DoneArgs) (hty : args.TaskType = mapTask) :
    reported c (Event.taskDone rangeOrder args)
      = if (mapGet c.tasks (mapKey args.TaskID)).isSome then some (mapTask, args.TaskID)
        else none := by
  simp [reported, hty]

theorem reported_taskDone_reduce (c : Coordinator) (rangeOrder : List String → List String)
    (args : DoneArgs) (hty : args.TaskType = reduceTask) :
    reported c (Event.taskDone rangeOrder args)
      = if (mapGet c.tasks (reduceKey args.TaskID)).isSome
        then some (reduceTask, args.TaskID) else none := by
  have hne : ¬ args.TaskType = mapTask := by rw [hty]; decide
  simp [reported, hty, hne, mapTask_ne_reduceTask.symm]

theorem reported_taskDone_other (c : Coordinator) (rangeOrder : List String → List String)
    (args : DoneArgs) (h1 : args.TaskType ≠ mapTask) (h2 : args.TaskType ≠ reduceTask) :
    reported c (Event.taskDone rangeOrder args) = none := by
  simp [reported, h1, h2]

/-- How one step moves the counters and the flag: `nMap` and `nReduce` are
constant, a counter grows by one exactly on a successful report of its kind,
and the flag is set only when both counters meet their totals. -/
theorem step_counters (c c1 : Coordinator) (e : Event) (hs : step c e = some c1) :
    c1.nMap = c.nMap ∧ c1.nReduce = c.nReduce ∧
    c1.nMapDone = c.nMapDone
      + (if (reported c e).map Prod.fst = some mapTask then 1 else 0) ∧
    c1.nReduceDone = c.nReduceDone
      + (if (reported c e).map Prod.fst = some reduceTask then 1 else 0) ∧
    (c1.done = true →
      c.done = true ∨ (c1.nMapDone = c1.nMap ∧ c1.nReduceDone = c1.nReduce)) := by
  cases e with
  | requestTask rangeOrder args now =>
    simp only [step, Option.some.injEq] at hs
    rw [← hs]
    rcases RequestTask_cases rangeOrder c args now with heq | ⟨k, t, _, _, _, heq, _, _⟩
    · rw [heq]; exact ⟨rfl, rfl, by simp [reported], by simp [reported], Or.inl⟩
    · rw [heq]; exact ⟨rfl, rfl, by simp [reported], by simp [reported], Or.inl⟩
  | timeoutScan now =>
    simp only [step, Option.some.injEq] at hs
    rw [← hs]
    exact ⟨rfl, rfl, by simp [reported, checkTimeout], by simp [reported, checkTimeout],
      Or.inl⟩
  | taskDone rangeOrder args =>
    simp only [step] at hs
    cases hr : TaskDone rangeOrder c args with
    | none => rw [hr] at hs; simp at hs
    | some r =>
      rw [hr] at hs
      simp only [Option.map_some', Option.some.injEq] at hs
      rw [← hs]
      have hfin : ∀ c0 : Coordinator, (taskDoneFinish c0).c.done = true →
          c0.done = true ∨ (c0.nMapDone = c0.nMap ∧ c0.nReduceDone = c0.nReduce) := by
        intro c0 h
        unfold taskDoneFinish at h
        by_cases hc : c0.nMapDone = c0.nMap ∧ c0.nReduceDone = c0.nReduce
        · exact Or.inr hc
        · simp only [hc, if_false] at h
          exact Or.inl h
      by_cases hm : args.TaskType = mapTask
      · rw [reported_taskDone_map c rangeOrder args hm]
        cases hg : mapGet c.tasks (mapKey args.TaskID) with
        | none =>
          rw [TaskDone_map_not_found rangeOrder c args hm hg] at hr
          rw [← Option.some.inj hr]
          exact ⟨rfl, rfl, by simp, by simp, Or.inl⟩
        | some t =>
          rw [TaskDone_map_found rangeOrder c args t hm hg] at hr
          have hne : mapTask ≠ reduceTask := mapTask_ne_reduceTask
          by_cases hn : c.nMapDone + 1 = c.nMap
          · rw [if_pos hn] at hr
            cases hsr : startReduce rangeOrder
                { c with
                  tasks := mapSet c.tasks (mapKey args.TaskID)
                    { t with state := completedTask },
                  nMapDone := c.nMapDone + 1,
                  intermediateFileNames :=
                    args.IntermediateFileNames.foldl setAdd c.intermediateFileNames } with
            | none => rw [hsr] at hr; simp at hr
            | some c4 =>
              rw [hsr] at hr
              simp only [Option.map_some', Option.some.injEq] at hr
              obtain ⟨_, af, _, hc4⟩ := startReduce_eq rangeOrder _ c4 hsr
              have hcnt := taskDoneFinish_counters c4
              refine ⟨?_, ?_, ?_, ?_, ?_⟩
              · rw [← hr, hcnt.2.1, hc4]
              · rw [← hr, hcnt.2.2.2.1, hc4]
              · rw [← hr, hcnt.1, hc4]; simp
              · rw [← hr, hcnt.2.2.1, hc4]; simp [hne]
              · intro hd
                rw [← hr] at hd
                rcases hfin c4 hd with h | h
                · left; rw [hc4] at h; exact h
                · right
                  rw [← hr, hcnt.1, hcnt.2.1, hcnt.2.2.1, hcnt.2.2.2.1]
                  exact h
          · rw [if_neg hn] at hr
            have hr' := Option.some.inj hr
            have hcnt := taskDoneFinish_counters
              { c with
                tasks := mapSet c.tasks (mapKey args.TaskID)
                  { t with state := completedTask },
                nMapDone := c.nMapDone + 1,
                intermediateFileNames :=
                  args.IntermediateFileNames.foldl setAdd c.intermediateFileNames }
            refine ⟨?_, ?_, ?_, ?_, ?_⟩
            · rw [← hr', hcnt.2.1]
            · rw [← hr', hcnt.2.2.2.1]
            · rw [← hr', hcnt.1]; simp
            · rw [← hr', hcnt.2.2.1]; simp [hne]
            · intro hd
              rw [← hr'] at hd
              rcases hfin _ hd with h | h
              · left; exact h
              · right
                rw [← hr', hcnt.1, hcnt.2.1, hcnt.2.2.1, hcnt.2.2.2.1]
                exact h
      · by_cases hrd : args.TaskType = reduceTask
        · rw [reported_taskDone_reduce c rangeOrder args hrd]
          cases hg : mapGet c.tasks (reduceKey args.TaskID) with
          | none =>
            rw [TaskDone_reduce_not_found rangeOrder c args hrd hg] at hr
            rw [← Option.some.inj hr]
            exact ⟨rfl, rfl, by simp, by simp, Or.inl⟩
          | some t =>
            rw [TaskDone_reduce_found rangeOrder c args t hrd hg] at hr
            have hr' := Option.some.inj hr
            have hne : reduceTask ≠ mapTask := mapTask_ne_reduceTask.symm
            have hcnt := taskDoneFinish_counters
              { c with
                tasks := mapSet c.tasks (reduceKey args.TaskID)
                  { t with state := completedTask },
                nReduceDone := c.nReduceDone + 1 }
            refine ⟨?_, ?_, ?_, ?_, ?_⟩
            · rw [← hr', hcnt.2.1]
            · rw [← hr', hcnt.2.2.2.1]
            · rw [← hr', hcnt.1]; simp [hne]
            · rw [← hr', hcnt.2.2.1]; simp
            · intro hd
              rw [← hr'] at hd
              rcases hfin _ hd with h | h
              · left; exact h
              · right
                rw [← hr', hcnt.1, hcnt.2.1, hcnt.2.2.1, hcnt.2.2.2.1]
                exact h
        · rw [reported_taskDone_other c rangeOrder args hm hrd]
          rw [TaskDone_other rangeOrder c args hm hrd] at hr
          have hr' := Option.some.inj hr
          have hcnt := taskDoneFinish_counters c
          refine ⟨?_, ?_, ?_, ?_, ?_⟩
          · rw [← hr', hcnt.2.1]
          · rw [← hr', hcnt.2.2.2.1]
          · rw [← hr', hcnt.1]; simp
          · rw [← hr', hcnt.2.2.1]; simp
          · intro hd
            rw [← hr'] at hd
            rcases hfin _ hd with h | h
            · left; exact h
            · right
              rw [← hr', hcnt.1, hcnt.2.1, hcnt.2.2.1, hcnt.2.2.2.1]
              exact h

theorem step_counters_mono (c c1 : Coordinator) (e : Event) (hs : step c e = some c1) :
    c1.nMap = c.nMap ∧ c1.nReduce = c.nReduce ∧
    c.nMapDone ≤ c1.nMapDone ∧ c.nReduceDone ≤ c1.nReduceDone := by
  obtain ⟨h1, h2, h3, h4, _⟩ := step_counters c c1 e hs
  refine ⟨h1, h2, ?_, ?_⟩
  · rw [h3]; split_ifs <;> omega
  · rw [h4]; split_ifs <;> omega

theorem wedged_step (c c1 : Coordinator) (e : Event) (hs : step c e = some c1)
    (hdone : c.done = false) (hover : c.nMap < c.nMapDone ∨ c.nReduce < c.nReduceDone) :
    c1.done = false ∧ (c1.nMap < c1.nMapDone ∨ c1.nReduce < c1.nReduceDone) := by
  obtain ⟨h1, h2, h3, h4⟩ := step_counters_mono c c1 e hs
  obtain ⟨_, _, _, _, h5⟩ := step_counters c c1 e hs
  have hover1 : c1.nMap < c1.nMapDone ∨ c1.nReduce < c1.nReduceDone := by
    rcases hover with h | h
    · left; omega
    · right; omega
  refine ⟨?_, hover1⟩
  cases hd : c1.done with
  | false => rfl
  | true =>
    exfalso
    rcases h5 hd with h | ⟨ha, hb⟩
    · rw [hdone] at h; exact Bool.noConfusion h
    · rcases hover1 with h | h <;> omega

theorem wedged_run (es : List Event) : ∀ (c c1 : Coordinator), run c es = some c1 →
    c.done = false → (c.nMap < c.nMapDone ∨ c.nReduce < c.nReduceDone) →
    c1.done = false := by
  induction es with
  | nil =>
    intro c c1 hr hd _
    simp only [run, Option.some.injEq] at hr
    rw [← hr]; exact hd
  | cons e es ih =>
    intro c c1 hr hd hover
    simp only [run] at hr
    cases hs : step c e with
    | none => rw [hs] at hr; simp at hr
    | some c2 =>
      rw [hs] at hr
      simp only [Option.some_bind] at hr
      obtain ⟨hd2, hover2⟩ := wedged_step c c2 e hs hd hover
      exact ih c2 c1 hr hd2 hover2

/-- C20: along a step the totals `nMap`, `nReduce` stay and the completion
counters do not decrease, and the flag is set only under
`nMapDone = nMap ∧ nReduceDone = nReduce`; so from a state with `done = false`
and a counter above its total no sequence of steps sets `done`. Such a state is
reachable: with two Map files, the reports Map 0, Map 0, Map 1 leave
`nMapDone = 3`, `nMap = 2` and `done = false`. -/
theorem C20_overshoot_wedges_job :
    (∀ (c c1 : Coordinator) (e : Event), step c e = some c1 →
      c1.nMap = c.nMap ∧ c1.nReduce = c.nReduce ∧
      c.nMapDone ≤ c1.nMapDone ∧ c.nReduceDone ≤ c1.nReduceDone ∧
      (c1.done = true →
        c.done = true ∨ (c1.nMapDone = c1.nMap ∧ c1.nReduceDone = c1.nReduce))) ∧
    (∀ (c : Coordinator), c.done = false →
      (c.nMap < c.nMapDone ∨ c.nReduce < c.nReduceDone) →
      ∀ (es : List Event) (c1 : Coordinator), run c es = some c1 → c1.done = false) ∧
    (∃ c, Reachable ["a", "b"] 1 c ∧ c.nMapDone = 3 ∧ c.nMap = 2 ∧ c.done = false) := by
  refine ⟨?_, ?_, ?_⟩
  · intro c c1 e hs
    obtain ⟨h1, h2, h3, h4⟩ := step_counters_mono c c1 e hs
    exact ⟨h1, h2, h3, h4, (step_counters c c1 e hs).2.2.2.2⟩
  · intro c hd hover es c1 hr
    exact wedged_run es c c1 hr hd hover
  · refine ⟨_, ⟨[Event.taskDone id
        { WorkerID := 1, TaskID := 0, TaskType := mapTask,
          IntermediateFileNames := ["mr-0-0"] },
      Event.taskDone id
        { WorkerID := 2, TaskID := 0, TaskType := mapTask,
          IntermediateFileNames := ["mr-0-0"] },
      Event.taskDone id
        { WorkerID := 3, TaskID := 1, TaskType := mapTask,
          IntermediateFileNames := ["mr-1-0"] }], ?_, rfl⟩, ?_, ?_, ?_⟩
    · intro e he
      simp only [List.mem_cons, List.mem_singleton, List.not_mem_nil, or_false] at he
      rcases he with rfl | rfl | rfl <;> exact isRangeOrder_id
    · decide
    · decide
    · decide

theorem C20_overshoot_wedges_job_witness :
    ∀ (es : List Event) (c1 : Coordinator),
      run { MakeCoordinator ["a", "b"] 1 with nMapDone := 3 } es = some c1 →
      c1.done = false :=
  C20_overshoot_wedges_job.2.1 { MakeCoordinator ["a", "b"] 1 with nMapDone := 3 } rfl
    (Or.inl (by decide))

/-! ## The Map→Reduce transition happens once -/

theorem countStartReduce_after (es : List Event) : ∀ (c : Coordinator),
    c.nMap ≤ c.nMapDone → countStartReduce c es = 0 := by
  induction es with
  | nil => intro c _; rfl
  | cons e es ih =>
    intro c h
    have hcall : callsStartReduce c e = false := by
      unfold callsStartReduce
      cases hrep : reported c e with
      | none => rfl
      | some p =>
        obtain ⟨ty, tid⟩ := p
        have : ¬ (c.nMapDone + 1 = c.nMap) := by omega
        simp [this]
    simp only [countStartReduce, hcall]
    cases hs : step c e with
    | none => simp
    | some c1 =>
      obtain ⟨h1, _, h3, _⟩ := step_counters_mono c c1 e hs
      simp only [Bool.false_eq_true, if_false, Nat.zero_add]
      exact ih c1 (by omega)

theorem countStartReduce_le_one (es : List Event) : ∀ (c : Coordinator),
    countStartReduce c es ≤ 1 := by
  induction es with
  | nil => intro c; simp [countStartReduce]
  | cons e es ih =>
    intro c
    simp only [countStartReduce]
    cases hs : step c e with
    | none =>
      simp only
      split_ifs <;> omega
    | some c1 =>
      simp only
      by_cases hcall : callsStartReduce c e = true
      · rw [if_pos hcall]
        have hfire : (reported c e).map Prod.fst = some mapTask ∧ c.nMapDone + 1 = c.nMap := by
          unfold callsStartReduce at hcall
          cases hrep : reported c e with
          | none => rw [hrep] at hcall; simp at hcall
          | some p =>
            obtain ⟨ty, tid⟩ := p
            rw [hrep] at hcall
            simp only [Bool.and_eq_true, decide_eq_true_eq] at hcall
            exact ⟨by simp [hcall.1], hcall.2⟩
        obtain ⟨h1, _, h3, _⟩ := step_counters c c1 e hs
        rw [if_pos hfire.1] at h3
        rw [countStartReduce_after es c1 (by omega)]
      · rw [if_neg hcall]
        have := ih c1
        omega

/-- A ledger entry and what a step may turn it into: the same task up to its
state, worker and start time. -/
theorem mapGet_mapSet_same_fields (tasks : List (String × Task)) (k0 : String) (t0 t0' : Task)
    (hg0 : mapGet tasks k0 = some t0) (hid : t0'.id = t0.id) (hty : t0'.tType = t0.tType)
    (hmf : t0'.mapFileName = t0.mapFileName)
    (hrf : t0'.reduceFileNames = t0.reduceFileNames)
    (k : String) (t : Task) (hg : mapGet tasks k = some t) :
    ∃ t1, mapGet (mapSet tasks k0 t0') k = some t1 ∧ t1.id = t.id ∧ t1.tType = t.tType ∧
      t1.mapFileName = t.mapFileName ∧ t1.reduceFileNames = t.reduceFileNames := by
  rw [mapGet_mapSet]
  by_cases hk : k = k0
  · rw [if_pos hk, hg0]
    rw [hk, hg0] at hg
    have : t0 = t := Option.some.inj hg
    rw [← this]
    exact ⟨t0', rfl, hid, hty, hmf, hrf⟩
  · rw [if_neg hk]
    exact ⟨t, hg, rfl, rfl, rfl, rfl⟩

theorem step_entry (c c1 : Coordinator) (e : Event) (hs : step c e = some c1)
    (k : String) (t : Task) (hg : mapGet c.tasks k = some t) :
    callsStartReduce c e = true ∨
    ∃ t1, mapGet c1.tasks k = some t1 ∧ t1.id = t.id ∧ t1.tType = t.tType ∧
      t1.mapFileName = t.mapFileName ∧ t1.reduceFileNames = t.reduceFileNames := by
  cases e with
  | requestTask rangeOrder args now =>
    right
    simp only [step, Option.some.injEq] at hs
    rw [← hs]
    rcases RequestTask_cases rangeOrder c args now with heq | ⟨k0, t0, hg0, _, _, heq, _, _⟩
    · rw [heq]; exact ⟨t, hg, rfl, rfl, rfl, rfl⟩
    · rw [heq]
      exact mapGet_mapSet_same_fields c.tasks k0 t0
        { t0 with state := runningTask, workerID := args.WorkerID, startTime := now }
        hg0 rfl rfl rfl rfl k t hg
  | timeoutScan now =>
    right
    simp only [step, Option.some.injEq] at hs
    rw [← hs]
    simp only [checkTimeout]
    rw [mapGet_map_values, hg]
    have h := timeoutTask_id now t
    exact ⟨timeoutTask now t, rfl, h.1, h.2.1, h.2.2.1, h.2.2.2.1⟩
  | taskDone rangeOrder args =>
    simp only [step] at hs
    cases hr : TaskDone rangeOrder c args with
    | none => rw [hr] at hs; simp at hs
    | some r =>
      rw [hr] at hs
      simp only [Option.map_some', Option.some.injEq] at hs
      rw [← hs]
      by_cases hm : args.TaskType = mapTask
      · cases hg0 : mapGet c.tasks (mapKey args.TaskID) with
        | none =>
          right
          rw [TaskDone_map_not_found rangeOrder c args hm hg0] at hr
          rw [← Option.some.inj hr]; exact ⟨t, hg, rfl, rfl, rfl, rfl⟩
        | some t0 =>
          rw [TaskDone_map_found rangeOrder c args t0 hm hg0] at hr
          by_cases hn : c.nMapDone + 1 = c.nMap
          · left
            unfold callsStartReduce
            rw [reported_taskDone_map c rangeOrder args hm, hg0]
            simp [hn]
          · right
            rw [if_neg hn] at hr
            rw [← Option.some.inj hr, taskDoneFinish_tasks]
            exact mapGet_mapSet_same_fields c.tasks _ t0 { t0 with state := completedTask }
              hg0 rfl rfl rfl rfl k t hg
      · right
        by_cases hrd : args.TaskType = reduceTask
        · cases hg0 : mapGet c.tasks (reduceKey args.TaskID) with
          | none =>
            rw [TaskDone_reduce_not_found rangeOrder c args hrd hg0] at hr
            rw [← Option.some.inj hr]; exact ⟨t, hg, rfl, rfl, rfl, rfl⟩
          | some t0 =>
            rw [TaskDone_reduce_found rangeOrder c args t0 hrd hg0] at hr
            rw [← Option.some.inj hr, taskDoneFinish_tasks]
            exact mapGet_mapSet_same_fields c.tasks _ t0 { t0 with state := completedTask }
              hg0 rfl rfl rfl rfl k t hg
        · rw [TaskDone_other rangeOrder c args hm hrd] at hr
          rw [← Option.some.inj hr, taskDoneFinish_tasks]
          exact ⟨t, hg, rfl, rfl, rfl, rfl⟩

/-- C16: in every execution from `MakeCoordinator(files, nReduce)`, whatever
the requests (duplicate and late reports included), the call of `startReduce`
is reached at most once; and once a Reduce task is in the ledger no later step
reaches that call, so the entry stays the same task (same id, kind and file
list) and is never replaced by a fresh one. -/
theorem C16_transition_at_most_once :
    (∀ (files : List String) (nReduce : Int) (es : List Event),
      countStartReduce (MakeCoordinator files nReduce) es ≤ 1) ∧
    (∀ (files : List String) (nReduce : Int) (c : Coordinator),
      Reachable files nReduce c →
      ∀ (k : String) (t : Task), mapGet c.tasks k = some t → t.tType = reduceTask →
      ∀ (e : Event) (c1 : Coordinator), step c e = some c1 →
        callsStartReduce c e = false ∧
        ∃ t1, mapGet c1.tasks k = some t1 ∧ t1.id = t.id ∧ t1.tType = t.tType ∧
          t1.mapFileName = t.mapFileName ∧ t1.reduceFileNames = t.reduceFileNames) := by
  refine ⟨fun files nReduce es => countStartReduce_le_one es _, ?_⟩
  intro files nReduce c hreach k t hg hty e c1 hs
  have hinv := LedgerInv_reachable files nReduce c hreach
  have hafter : c.nMap ≤ c.nMapDone := by
    by_contra hlt
    have hall := hinv.2.2 (Or.inl (by omega))
    have := hall k t hg
    rw [hty] at this
    exact mapTask_ne_reduceTask this.symm
  have hcall : callsStartReduce c e = false := by
    unfold callsStartReduce
    cases hrep : reported c e with
    | none => rfl
    | some p =>
      obtain ⟨ty, tid⟩ := p
      have : ¬ (c.nMapDone + 1 = c.nMap) := by omega
      simp [this]
  refine ⟨hcall, ?_⟩
  rcases step_entry c c1 e hs k t hg with h | h
  · rw [hcall] at h; exact Bool.noConfusion h
  · exact h

theorem C16_transition_at_most_once_witness :
    countStartReduce (MakeCoordinator ["a", "b"] 1)
        [Event.taskDone id
          { WorkerID := 1, TaskID := 0, TaskType := mapTask,
            IntermediateFileNames := ["mr-0-0"] },
         Event.taskDone id
          { WorkerID := 2, TaskID := 0, TaskType := mapTask,
            IntermediateFileNames := ["mr-0-0"] },
         Event.taskDone id
          { WorkerID := 3, TaskID := 1, TaskType := mapTask,
            IntermediateFileNames := ["mr-1-0"] }] ≤ 1 ∧
    countStartReduce (MakeCoordinator ["a", "b"] 1)
        [Event.taskDone id
          { WorkerID := 1, TaskID := 0, TaskType := mapTask,
            IntermediateFileNames := ["mr-0-0"] },
         Event.taskDone id
          { WorkerID := 2, TaskID := 0, TaskType := mapTask,
            IntermediateFileNames := ["mr-0-0"] },
         Event.taskDone id
          { WorkerID := 3, TaskID := 1, TaskType := mapTask,
            IntermediateFileNames := ["mr-1-0"] }] = 1 :=
  ⟨C16_transition_at_most_once.1 ["a", "b"] 1 _, by decide⟩

/-! ## Bad requests and reassignment -/

/-- C14: the code at the failing input. In the initial state of a one-file
job, a report for Map task 0 that carries the file name "x" (no `-` in it)
reaches `startReduce`, where `parts[2]` is out of range: the handler ends in a
run-time panic instead of an error reply. The same happens with the name
"mr-0-7" and one bucket, at `afilenames[id]`. A report for an unknown task, by
contrast, is answered with an error. -/
theorem C14_taskDone_panics_on_bad_file_name :
    Reachable ["a"] 1 (MakeCoordinator ["a"] 1) ∧
    TaskDone id (MakeCoordinator ["a"] 1)
        { WorkerID := 1, TaskID := 0, TaskType := mapTask,
          IntermediateFileNames := ["x"] } = none ∧
    TaskDone id (MakeCoordinator ["a"] 1)
        { WorkerID := 1, TaskID := 0, TaskType := mapTask,
          IntermediateFileNames := ["mr-0-7"] } = none ∧
    (TaskDone id (MakeCoordinator ["a"] 1)
        { WorkerID := 1, TaskID := 9, TaskType := mapTask,
          IntermediateFileNames := ["x"] }).map (fun r => r.err)
      = some (some "task not found") := by
  refine ⟨⟨[], by simp, rfl⟩, ?_, ?_, ?_⟩ <;> decide

/-- C15: in a reachable state that is not done, let task `t` be Running with
start time `s` (handed out at `s`, not reported since). A timeout scan at a
time `now` with `now - s` above 10 seconds makes `t` Idle; the next
`RequestTask` then answers with a task assignment, of kind Map or Reduce and
so neither Wait nor Exit, for a task that the scan left Idle, and leaves that
task Running with the id of the new caller and the time of the call. When `t`
is the only Idle task after the scan, the assignment is `t`: same id, same
kind, same input. -/
theorem C15_reassignment_after_timeout (files : List String) (nReduce : Int)
    (c : Coordinator) (k : String) (t : Task) (now now2 : Int)
    (rangeOrder : List String → List String) (args : TaskArgs)
    (hreach : Reachable files nReduce c) (hdone : c.done = false)
    (hg : mapGet c.tasks k = some t) (hrun : t.state = runningTask)
    (hlate : now - t.startTime > 10000000000) (hord : IsRangeOrder rangeOrder) :
    mapGet (checkTimeout c now).tasks k = some { t with state := idleTask } ∧
    (∃ k2 t2, mapGet (checkTimeout c now).tasks k2 = some t2 ∧ t2.state = idleTask ∧
      (RequestTask rangeOrder (checkTimeout c now) args now2).2.TaskID = t2.id ∧
      (RequestTask rangeOrder (checkTimeout c now) args now2).2.TaskType = t2.tType ∧
      ((RequestTask rangeOrder (checkTimeout c now) args now2).2.TaskType = mapTask ∨
       (RequestTask rangeOrder (checkTimeout c now) args now2).2.TaskType = reduceTask) ∧
      (RequestTask rangeOrder (checkTimeout c now) args now2).2.TaskType ≠ waitTask ∧
      (RequestTask rangeOrder (checkTimeout c now) args now2).2.TaskType ≠ exitTask ∧
      mapGet (RequestTask rangeOrder (checkTimeout c now) args now2).1.tasks k2
        = some { t2 with state := runningTask, workerID := args.WorkerID,
                         startTime := now2 }) ∧
    ((∀ k3 t3, mapGet (checkTimeout c now).tasks k3 = some t3 → t3.state = idleTask →
        k3 = k) →
      (RequestTask rangeOrder (checkTimeout c now) args now2).2.TaskID = t.id ∧
      (RequestTask rangeOrder (checkTimeout c now) args now2).2.TaskType = t.tType ∧
      (t.tType = mapTask →
        (RequestTask rangeOrder (checkTimeout c now) args now2).2.MapFileName
          = t.mapFileName) ∧
      (t.tType = reduceTask →
        (RequestTask rangeOrder (checkTimeout c now) args now2).2.ReduceFileNames
          = t.reduceFileNames) ∧
      mapGet (RequestTask rangeOrder (checkTimeout c now) args now2).1.tasks k
        = some { t with state := runningTask, workerID := args.WorkerID,
                        startTime := now2 }) := by
  have hinv := LedgerInv_checkTimeout c now (LedgerInv_reachable files nReduce c hreach)
  have hidle : mapGet (checkTimeout c now).tasks k = some { t with state := idleTask } := by
    simp only [checkTimeout]
    rw [mapGet_map_values, hg]
    have : now - t.startTime > taskTimeout := by unfold taskTimeout; omega
    simp [timeoutTask, hrun, this]
  have hdone1 : (checkTimeout c now).done = false := hdone
  have hmem : k ∈ rangeOrder (mapKeys (checkTimeout c now).tasks) := by
    have hk : k ∈ mapKeys (checkTimeout c now).tasks := by
      by_contra hn
      rw [(mapGet_eq_none_iff _ k).mpr hn] at hidle
      exact Option.noConfusion hidle
    exact (hord _).mem_iff.mpr hk
  have hrunEq : RequestTask rangeOrder (checkTimeout c now) args now2
      = requestLoop (checkTimeout c now) args now2
          { TaskReply.zero with TaskType := waitTask }
          (rangeOrder (mapKeys (checkTimeout c now).tasks)) := by
    simp [RequestTask, hdone1]
  obtain ⟨k2, _, t2, hg2, hidle2, hstate, hid, hty, _, hmf, hrf⟩ :=
    requestLoop_idle (checkTimeout c now) args now2
      { TaskReply.zero with TaskType := waitTask }
      (rangeOrder (mapKeys (checkTimeout c now).tasks))
      ⟨k, hmem, _, hidle, rfl⟩
  rw [← hrunEq] at hstate hid hty hmf hrf
  have hkind : t2.tType = mapTask ∨ t2.tType = reduceTask := by
    rcases hinv.1 k2 t2 hg2 with ⟨_, h⟩ | ⟨_, h⟩
    · exact Or.inl h
    · exact Or.inr h
  have hset : mapGet (RequestTask rangeOrder (checkTimeout c now) args now2).1.tasks k2
      = some { t2 with state := runningTask, workerID := args.WorkerID,
                       startTime := now2 } := by
    rw [hstate]
    exact mapGet_mapSet_self _ k2 _ t2 hg2
  refine ⟨hidle, ⟨k2, t2, hg2, hidle2, hid, hty, ?_, ?_, ?_, hset⟩, ?_⟩
  · rw [hty]; exact hkind
  · rw [hty]; rcases hkind with h | h <;> rw [h] <;> decide
  · rw [hty]; rcases hkind with h | h <;> rw [h] <;> decide
  · intro honly
    have hk2 : k2 = k := honly k2 t2 hg2 hidle2
    subst hk2
    rw [hidle] at hg2
    have ht2 : t2 = { t with state := idleTask } := (Option.some.inj hg2).symm
    subst ht2
    refine ⟨hid, hty, ?_, ?_, hset⟩
    · intro h1
      rw [hmf, if_pos h1]
    · intro h1
      rw [hrf, if_pos h1]

theorem C15_reassignment_after_timeout_witness :
    mapGet (checkTimeout (RequestTask id (MakeCoordinator ["a"] 1) { WorkerID := 7 } 0).1
        10000000001).tasks (mapKey 0)
      = some { newMapTask 0 "a" with state := idleTask, workerID := 7, startTime := 0 } ∧
    (RequestTask id
        (checkTimeout (RequestTask id (MakeCoordinator ["a"] 1) { WorkerID := 7 } 0).1
          10000000001) { WorkerID := 8 } 10500000000).2
      = { TaskID := 0, TaskType := mapTask, MapFileName := "a", ReduceFileNames := [],
          NReduce := 1 } := by
  have h := C15_reassignment_after_timeout ["a"] 1
    (RequestTask id (MakeCoordinator ["a"] 1) { WorkerID := 7 } 0).1 (mapKey 0)
    { newMapTask 0 "a" with state := runningTask, workerID := 7, startTime := 0 }
    10000000001 10500000000 id { WorkerID := 8 }
    ⟨[Event.requestTask id { WorkerID := 7 } 0],
      by
        intro e he
        simp only [List.mem_singleton] at he
        rw [he]
        exact isRangeOrder_id,
      rfl⟩
    rfl (by decide) rfl (by decide) isRangeOrder_id
  exact ⟨h.1, by decide⟩

/-! ## The order of the keys is the order of their bytes -/

theorem bytesLt_asymm : ∀ (a b : List Nat), bytesLt a b = true → bytesLt b a = false := by
  intro a
  induction a with
  | nil => intro b _; cases b <;> rfl
  | cons x xs ih =>
    intro b h
    cases b with
    | nil => simp [bytesLt] at h
    | cons y ys =>
      simp only [bytesLt] at h ⊢
      by_cases h1 : x < y
      · have h2 : ¬ y < x := by omega
        simp [h1, h2]
      · by_cases h2 : y < x
        · simp [h1, h2] at h
        · simp only [h1, h2, if_false] at h ⊢
          exact ih ys h

theorem bytesLt_append_left (p : List Nat) (a b : List Nat) :
    bytesLt (p ++ a) (p ++ b) = bytesLt a b := by
  induction p with
  | nil => rfl
  | cons x xs ih => simp [bytesLt, ih]

theorem utf8Bytes_ne_nil (c : Char) : utf8Bytes c ≠ [] := by
  unfold utf8Bytes
  simp only
  split_ifs <;> simp

theorem utf8Bytes_one (c : Char) (h : c.toNat < 128) : utf8Bytes c = [c.toNat] := by
  simp [utf8Bytes, h]

theorem utf8Bytes_two (c : Char) (h1 : ¬ c.toNat < 128) (h2 : c.toNat < 2048) :
    utf8Bytes c = [192 + c.toNat / 64, 128 + c.toNat % 64] := by
  simp [utf8Bytes, h1, h2]

theorem utf8Bytes_three (c : Char) (h1 : ¬ c.toNat < 2048) (h2 : c.toNat < 65536) :
    utf8Bytes c = [224 + c.toNat / 4096, 128 + c.toNat / 64 % 64, 128 + c.toNat % 64] := by
  have h0 : ¬ c.toNat < 128 := by omega
  simp [utf8Bytes, h0, h1, h2]

theorem utf8Bytes_four (c : Char) (h1 : ¬ c.toNat < 65536) :
    utf8Bytes c = [240 + c.toNat / 262144, 128 + c.toNat / 4096 % 64,
      128 + c.toNat / 64 % 64, 128 + c.toNat % 64] := by
  have h0 : ¬ c.toNat < 128 := by omega
  have h2 : ¬ c.toNat < 2048 := by omega
  simp [utf8Bytes, h0, h1, h2]

theorem bytesLt_cons_lt (x y : Nat) (a b : List Nat) (h : x < y) :
    bytesLt (x :: a) (y :: b) = true := by
  simp [bytesLt, h]

theorem bytesLt_cons_eq (x y : Nat) (a b : List Nat) (h : x = y) :
    bytesLt (x :: a) (y :: b) = bytesLt a b := by
  subst h
  simp [bytesLt]

/-- Two byte sequences that start with the digits of two numbers compare as
the numbers do: the sequence with the first smaller byte is below. -/
theorem bytesLt_cons_le (x y : Nat) (a b : List Nat) (h : x ≤ y)
    (hrest : x = y → bytesLt a b = true) : bytesLt (x :: a) (y :: b) = true := by
  by_cases he : x = y
  · rw [bytesLt_cons_eq x y a b he]; exact hrest he
  · exact bytesLt_cons_lt x y a b (by omega)

/-- The UTF-8 encoding keeps the order of the code points, whatever follows. -/
theorem bytesLt_utf8_of_lt (c d : Char) (a b : List Nat) (h : c.toNat < d.toNat) :
    bytesLt (utf8Bytes c ++ a) (utf8Bytes d ++ b) = true := by
  by_cases c1 : c.toNat < 128
  · rw [utf8Bytes_one c c1]
    by_cases d1 : d.toNat < 128
    · rw [utf8Bytes_one d d1]
      exact bytesLt_cons_lt _ _ _ _ h
    · by_cases d2 : d.toNat < 2048
      · rw [utf8Bytes_two d d1 d2]
        exact bytesLt_cons_lt _ _ _ _ (by omega)
      · by_cases d3 : d.toNat < 65536
        · rw [utf8Bytes_three d d2 d3]
          exact bytesLt_cons_lt _ _ _ _ (by omega)
        · rw [utf8Bytes_four d d3]
          exact bytesLt_cons_lt _ _ _ _ (by omega)
  · by_cases c2 : c.toNat < 2048
    · rw [utf8Bytes_two c c1 c2]
      by_cases d2 : d.toNat < 2048
      · rw [utf8Bytes_two d (by omega) d2]
        apply bytesLt_cons_le _ _ _ _ (by omega)
        intro he
        exact bytesLt_cons_lt _ _ _ _ (by omega)
      · by_cases d3 : d.toNat < 65536
        · rw [utf8Bytes_three d d2 d3]
          exact bytesLt_cons_lt _ _ _ _ (by omega)
        · rw [utf8Bytes_four d d3]
          exact bytesLt_cons_lt _ _ _ _ (by omega)
    · by_cases c3 : c.toNat < 65536
      · rw [utf8Bytes_three c c2 c3]
        by_cases d3 : d.toNat < 65536
        · rw [utf8Bytes_three d (by omega) d3]
          apply bytesLt_cons_le _ _ _ _ (by omega)
          intro he1
          apply bytesLt_cons_le _ _ _ _ (by omega)
          intro he2
          exact bytesLt_cons_lt _ _ _ _ (by omega)
        · rw [utf8Bytes_four d d3]
          exact bytesLt_cons_lt _ _ _ _ (by omega)
      · rw [utf8Bytes_four c c3, utf8Bytes_four d (by omega)]
        apply bytesLt_cons_le _ _ _ _ (by omega)
        intro he1
        apply bytesLt_cons_le _ _ _ _ (by omega)
        intro he2
        apply bytesLt_cons_le _ _ _ _ (by omega)
        intro he3
        exact bytesLt_cons_lt _ _ _ _ (by omega)

/-- The order `strLt` of the characters is the order of the UTF-8 bytes. -/
theorem strLt_eq_bytesLt : ∀ (a b : List Char),
    strLt a b = bytesLt (a.map utf8Bytes).flatten (b.map utf8Bytes).flatten := by
  intro a
  induction a with
  | nil =>
    intro b
    cases b with
    | nil => rfl
    | cons d ds =>
      cases hd : utf8Bytes d with
      | nil => exact absurd hd (utf8Bytes_ne_nil d)
      | cons x xs => simp [strLt, bytesLt, hd]
  | cons c cs ih =>
    intro b
    cases b with
    | nil =>
      simp only [strLt, List.map_nil, List.flatten_nil]
      cases (List.map utf8Bytes (c :: cs)).flatten <;> rfl
    | cons d ds =>
      simp only [strLt, List.map_cons, List.flatten_cons]
      by_cases h1 : c.toNat < d.toNat
      · rw [if_pos h1, bytesLt_utf8_of_lt c d _ _ h1]
      · rw [if_neg h1]
        by_cases h2 : d.toNat < c.toNat
        · rw [if_pos h2]
          exact (bytesLt_asymm _ _ (bytesLt_utf8_of_lt d c _ _ h2)).symm
        · rw [if_neg h2]
          have hcd : c = d := char_eq_of_toNat c d (by omega)
          rw [hcd, bytesLt_append_left]
          exact ih ds

theorem strLt_data_eq_bytesLt (s t : String) :
    strLt s.data t.data = bytesLt (stringBytes s) (stringBytes t) :=
  strLt_eq_bytesLt s.data t.data

/-! ## The lines written by `executeReduce` -/

theorem reduceLoop_keys (reducef : String → List String → String) :
    ∀ (fuel : Nat) (l : List KeyValue) (line : String × String),
    line ∈ reduceLoop reducef fuel l → ∃ kv ∈ l, kv.Key = line.1 := by
  intro fuel
  induction fuel with
  | zero => intro l line h; simp [reduceLoop] at h
  | succ fuel ih =>
    intro l line h
    cases l with
    | nil => simp [reduceLoop] at h
    | cons kv rest =>
      simp only [reduceLoop, List.mem_cons] at h
      rcases h with h | h
      · exact ⟨kv, List.mem_cons_self _ _, by rw [h]⟩
      · obtain ⟨x, hx, hxk⟩ := ih _ line h
        exact ⟨x, List.mem_cons_of_mem _ ((List.dropWhile_suffix _).sublist.subset hx), hxk⟩

/-- In a sorted slice, the records left after the run of the first key carry
keys above it. -/
theorem sorted_tail_gt (kv : KeyValue) (rest : List KeyValue)
    (hs : (kv :: rest).Pairwise (fun a b => cmpKey a b ≤ 0)) :
    ∀ x ∈ rest.dropWhile (fun x => decide (x.Key = kv.Key)),
      strLt kv.Key.data x.Key.data = true := by
  intro x hx
  have hne := sorted_tail_no_key kv rest hs x hx
  have hmem : x ∈ rest := (List.dropWhile_suffix _).sublist.subset hx
  have h1 : strLt x.Key.data kv.Key.data = false :=
    (cmpKey_le_iff kv x).mp ((List.pairwise_cons.mp hs).1 x hmem)
  cases hlt : strLt kv.Key.data x.Key.data with
  | true => rfl
  | false => exact absurd (string_eq_of_data _ _ (strLt_total _ _ h1 hlt)) hne

theorem reduceLoop_increasing (reducef : String → List String → String) :
    ∀ (fuel : Nat) (l : List KeyValue), l.Pairwise (fun a b => cmpKey a b ≤ 0) →
    (reduceLoop reducef fuel l).Pairwise (fun a b => strLt a.1.data b.1.data = true) := by
  intro fuel
  induction fuel with
  | zero => intro l _; simp [reduceLoop]
  | succ fuel ih =>
    intro l hs
    cases l with
    | nil => simp [reduceLoop]
    | cons kv rest =>
      simp only [reduceLoop]
      have hsuf : (rest.dropWhile (fun x => decide (x.Key = kv.Key))).Sublist rest :=
        (List.dropWhile_suffix _).sublist
      rw [List.pairwise_cons]
      refine ⟨?_, ih _ ((List.pairwise_cons.mp hs).2.sublist hsuf)⟩
      intro line hline
      obtain ⟨x, hx, hxk⟩ := reduceLoop_keys reducef fuel _ line hline
      rw [← hxk]
      exact sorted_tail_gt kv rest hs x hx

/-- In a sorted slice the records of one key are consecutive. -/
theorem sorted_key_block (key : String) : ∀ (l : List KeyValue),
    l.Pairwise (fun a b => cmpKey a b ≤ 0) →
    ∃ pre post, l = pre ++ l.filter (fun kv => decide (kv.Key = key)) ++ post ∧
      (∀ x ∈ pre, x.Key ≠ key) ∧ (∀ x ∈ post, x.Key ≠ key) := by
  intro l
  induction l with
  | nil => intro _; exact ⟨[], [], rfl, by simp, by simp⟩
  | cons x xs ih =>
    intro hs
    rw [List.pairwise_cons] at hs
    obtain ⟨pre, post, hsplit, hpre, hpost⟩ := ih hs.2
    by_cases hx : x.Key = key
    · rw [List.filter_cons, if_pos (decide_eq_true hx)]
      cases hF : xs.filter (fun kv => decide (kv.Key = key)) with
      | nil =>
        refine ⟨[], xs, by simp, by simp, ?_⟩
        intro y hy hyk
        have : y ∈ xs.filter (fun kv => decide (kv.Key = key)) :=
          List.mem_filter.mpr ⟨hy, decide_eq_true hyk⟩
        rw [hF] at this
        simp at this
      | cons z zs =>
        have hz : z ∈ xs.filter (fun kv => decide (kv.Key = key)) := by
          rw [hF]; exact List.mem_cons_self _ _
        have hzk : z.Key = key := by simpa using (List.mem_filter.mp hz).2
        cases pre with
        | nil =>
          refine ⟨[], post, ?_, by simp, hpost⟩
          rw [hF] at hsplit
          simp only [List.nil_append] at hsplit ⊢
          rw [hsplit]
          rfl
        | cons y ys =>
          exfalso
          have hyk : y.Key ≠ key := hpre y (List.mem_cons_self _ _)
          have hy : y ∈ xs := by rw [hsplit]; simp
          have h1 : strLt y.Key.data x.Key.data = false :=
            (cmpKey_le_iff x y).mp (hs.1 y hy)
          have hpw : ((y :: ys) ++ (z :: zs) ++ post).Pairwise
              (fun a b => cmpKey a b ≤ 0) := by
            rw [← hF, ← hsplit]; exact hs.2
          have hyz : cmpKey y z ≤ 0 := by
            simp only [List.cons_append, List.pairwise_cons] at hpw
            exact hpw.1 z (by simp)
          have h2 : strLt z.Key.data y.Key.data = false := (cmpKey_le_iff y z).mp hyz
          rw [hzk, ← hx] at h2
          exact hyk ((string_eq_of_data _ _ (strLt_total _ _ h1 h2)).trans hx)
    · have hxd : ¬ (decide (x.Key = key) = true) := by simpa using hx
      rw [List.filter_cons, if_neg hxd]
      refine ⟨x :: pre, post, ?_, ?_, hpost⟩
      · simp only [List.cons_append]
        rw [← hsplit]
      · intro y hy
        rcases List.mem_cons.mp hy with rfl | hy
        · exact hx
        · exact hpre y hy

/-- C11: let `kva` be the records `executeReduce` has read and `sortFunc` a
sorting function that meets the contract of `slices.SortFunc`. The lines
written have strictly increasing keys in the order of the bytes; a key of the
input has exactly one line, `<key> <value>`, whose value is `reducef` applied
to the key and to the values of the consecutive run of that key in the sorted
slice, which are a permutation of the values of all input records with that
key; a key that is not in the input has no line; and the output file holds
these lines. -/
theorem C11_reduce_lines (sortFunc : List KeyValue → List KeyValue)
    (reducef : String → List String → String) (kva : List KeyValue)
    (hsort : IsSortFunc sortFunc) :
    (reduceLoop reducef (sortFunc kva).length (sortFunc kva)).Pairwise
      (fun a b => bytesLt (stringBytes a.1) (stringBytes b.1) = true) ∧
    (∀ key : String, (∃ kv ∈ kva, kv.Key = key) →
      ∃ pre run post, sortFunc kva = pre ++ run ++ post ∧
        (∀ x ∈ run, x.Key = key) ∧ (∀ x ∈ pre, x.Key ≠ key) ∧ (∀ x ∈ post, x.Key ≠ key) ∧
        (run.map (fun kv => kv.Value)).Perm
          ((kva.filter (fun kv => decide (kv.Key = key))).map (fun kv => kv.Value)) ∧
        (reduceLoop reducef (sortFunc kva).length (sortFunc kva)).filter
            (fun line => decide (line.1 = key))
          = [(key, reducef key (run.map (fun kv => kv.Value)))]) ∧
    (∀ key : String, (¬ ∃ kv ∈ kva, kv.Key = key) →
      (reduceLoop reducef (sortFunc kva).length (sortFunc kva)).filter
          (fun line => decide (line.1 = key)) = []) ∧
    (∀ line : String × String, formatLine line = line.1 ++ " " ++ line.2 ++ "\n") ∧
    (∀ (fs : FileSystem) (taskReply : TaskReply),
      readLoop fs [] taskReply.ReduceFileNames = some kva →
      executeReduce sortFunc reducef taskReply fs
        = some (mapPut fs (outputName taskReply.TaskID)
            (FileData.text (formatLines
              (reduceLoop reducef (sortFunc kva).length (sortFunc kva)))))) := by
  obtain ⟨hperm, hsorted⟩ := hsort kva
  refine ⟨?_, ?_, ?_, fun _ => rfl, ?_⟩
  · have h := reduceLoop_increasing reducef (sortFunc kva).length (sortFunc kva) hsorted
    refine h.imp ?_
    intro a b hab
    rw [← strLt_data_eq_bytesLt]
    exact hab
  · intro key ⟨kv, hkv, hkey⟩
    obtain ⟨pre, post, hsplit, hpre, hpost⟩ := sorted_key_block key (sortFunc kva) hsorted
    refine ⟨pre, (sortFunc kva).filter (fun kv => decide (kv.Key = key)), post, hsplit,
      ?_, hpre, hpost, ?_, ?_⟩
    · intro x hx
      simpa using (List.mem_filter.mp hx).2
    · exact ((hperm.filter _).map _)
    · exact (reduceLoop_filter reducef _ _ (Nat.le_refl _) hsorted key).1
        ⟨kv, hperm.mem_iff.mpr hkv, hkey⟩
  · intro key hnot
    apply (reduceLoop_filter reducef _ _ (Nat.le_refl _) hsorted key).2
    rintro ⟨x, hx, hxk⟩
    exact hnot ⟨x, hperm.mem_iff.mp hx, hxk⟩
  · intro fs taskReply hread
    simp only [executeReduce, hread]

theorem C11_reduce_lines_witness :
    reduceLoop wcReduce 3
        (sortByKey [{ Key := "b", Value := "1" }, { Key := "a", Value := "1" },
          { Key := "b", Value := "1" }])
      = [("a", "1"), ("b", "2")] ∧
    (reduceLoop wcReduce
        (sortByKey [{ Key := "b", Value := "1" }, { Key := "a", Value := "1" },
          { Key := "b", Value := "1" }]).length
        (sortByKey [{ Key := "b", Value := "1" }, { Key := "a", Value := "1" },
          { Key := "b", Value := "1" }])).Pairwise
      (fun a b => bytesLt (stringBytes a.1) (stringBytes b.1) = true) :=
  ⟨by decide,
   (C11_reduce_lines sortByKey wcReduce
      [{ Key := "b", Value := "1" }, { Key := "a", Value := "1" },
        { Key := "b", Value := "1" }] isSortFunc_sortByKey).1⟩

/-! ## The partition made by `executeMap` -/

theorem flatten_map_insert {α : Type} (x : α) (F : Nat → List α) (j0 : Nat) :
    ∀ (js : List Nat), js.Nodup → j0 ∈ js →
    ((js.map (fun j => if j0 = j then x :: F j else F j)).flatten).Perm
      (x :: (js.map F).flatten) := by
  intro js
  induction js with
  | nil => intro _ h; simp at h
  | cons j rest ih =>
    intro hnd hmem
    rw [List.nodup_cons] at hnd
    simp only [List.map_cons, List.flatten_cons]
    by_cases hj : j0 = j
    · rw [if_pos hj]
      have hrest : rest.map (fun j => if j0 = j then x :: F j else F j) = rest.map F := by
        apply List.map_congr_left
        intro j' hj'
        have : ¬ j0 = j' := fun he => hnd.1 (by rw [← hj, he]; exact hj')
        rw [if_neg this]
      rw [hrest]
      exact List.Perm.refl _
    · rw [if_neg hj]
      have hmem' : j0 ∈ rest := by
        rcases List.mem_cons.mp hmem with h | h
        · exact absurd h hj
        · exact h
      have := ih hnd.2 hmem'
      exact (List.Perm.append_left (F j) this).trans List.perm_middle

theorem flatten_filter_perm {α : Type} (b : α → Nat) (N : Nat) : ∀ (l : List α),
    (∀ x ∈ l, b x < N) →
    (((List.range N).map (fun j => l.filter (fun x => decide (b x = j)))).flatten).Perm l := by
  intro l
  induction l with
  | nil =>
    intro _
    have : ((List.range N).map (fun _ => ([] : List α))).flatten = [] := by
      induction (List.range N) with
      | nil => rfl
      | cons j js ih => simp [ih]
    simp only [List.filter_nil]
    rw [this]
  | cons x xs ih =>
    intro hb
    have hx : b x < N := hb x (List.mem_cons_self _ _)
    have hmap : (List.range N).map (fun j => (x :: xs).filter (fun y => decide (b y = j)))
        = (List.range N).map (fun j => if b x = j
            then x :: xs.filter (fun y => decide (b y = j))
            else xs.filter (fun y => decide (b y = j))) := by
      apply List.map_congr_left
      intro j _
      rw [List.filter_cons]
      by_cases hj : b x = j
      · rw [if_pos (decide_eq_true hj), if_pos hj]
      · rw [if_neg (by simpa using hj), if_neg hj]
    rw [hmap]
    exact (flatten_map_insert x (fun j => xs.filter (fun y => decide (b y = j))) (b x)
      (List.range N) (List.nodup_range N) (List.mem_range.mpr hx)).trans
      (List.Perm.cons x (ih (fun y hy => hb y (List.mem_cons_of_mem _ hy))))

theorem list_eq_map_range_getD {α : Type} (d : α) : ∀ (l : List α),
    l = (List.range l.length).map (fun j => l.getD j d) := by
  intro l
  apply List.ext_getElem
  · simp
  · intro i h1 h2
    simp [List.getD_eq_getElem?_getD, List.getElem?_eq_getElem h1]

/-- C12: for `N ≥ 1` buckets and any output `kva` of the map function, the
partition loop of `executeMap` returns (no index is out of range) and bucket
`j` holds the pairs of `kva` whose key has `ihash(key) % N = j`, in the order
of emission; so a pair is in the bucket of its key and in no other, the
buckets put end to end are a permutation of `kva`, and pairs with equal keys,
from whatever map task, have the same bucket index. `executeMap` writes
bucket `i` to `mr-<task>-<i>`. -/
theorem C12_partition_by_hash (N : Nat) (kva : List KeyValue) (hN : 1 ≤ N) :
    (∃ buckets, partitionLoop (N : Int) (List.replicate N []) kva = some buckets ∧
      buckets.length = N ∧
      (∀ j : Nat, buckets.getD j []
        = kva.filter (fun kv => decide ((Int.tmod (ihash kv.Key) (N : Int)).toNat = j))) ∧
      (∀ j : Nat, (buckets.getD j []).Sublist kva) ∧
      (∀ (kv : KeyValue) (j : Nat), kv ∈ buckets.getD j [] ↔
        (kv ∈ kva ∧ (Int.tmod (ihash kv.Key) (N : Int)).toNat = j)) ∧
      buckets.flatten.Perm kva) ∧
    (∀ kv ∈ kva, (Int.tmod (ihash kv.Key) (N : Int)).toNat < N) ∧
    (∀ kv1 kv2 : KeyValue, kv1.Key = kv2.Key →
      (Int.tmod (ihash kv1.Key) (N : Int)).toNat
        = (Int.tmod (ihash kv2.Key) (N : Int)).toNat) ∧
    (∀ (mapf : String → String → List KeyValue) (t : Nat) (file content : String)
      (fs : FileSystem), mapGet fs file = some (FileData.text content) →
      mapf file content = kva →
      ∃ r, executeMap mapf
          { TaskID := t, TaskType := mapTask, MapFileName := file, ReduceFileNames := [],
            NReduce := N } fs = some r ∧
        ∀ i : Nat, i < N → mapGet r.1 (intermediateName t i)
          = some (FileData.records (kva.filter
              (fun kv => decide ((Int.tmod (ihash kv.Key) (N : Int)).toNat = i))))) := by
  have hpos : 0 < N := by omega
  obtain ⟨b1, hb1, hlen, hget⟩ := partitionLoop_spec N hpos kva (List.replicate N [])
    (by simp)
  have hget' : ∀ j : Nat, b1.getD j []
      = kva.filter (fun kv => decide ((Int.tmod (ihash kv.Key) (N : Int)).toNat = j)) := by
    intro j
    rw [hget j, replicate_nil_getD, List.nil_append]
  have hbound : ∀ kv ∈ kva, (Int.tmod (ihash kv.Key) (N : Int)).toNat < N :=
    fun kv _ => (bucket_lt kv.Key N hpos).2
  refine ⟨⟨b1, hb1, hlen, hget', ?_, ?_, ?_⟩, hbound, ?_, ?_⟩
  · intro j
    rw [hget' j]
    exact List.filter_sublist kva
  · intro kv j
    rw [hget' j, List.mem_filter, decide_eq_true_eq]
  · have hb : b1 = (List.range N).map (fun j => kva.filter
        (fun kv => decide ((Int.tmod (ihash kv.Key) (N : Int)).toNat = j))) := by
      have h := list_eq_map_range_getD ([] : List KeyValue) b1
      rw [hlen] at h
      rw [h]
      apply List.map_congr_left
      intro j _
      exact hget' j
    rw [hb]
    exact flatten_filter_perm (fun kv => (Int.tmod (ihash kv.Key) (N : Int)).toNat) N kva
      hbound
  · intro kv1 kv2 h
    rw [h]
  · intro mapf t file content fs hin hkva
    obtain ⟨r, hr, _, hself, _⟩ := executeMap_spec mapf t N hpos file content mapTask [] fs hin
    rw [hkva] at hself
    exact ⟨r, hr, hself⟩

theorem C12_partition_by_hash_witness :
    ∃ buckets, partitionLoop 2 (List.replicate 2 [])
        (wcMap "pg-0.txt" "a b a") = some buckets ∧
      buckets.flatten.Perm (wcMap "pg-0.txt" "a b a") ∧
      buckets = [[{ Key := "a", Value := "1" }, { Key := "a", Value := "1" }],
                 [{ Key := "b", Value := "1" }]] := by
  obtain ⟨⟨buckets, h1, _, _, _, _, h6⟩, _⟩ :=
    C12_partition_by_hash 2 (wcMap "pg-0.txt" "a b a") (by decide)
  refine ⟨buckets, h1, h6, ?_⟩
  have h2 : partitionLoop 2 (List.replicate 2 []) (wcMap "pg-0.txt" "a b a")
      = some [[{ Key := "a", Value := "1" }, { Key := "a", Value := "1" }],
              [{ Key := "b", Value := "1" }]] := by decide
  have h3 : partitionLoop ((2 : Nat) : Int) (List.replicate 2 []) (wcMap "pg-0.txt" "a b a")
      = some buckets := h1
  rw [show ((2 : Nat) : Int) = 2 from rfl, h2] at h3
  exact (Option.some.inj h3).symm

/-! ## Counting lemmas -/

theorem count_mapSet (p : Task → Bool) : ∀ (tasks : List (String × Task)) (k : String)
    (t0 t1 : Task), (mapKeys tasks).Nodup → mapGet tasks k = some t0 →
    ((mapSet tasks k t1).filter (fun e => p e.2)).length + (if p t0 then 1 else 0)
      = (tasks.filter (fun e => p e.2)).length + (if p t1 then 1 else 0) := by
  intro tasks
  induction tasks with
  | nil => intro k t0 t1 _ hg; simp [mapGet] at hg
  | cons e rest ih =>
    intro k t0 t1 hnd hg
    obtain ⟨k0, v0⟩ := e
    simp only [mapKeys, List.map_cons, List.nodup_cons] at hnd
    rw [mapSet_cons]
    by_cases hk : k0 = k
    · rw [mapGet_cons, if_pos hk] at hg
      have hv : v0 = t0 := Option.some.inj hg
      have hnot : k ∉ mapKeys rest := by rw [← hk]; exact hnd.1
      rw [if_pos hk, mapSet_of_not_mem rest k t1 hnot, hv]
      simp only [List.filter_cons]
      by_cases h0 : p t0 = true <;> by_cases h1 : p t1 = true <;> simp [h0, h1]
    · rw [mapGet_cons, if_neg hk] at hg
      rw [if_neg hk]
      have := ih k t0 t1 hnd.2 hg
      simp only [List.filter_cons]
      by_cases hv : p v0 = true
      · simp only [hv, if_true, List.length_cons]
        omega
      · simp only [hv, Bool.false_eq_true, if_false]
        exact this

theorem count_mapSet_same (p : Task → Bool) (tasks : List (String × Task)) (k : String)
    (t0 t1 : Task) (hnd : (mapKeys tasks).Nodup) (hg : mapGet tasks k = some t0)
    (hp : p t1 = p t0) :
    ((mapSet tasks k t1).filter (fun e => p e.2)).length
      = (tasks.filter (fun e => p e.2)).length := by
  have := count_mapSet p tasks k t0 t1 hnd hg
  rw [hp] at this
  omega

theorem count_mapSet_gain (p : Task → Bool) (tasks : List (String × Task)) (k : String)
    (t0 t1 : Task) (hnd : (mapKeys tasks).Nodup) (hg : mapGet tasks k = some t0)
    (h0 : p t0 = false) (h1 : p t1 = true) :
    ((mapSet tasks k t1).filter (fun e => p e.2)).length
      = (tasks.filter (fun e => p e.2)).length + 1 := by
  have := count_mapSet p tasks k t0 t1 hnd hg
  rw [h0, h1] at this
  simpa using this

theorem count_map_values (p : Task → Bool) (f : Task → Task) (hp : ∀ t, p (f t) = p t)
    (tasks : List (String × Task)) :
    ((tasks.map (fun e => (e.1, f e.2))).filter (fun e => p e.2)).length
      = (tasks.filter (fun e => p e.2)).length := by
  induction tasks with
  | nil => rfl
  | cons e rest ih =>
    simp only [List.map_cons, List.filter_cons, hp]
    by_cases h : p e.2 = true
    · simp only [h, if_true, List.length_cons, ih]
    · simp only [h, Bool.false_eq_true, if_false, ih]

theorem mapKeys_map_values {V : Type} (f : V → V) (m : List (String × V)) :
    mapKeys (m.map (fun e => (e.1, f e.2))) = mapKeys m := by
  simp [mapKeys, Function.comp_def]

/-- The second loop of `startReduce` on a ledger without Reduce keys adds the
new tasks at the end. -/
theorem createReduceTasks_append (af : List (List String)) (tasks : List (String × Task))
    (hno : ∀ i : Nat, reduceKey (i : Int) ∉ mapKeys tasks) : ∀ n : Nat,
    createReduceTasks af n tasks
      = tasks ++ (List.range n).map
          (fun (i : Nat) => (reduceKey (i : Int), newReduceTask i (af.getD i []))) := by
  intro n
  induction n with
  | zero => simp [createReduceTasks]
  | succ n ih =>
    rw [createReduceTasks_succ, ih]
    have hnot : reduceKey (n : Int) ∉ mapKeys (tasks ++ (List.range n).map
        (fun (i : Nat) => (reduceKey (i : Int), newReduceTask i (af.getD i [])))) := by
      simp only [mapKeys, List.map_append, List.map_map, List.mem_append, List.mem_map,
        List.mem_range, Function.comp_apply, not_or, not_exists, not_and]
      refine ⟨?_, ?_⟩
      · intro e he hk
        exact hno n (List.mem_map.mpr ⟨e, he, hk⟩)
      · intro i hi hk
        have := reduceKey_nat_injective i n hk
        omega
    unfold mapPut
    rw [if_neg hnot, List.range_succ, List.map_append, List.append_assoc]
    rfl

theorem count_new_reduce (p : Task → Bool) (af : List (List String)) (n : Nat)
    (hp : ∀ (i : Nat) (fs : List String), p (newReduceTask i fs) = true) :
    (((List.range n).map
        (fun (i : Nat) => (reduceKey (i : Int), newReduceTask i (af.getD i [])))).filter
      (fun e => p e.2)).length = n := by
  rw [List.filter_eq_self.mpr]
  · simp
  · intro e he
    obtain ⟨i, _, rfl⟩ := List.mem_map.mp he
    exact hp i _

theorem count_new_reduce_zero (p : Task → Bool) (af : List (List String)) (n : Nat)
    (hp : ∀ (i : Nat) (fs : List String), p (newReduceTask i fs) = false) :
    (((List.range n).map
        (fun (i : Nat) => (reduceKey (i : Int), newReduceTask i (af.getD i [])))).filter
      (fun e => p e.2)).length = 0 := by
  rw [filter_eq_nil_of_none]
  · rfl
  · intro e he
    obtain ⟨i, _, rfl⟩ := List.mem_map.mp he
    exact hp i _

theorem createReduceTasks_keys_nodup (af : List (List String)) (tasks : List (String × Task))
    (hno : ∀ i : Nat, reduceKey (i : Int) ∉ mapKeys tasks) (hnd : (mapKeys tasks).Nodup)
    (n : Nat) : (mapKeys (createReduceTasks af n tasks)).Nodup := by
  rw [createReduceTasks_append af tasks hno n]
  simp only [mapKeys, List.map_append, List.map_map]
  rw [List.nodup_append]
  refine ⟨hnd, ?_, ?_⟩
  · rw [List.nodup_map_iff_inj_on (List.nodup_range n)]
    intro i _ j _ h
    exact reduceKey_nat_injective i j h
  · intro k hk1 hk2
    obtain ⟨i, _, rfl⟩ := List.mem_map.mp hk2
    exact hno i hk1

/-! ## The shape of a step -/

/-- What a step does to the ledger: nothing, one hand-out, one timeout scan,
or one successful report, the latter with or without the transition. -/
theorem step_shape (c c1 : Coordinator) (e : Event) (hs : step c e = some c1) :
    (reported c e = none ∧
      (c1.tasks = c.tasks ∨
       (∃ k t0 t1, mapGet c.tasks k = some t0 ∧ t0.state = idleTask ∧
          t1.state = runningTask ∧ t1.tType = t0.tType ∧ t1.id = t0.id ∧
          c1.tasks = mapSet c.tasks k t1) ∨
       (∃ now, c1.tasks = c.tasks.map (fun e => (e.1, timeoutTask now e.2))))) ∨
    (∃ ty id k t0, reported c e = some (ty, id) ∧
      ((ty = mapTask ∧ k = mapKey id) ∨ (ty = reduceTask ∧ k = reduceKey id)) ∧
      mapGet c.tasks k = some t0 ∧
      ((c1.tasks = mapSet c.tasks k { t0 with state := completedTask } ∧
          ¬ (ty = mapTask ∧ c.nMapDone + 1 = c.nMap)) ∨
       (ty = mapTask ∧ c.nMapDone + 1 = c.nMap ∧ 0 ≤ c.nReduce ∧
          ∃ af, c1.tasks = createReduceTasks af c.nReduce.toNat
            (mapSet c.tasks k { t0 with state := completedTask })))) := by
  cases e with
  | requestTask rangeOrder args now =>
    left
    simp only [step, Option.some.injEq] at hs
    rw [← hs]
    refine ⟨rfl, ?_⟩
    rcases RequestTask_cases rangeOrder c args now with heq | ⟨k, t0, hg0, hidle, _, heq, _, _⟩
    · left; rw [heq]
    · right; left
      rw [heq]
      exact ⟨k, t0, { t0 with state := runningTask, workerID := args.WorkerID, startTime := now },
        hg0, hidle, rfl, rfl, rfl, rfl⟩
  | timeoutScan now =>
    left
    simp only [step, Option.some.injEq] at hs
    rw [← hs]
    exact ⟨rfl, Or.inr (Or.inr ⟨now, rfl⟩)⟩
  | taskDone rangeOrder args =>
    simp only [step] at hs
    cases hr : TaskDone rangeOrder c args with
    | none => rw [hr] at hs; simp at hs
    | some r =>
      rw [hr] at hs
      simp only [Option.map_some', Option.some.injEq] at hs
      rw [← hs]
      by_cases hm : args.TaskType = mapTask
      · rw [reported_taskDone_map c rangeOrder args hm]
        cases hg0 : mapGet c.tasks (mapKey args.TaskID) with
        | none =>
          left
          rw [TaskDone_map_not_found rangeOrder c args hm hg0] at hr
          rw [← Option.some.inj hr]
          exact ⟨by simp, Or.inl rfl⟩
        | some t0 =>
          right
          rw [TaskDone_map_found rangeOrder c args t0 hm hg0] at hr
          refine ⟨mapTask, args.TaskID, mapKey args.TaskID, t0, by simp,
            Or.inl ⟨rfl, rfl⟩, hg0, ?_⟩
          by_cases hn : c.nMapDone + 1 = c.nMap
          · right
            rw [if_pos hn] at hr
            cases hsr : startReduce rangeOrder
                { c with
                  tasks := mapSet c.tasks (mapKey args.TaskID)
                    { t0 with state := completedTask },
                  nMapDone := c.nMapDone + 1,
                  intermediateFileNames :=
                    args.IntermediateFileNames.foldl setAdd c.intermediateFileNames } with
            | none => rw [hsr] at hr; simp at hr
            | some c4 =>
              rw [hsr] at hr
              simp only [Option.map_some', Option.some.injEq] at hr
              obtain ⟨hnn, af, _, hc4⟩ := startReduce_eq rangeOrder _ c4 hsr
              refine ⟨rfl, hn, hnn, af, ?_⟩
              rw [← hr, taskDoneFinish_tasks, hc4]
          · left
            rw [if_neg hn] at hr
            rw [← Option.some.inj hr, taskDoneFinish_tasks]
            exact ⟨rfl, fun h => hn h.2⟩
      · by_cases hrd : args.TaskType = reduceTask
        · rw [reported_taskDone_reduce c rangeOrder args hrd]
          cases hg0 : mapGet c.tasks (reduceKey args.TaskID) with
          | none =>
            left
            rw [TaskDone_reduce_not_found rangeOrder c args hrd hg0] at hr
            rw [← Option.some.inj hr]
            exact ⟨by simp, Or.inl rfl⟩
          | some t0 =>
            right
            rw [TaskDone_reduce_found rangeOrder c args t0 hrd hg0] at hr
            refine ⟨reduceTask, args.TaskID, reduceKey args.TaskID, t0, by simp,
              Or.inr ⟨rfl, rfl⟩, hg0, Or.inl ⟨?_, ?_⟩⟩
            · rw [← Option.some.inj hr, taskDoneFinish_tasks]
            · intro h
              exact mapTask_ne_reduceTask h.1.symm
        · left
          rw [reported_taskDone_other c rangeOrder args hm hrd]
          rw [TaskDone_other rangeOrder c args hm hrd] at hr
          rw [← Option.some.inj hr, taskDoneFinish_tasks]
          exact ⟨rfl, Or.inl rfl⟩

theorem countCompleted_le (ty : Int) (tasks : List (String × Task)) :
    countCompleted ty tasks ≤ countTasks ty tasks := by
  unfold countCompleted countTasks
  induction tasks with
  | nil => simp
  | cons e rest ih =>
    simp only [List.filter_cons]
    by_cases h1 : e.2.tType = ty
    · by_cases h2 : e.2.state = completedTask
      · simp [h1, h2]; exact ih
      · simp [h1, h2]; omega
    · simp [h1]; exact ih

theorem all_completed_of_count (ty : Int) (tasks : List (String × Task))
    (h : countCompleted ty tasks = countTasks ty tasks) :
    ∀ e ∈ tasks, e.2.tType = ty → e.2.state = completedTask := by
  induction tasks with
  | nil => intro e he; simp at he
  | cons x rest ih =>
    have hle := countCompleted_le ty rest
    unfold countCompleted countTasks at h hle ih
    simp only [List.filter_cons] at h
    intro e he hty
    by_cases h1 : x.2.tType = ty
    · by_cases h2 : x.2.state = completedTask
      · simp only [h1, h2, decide_True, Bool.and_self, if_true, List.length_cons,
          Nat.add_right_cancel_iff] at h
        rcases List.mem_cons.mp he with rfl | he
        · exact h2
        · exact ih h e he hty
      · simp [h1, h2] at h
        omega
    · simp only [h1, decide_False, Bool.false_and, Bool.false_eq_true, if_false] at h
      rcases List.mem_cons.mp he with rfl | he
      · exact absurd hty h1
      · exact ih h e he hty

theorem countCompleted_lt_of_open (ty : Int) (tasks : List (String × Task)) (k : String)
    (t0 : Task) (hg : mapGet tasks k = some t0) (hty : t0.tType = ty)
    (hst : t0.state ≠ completedTask) : countCompleted ty tasks < countTasks ty tasks := by
  have hle := countCompleted_le ty tasks
  by_contra hlt
  have heq : countCompleted ty tasks = countTasks ty tasks := by omega
  exact hst (all_completed_of_count ty tasks heq (k, t0) (mapGet_mem tasks k t0 hg) hty)

/-! ## The counters count the Completed tasks -/

theorem makeMapTasks_fresh : ∀ (files : List String) (i : Nat) (tasks : List (String × Task)),
    (∀ k ∈ mapKeys tasks, ∃ j : Nat, j < i ∧ k = mapKey (j : Int)) →
    (mapKeys tasks).Nodup →
    (∀ e ∈ tasks, e.2.tType = mapTask ∧ e.2.state = idleTask) →
    (mapKeys (makeMapTasks i files tasks)).Nodup ∧
    (∀ e ∈ makeMapTasks i files tasks, e.2.tType = mapTask ∧ e.2.state = idleTask) ∧
    (makeMapTasks i files tasks).length = tasks.length + files.length := by
  intro files
  induction files with
  | nil => intro i tasks _ h2 h3; exact ⟨h2, h3, rfl⟩
  | cons f fs ih =>
    intro i tasks h1 h2 h3
    have hfresh : mapKey (i : Int) ∉ mapKeys tasks := by
      intro hm
      obtain ⟨j, hj, he⟩ := h1 _ hm
      have := mapKey_injective _ _ he
      omega
    have hput : mapPut tasks (mapKey (i : Int)) (newMapTask i f)
        = tasks ++ [(mapKey (i : Int), newMapTask i f)] := by
      unfold mapPut
      rw [if_neg hfresh]
    simp only [makeMapTasks]
    rw [hput]
    have := ih (i + 1) (tasks ++ [(mapKey (i : Int), newMapTask i f)])
      (by
        intro k hk
        simp only [mapKeys, List.map_append, List.map_cons, List.map_nil, List.mem_append,
          List.mem_singleton] at hk
        rcases hk with hk | hk
        · obtain ⟨j, hj, he⟩ := h1 k hk
          exact ⟨j, by omega, he⟩
        · exact ⟨i, by omega, hk⟩)
      (by
        simp only [mapKeys, List.map_append, List.map_cons, List.map_nil]
        rw [List.nodup_append]
        refine ⟨h2, List.nodup_singleton _, ?_⟩
        intro a ha hb
        rw [List.mem_singleton] at hb
        subst hb
        exact hfresh ha)
      (by
        intro e he
        rcases List.mem_append.mp he with he | he
        · exact h3 e he
        · rw [List.mem_singleton] at he
          subst he
          exact ⟨rfl, rfl⟩)
    refine ⟨this.1, this.2.1, ?_⟩
    rw [this.2.2]
    simp only [List.length_append, List.length_cons, List.length_nil]
    omega

theorem CountInv_init (files : List String) (nReduce : Int) :
    CountInv (MakeCoordinator files nReduce) [] := by
  obtain ⟨hnd, hall, hlen⟩ := makeMapTasks_fresh files 0 []
    (fun k hk => by simp [mapKeys] at hk) (by simp [mapKeys]) (fun e he => by simp at he)
  have hcm : countTasks mapTask (makeMapTasks 0 files []) = files.length := by
    unfold countTasks
    rw [List.filter_eq_self.mpr]
    · simpa using hlen
    · intro e he
      simp [(hall e he).1]
  have hcc : ∀ ty, countCompleted ty (makeMapTasks 0 files []) = 0 := by
    intro ty
    unfold countCompleted
    rw [filter_eq_nil_of_none]
    · rfl
    · intro e he
      have : ¬ e.2.state = completedTask := by rw [(hall e he).2]; decide
      simp [this]
  have hcr : countTasks reduceTask (makeMapTasks 0 files []) = 0 := by
    unfold countTasks
    rw [filter_eq_nil_of_none]
    · rfl
    · intro e he
      have : ¬ e.2.tType = reduceTask := by rw [(hall e he).1]; decide
      simp [this]
  refine ⟨LedgerInv_init files nReduce, hnd, ?_, ?_, ?_, ?_, ?_, ?_, ?_⟩
  · show (0 : Int) = ((countCompleted mapTask (makeMapTasks 0 files []) : Nat) : Int)
    rw [hcc]; rfl
  · show (0 : Int) = ((countCompleted reduceTask (makeMapTasks 0 files []) : Nat) : Int)
    rw [hcc]; rfl
  · show ((files.length : Nat) : Int) = ((countTasks mapTask (makeMapTasks 0 files []) : Nat) : Int)
    rw [hcm]
  · intro _; exact hcr
  · intro hnb
    exfalso
    apply hnb
    unfold BeforeTransition
    show (0 : Int) < (files.length : Int) ∨ ((files.length : Nat) : Int) = 0
    omega
  · intro k t hg hc
    have := (hall (k, t) (mapGet_mem _ k t hg)).2
    rw [hc] at this
    exact absurd this (by decide)
  · intro hd
    exact absurd hd (by simp [MakeCoordinator])

theorem found_task_kind (tasks : List (String × Task)) (hk : KeysOk tasks) (ty id : Int)
    (k : String) (t0 : Task)
    (hkey : (ty = mapTask ∧ k = mapKey id) ∨ (ty = reduceTask ∧ k = reduceKey id))
    (hg : mapGet tasks k = some t0) : t0.tType = ty ∧ t0.id = id := by
  rcases hkey with ⟨rfl, rfl⟩ | ⟨rfl, rfl⟩
  · rcases hk _ _ hg with ⟨h1, h2⟩ | ⟨h1, _⟩
    · exact ⟨h2, (mapKey_injective _ _ h1).symm⟩
    · exact absurd h1 (mapKey_ne_reduceKey _ _)
  · rcases hk _ _ hg with ⟨h1, _⟩ | ⟨h1, h2⟩
    · exact absurd h1.symm (mapKey_ne_reduceKey _ _)
    · exact ⟨h2, (reduceKey_injective _ _ h1).symm⟩

theorem no_reduce_key_of_allMap (tasks : List (String × Task)) (hk : KeysOk tasks)
    (ha : AllMap tasks) (i : Int) : reduceKey i ∉ mapKeys tasks := by
  intro hm
  cases hg : mapGet tasks (reduceKey i) with
  | none => exact (mapGet_eq_none_iff tasks _).mp hg hm
  | some t =>
    rcases hk _ _ hg with ⟨h1, _⟩ | ⟨_, h2⟩
    · exact mapKey_ne_reduceKey _ _ h1.symm
    · rw [ha _ _ hg] at h2
      exact mapTask_ne_reduceTask h2

theorem countTasks_mapSet (ty : Int) (tasks : List (String × Task)) (k : String)
    (t0 t1 : Task) (hnd : (mapKeys tasks).Nodup) (hg : mapGet tasks k = some t0)
    (hty : t1.tType = t0.tType) :
    countTasks ty (mapSet tasks k t1) = countTasks ty tasks := by
  unfold countTasks
  exact count_mapSet_same (fun t => decide (t.tType = ty)) tasks k t0 t1 hnd hg (by simp [hty])

theorem countCompleted_mapSet_same (ty : Int) (tasks : List (String × Task)) (k : String)
    (t0 t1 : Task) (hnd : (mapKeys tasks).Nodup) (hg : mapGet tasks k = some t0)
    (h : (decide (t1.tType = ty) && decide (t1.state = completedTask))
      = (decide (t0.tType = ty) && decide (t0.state = completedTask))) :
    countCompleted ty (mapSet tasks k t1) = countCompleted ty tasks := by
  unfold countCompleted
  exact count_mapSet_same (fun t => decide (t.tType = ty) && decide (t.state = completedTask))
    tasks k t0 t1 hnd hg h

theorem countCompleted_mapSet_gain (ty : Int) (tasks : List (String × Task)) (k : String)
    (t0 : Task) (hnd : (mapKeys tasks).Nodup) (hg : mapGet tasks k = some t0)
    (hty : t0.tType = ty) (hst : t0.state ≠ completedTask) :
    countCompleted ty (mapSet tasks k { t0 with state := completedTask })
      = countCompleted ty tasks + 1 := by
  unfold countCompleted
  exact count_mapSet_gain (fun t => decide (t.tType = ty) && decide (t.state = completedTask))
    tasks k t0 _ hnd hg (by simp [hst]) (by simp [hty])

theorem countCompleted_mapSet_other (ty : Int) (tasks : List (String × Task)) (k : String)
    (t0 : Task) (hnd : (mapKeys tasks).Nodup) (hg : mapGet tasks k = some t0)
    (hty : t0.tType ≠ ty) :
    countCompleted ty (mapSet tasks k { t0 with state := completedTask })
      = countCompleted ty tasks := by
  apply countCompleted_mapSet_same ty tasks k t0 _ hnd hg
  simp [hty]

theorem countTasks_append (ty : Int) (a b : List (String × Task)) :
    countTasks ty (a ++ b) = countTasks ty a + countTasks ty b := by
  simp [countTasks]

theorem countCompleted_append (ty : Int) (a b : List (String × Task)) :
    countCompleted ty (a ++ b) = countCompleted ty a + countCompleted ty b := by
  simp [countCompleted]

theorem countTasks_pos_of_mem (ty : Int) (tasks : List (String × Task)) (k : String)
    (t0 : Task) (hg : mapGet tasks k = some t0) (hty : t0.tType = ty) :
    0 < countTasks ty tasks := by
  unfold countTasks
  exact List.length_pos_of_mem
    (List.mem_filter.mpr ⟨mapGet_mem tasks k t0 hg, by simp [hty]⟩)

/-- A step that reports nothing keeps the counting invariant. -/
theorem CountInv_step_quiet (c c1 : Coordinator) (e : Event) (log : List (Int × Int))
    (hinv : CountInv c log) (hs : step c e = some c1) (hrep : reported c e = none) :
    CountInv c1 log := by
  obtain ⟨hL, hnd, h1, h2, h3, h4, h5, h6, h7⟩ := hinv
  obtain ⟨e1, e2, e3, e4, e5⟩ := step_counters c c1 e hs
  have hL1 := LedgerInv_step c c1 e hL hs
  rw [hrep] at e3 e4
  have e3 : c1.nMapDone = c.nMapDone := by simpa using e3
  have e4 : c1.nReduceDone = c.nReduceDone := by simpa using e4
  have hB : BeforeTransition c1 ↔ BeforeTransition c := by
    unfold BeforeTransition; rw [e1, e3]
  have hd7 : c1.done = true → c1.nMapDone = c1.nMap ∧ c1.nReduceDone = c1.nReduce := by
    intro hd
    rcases e5 hd with hc | hc
    · rw [e1, e2, e3, e4]; exact h7 hc
    · exact hc
  have key : countCompleted mapTask c1.tasks = countCompleted mapTask c.tasks ∧
      countCompleted reduceTask c1.tasks = countCompleted reduceTask c.tasks ∧
      countTasks mapTask c1.tasks = countTasks mapTask c.tasks ∧
      countTasks reduceTask c1.tasks = countTasks reduceTask c.tasks ∧
      (mapKeys c1.tasks).Nodup ∧
      (∀ k t, mapGet c1.tasks k = some t → t.state = completedTask →
        (t.tType, t.id) ∈ log) := by
    rcases step_shape c c1 e hs with ⟨_, hcase⟩ | ⟨ty, id, k, t0, hrep1, _⟩
    · rcases hcase with ht | ⟨k, t0, t1, hg0, hidle, hrun, hty, hid, ht⟩ | ⟨now, ht⟩
      · rw [ht]; exact ⟨rfl, rfl, rfl, rfl, hnd, h6⟩
      · rw [ht]
        have hp : ∀ ty, (decide (t1.tType = ty) && decide (t1.state = completedTask))
            = (decide (t0.tType = ty) && decide (t0.state = completedTask)) := by
          intro ty
          have a1 : ¬ t1.state = completedTask := by rw [hrun]; decide
          have a0 : ¬ t0.state = completedTask := by rw [hidle]; decide
          simp [a1, a0]
        refine ⟨countCompleted_mapSet_same _ _ k t0 t1 hnd hg0 (hp _),
          countCompleted_mapSet_same _ _ k t0 t1 hnd hg0 (hp _),
          countTasks_mapSet _ _ k t0 t1 hnd hg0 hty,
          countTasks_mapSet _ _ k t0 t1 hnd hg0 hty, ?_, ?_⟩
        · rw [mapKeys_mapSet]; exact hnd
        · intro k1 t hg hc
          rw [mapGet_mapSet] at hg
          by_cases hk : k1 = k
          · rw [if_pos hk, hg0] at hg
            have : t = t1 := (Option.some.inj hg).symm
            rw [this, hrun] at hc
            exact absurd hc (by decide)
          · rw [if_neg hk] at hg
            exact h6 k1 t hg hc
      · rw [ht]
        have hst : ∀ t : Task, ((timeoutTask now t).state = completedTask)
            = (t.state = completedTask) := by
          intro t
          unfold timeoutTask
          by_cases hr : t.state = runningTask
          · by_cases hn : now - t.startTime > taskTimeout
            · have a0 : ¬ t.state = completedTask := by rw [hr]; decide
              have a1 : ¬ idleTask = completedTask := by decide
              simp [hr, hn, a1]
              decide
            · simp [hr, hn]
          · simp [hr]
        refine ⟨?_, ?_, ?_, ?_, ?_, ?_⟩
        · unfold countCompleted
          exact count_map_values
            (fun t => decide (t.tType = mapTask) && decide (t.state = completedTask))
            (timeoutTask now) (fun t => by simp only [(timeoutTask_id now t).2.1, hst]) c.tasks
        · unfold countCompleted
          exact count_map_values
            (fun t => decide (t.tType = reduceTask) && decide (t.state = completedTask))
            (timeoutTask now) (fun t => by simp only [(timeoutTask_id now t).2.1, hst]) c.tasks
        · unfold countTasks
          exact count_map_values (fun t => decide (t.tType = mapTask))
            (timeoutTask now) (fun t => by simp only [(timeoutTask_id now t).2.1]) c.tasks
        · unfold countTasks
          exact count_map_values (fun t => decide (t.tType = reduceTask))
            (timeoutTask now) (fun t => by simp only [(timeoutTask_id now t).2.1]) c.tasks
        · rw [mapKeys_map_values]; exact hnd
        · intro k1 t hg hc
          rw [mapGet_map_values] at hg
          cases hg1 : mapGet c.tasks k1 with
          | none => rw [hg1] at hg; simp at hg
          | some t2 =>
            rw [hg1] at hg
            simp only [Option.map_some', Option.some.injEq] at hg
            have hc2 : t2.state = completedTask := by
              rw [← hst t2, hg]; exact hc
            rw [timeoutTask_completed now t2 hc2] at hg
            rw [← hg]
            exact h6 k1 t2 hg1 hc2
    · rw [hrep] at hrep1; simp at hrep1
  obtain ⟨k1, k2, k3, k4, k5, k6⟩ := key
  refine ⟨hL1, k5, ?_, ?_, ?_, ?_, ?_, k6, hd7⟩
  · rw [e3, k1]; exact h1
  · rw [e4, k2]; exact h2
  · rw [e1, k3]; exact h3
  · intro hb; rw [k4]; exact h4 (hB.mp hb)
  · intro hb; rw [k4, e2]; exact h5 (fun h => hb (hB.mpr h))

/-- A step that reports a task not reported before keeps the counting
invariant, the report joining the log. -/
theorem CountInv_step_report (c c1 : Coordinator) (e : Event) (log : List (Int × Int))
    (ty id : Int) (hinv : CountInv c log) (hs : step c e = some c1)
    (hrep : reported c e = some (ty, id)) (hnew : (ty, id) ∉ log) :
    CountInv c1 (log ++ [(ty, id)]) := by
  obtain ⟨hL, hnd, h1, h2, h3, h4, h5, h6, h7⟩ := hinv
  obtain ⟨e1, e2, e3, e4, e5⟩ := step_counters c c1 e hs
  have hL1 := LedgerInv_step c c1 e hL hs
  rcases step_shape c c1 e hs with ⟨hrep0, _⟩ | ⟨ty1, id1, k, t0, hrep1, hkey, hg0, hcase⟩
  · rw [hrep] at hrep0; simp at hrep0
  rw [hrep] at hrep1
  simp only [Option.some.injEq, Prod.mk.injEq] at hrep1
  obtain ⟨rfl, rfl⟩ := hrep1
  rw [hrep] at e3 e4
  simp only [Option.map_some'] at e3 e4
  obtain ⟨hty0, hid0⟩ := found_task_kind c.tasks hL.1 ty id k t0 hkey hg0
  have hst0 : t0.state ≠ completedTask := by
    intro hc
    apply hnew
    have := h6 k t0 hg0 hc
    rw [hty0, hid0] at this
    exact this
  have htyc : ty = mapTask ∨ ty = reduceTask := by
    rcases hkey with ⟨h, _⟩ | ⟨h, _⟩
    · exact Or.inl h
    · exact Or.inr h
  have hlt := countCompleted_lt_of_open ty c.tasks k t0 hg0 hty0 hst0
  have hpos := countTasks_pos_of_mem ty c.tasks k t0 hg0 hty0
  -- the flag was not set before the step
  have hnd0 : ¬ c.done = true := by
    intro hd
    obtain ⟨d1, d2⟩ := h7 hd
    rcases htyc with rfl | rfl
    · rw [h1, h3] at d1
      omega
    · by_cases hb : BeforeTransition c
      · have := h4 hb; omega
      · have := h5 hb
        rw [h2, ← this] at d2
        omega
  have hd7 : c1.done = true → c1.nMapDone = c1.nMap ∧ c1.nReduceDone = c1.nReduce := by
    intro hd
    rcases e5 hd with hc | hc
    · exact absurd hc hnd0
    · exact hc
  -- the ledger after the write of the Completed state
  have hndS : (mapKeys (mapSet c.tasks k { t0 with state := completedTask })).Nodup := by
    rw [mapKeys_mapSet]; exact hnd
  have hcS : ∀ ty1, countCompleted ty1 (mapSet c.tasks k { t0 with state := completedTask })
      = countCompleted ty1 c.tasks + (if ty1 = ty then 1 else 0) := by
    intro ty1
    by_cases h : ty1 = ty
    · rw [if_pos h, h]
      exact countCompleted_mapSet_gain ty c.tasks k t0 hnd hg0 hty0 hst0
    · rw [if_neg h, add_zero]
      exact countCompleted_mapSet_other ty1 c.tasks k t0 hnd hg0
        (fun x => h (x.symm.trans hty0))
  have htS : ∀ ty1, countTasks ty1 (mapSet c.tasks k { t0 with state := completedTask })
      = countTasks ty1 c.tasks :=
    fun ty1 => countTasks_mapSet ty1 c.tasks k t0 _ hnd hg0 rfl
  have h6S : ∀ k1 t, mapGet (mapSet c.tasks k { t0 with state := completedTask }) k1 = some t →
      t.state = completedTask → (t.tType, t.id) ∈ log ++ [(ty, id)] := by
    intro k1 t hg hc
    rw [mapGet_mapSet] at hg
    by_cases hk : k1 = k
    · rw [if_pos hk, hg0] at hg
      have : t = { t0 with state := completedTask } := (Option.some.inj hg).symm
      rw [this]
      show (t0.tType, t0.id) ∈ log ++ [(ty, id)]
      rw [hty0, hid0]
      simp
    · rw [if_neg hk] at hg
      exact List.mem_append_left _ (h6 k1 t hg hc)
  have hm1 : c1.nMapDone = (countCompleted mapTask c.tasks : Int)
      + (if mapTask = ty then 1 else 0) := by
    rw [e3, h1]
    by_cases h : ty = mapTask
    · simp [h]
    · have h' : ¬ mapTask = ty := fun x => h x.symm
      simp [h, h']
  have hr1 : c1.nReduceDone = (countCompleted reduceTask c.tasks : Int)
      + (if reduceTask = ty then 1 else 0) := by
    rw [e4, h2]
    by_cases h : ty = reduceTask
    · simp [h]
    · have h' : ¬ reduceTask = ty := fun x => h x.symm
      simp [h, h']
  have hcM := hcS mapTask
  have hcR := hcS reduceTask
  rcases hcase with ⟨ht, hno⟩ | ⟨rfl, hlast, hnn, af, ht⟩
  · -- no transition at this step
    have hB : BeforeTransition c1 ↔ BeforeTransition c := by
      unfold BeforeTransition
      rw [e1, e3]
      by_cases h : ty = mapTask
      · have hne : ¬ c.nMapDone + 1 = c.nMap := fun x => hno ⟨h, x⟩
        have hle : (countCompleted mapTask c.tasks : Int) < countTasks mapTask c.tasks := by
          rw [h] at hlt; exact_mod_cast hlt
        simp only [h, if_true]
        constructor
        · intro _; left; omega
        · intro _; left; omega
      · simp [h]
    refine ⟨hL1, by rw [ht]; exact hndS, ?_, ?_, ?_, ?_, ?_, by rw [ht]; exact h6S, hd7⟩
    · rw [hm1, ht, hcM]; push_cast; split_ifs <;> rfl
    · rw [hr1, ht, hcR]; push_cast; split_ifs <;> rfl
    · rw [e1, ht, htS]; exact h3
    · intro hb; rw [ht, htS]; exact h4 (hB.mp hb)
    · intro hb; rw [ht, htS, e2]; exact h5 (fun h => hb (hB.mpr h))
  · -- the transition
    have hb0 : BeforeTransition c := Or.inl (by omega)
    have hall : AllMap c.tasks := hL.2.2 hb0
    have hnokey : ∀ i : Nat, reduceKey (i : Int)
        ∉ mapKeys (mapSet c.tasks k { t0 with state := completedTask }) := by
      intro i
      rw [mapKeys_mapSet]
      exact no_reduce_key_of_allMap c.tasks hL.1 hall i
    have happ := createReduceTasks_append af _ hnokey c.nReduce.toNat
    rw [happ] at ht
    have hnb1 : ¬ BeforeTransition c1 := by
      unfold BeforeTransition
      rw [e1, e3]
      simp only [if_true]
      have := hL.2.1
      omega
    refine ⟨hL1, ?_, ?_, ?_, ?_, ?_, ?_, ?_, hd7⟩
    · rw [ht, ← happ]
      exact createReduceTasks_keys_nodup af _ hnokey hndS _
    · rw [hm1, ht, countCompleted_append, hcM]
      unfold countCompleted
      rw [count_new_reduce_zero
        (fun t => decide (t.tType = mapTask) && decide (t.state = completedTask)) af _
        (fun i fs => by simp [newReduceTask]; intro h; exact absurd h (by decide))]
      push_cast
      simp
    · rw [hr1, ht, countCompleted_append, hcR]
      unfold countCompleted
      rw [count_new_reduce_zero
        (fun t => decide (t.tType = reduceTask) && decide (t.state = completedTask)) af _
        (fun i fs => by simp [newReduceTask]; decide)]
      push_cast
      simp
    · rw [e1, ht, countTasks_append, htS]
      unfold countTasks
      rw [count_new_reduce_zero (fun t => decide (t.tType = mapTask)) af _
        (fun i fs => by simp [newReduceTask]; decide)]
      simpa [countTasks] using h3
    · intro hb; exact absurd hb hnb1
    · intro _
      rw [ht, countTasks_append, htS, h4 hb0, e2]
      unfold countTasks
      rw [count_new_reduce (fun t => decide (t.tType = reduceTask)) af _
        (fun i fs => by simp [newReduceTask])]
      simp only [Nat.zero_add]
      exact Int.toNat_of_nonneg hnn
    · intro k1 t hg hc
      rw [ht, ← happ] at hg
      rcases mapGet_createReduceTasks_cases af _ _ k1 t hg with ⟨i, _, _, hnewt⟩ | ⟨_, hold⟩
      · rw [hnewt] at hc
        exact absurd hc (by simp [newReduceTask]; decide)
      · exact h6S k1 t hold hc

theorem CountInv_run (es : List Event) : ∀ (c c1 : Coordinator) (past : List (Int × Int)),
    CountInv c past → (past ++ reportLog c es).Nodup → run c es = some c1 →
    CountInv c1 (past ++ reportLog c es) := by
  induction es with
  | nil =>
    intro c c1 past hinv _ hr
    simp only [run, Option.some.injEq] at hr
    rw [← hr]
    simpa [reportLog] using hinv
  | cons e es ih =>
    intro c c1 past hinv hnd hr
    simp only [run] at hr
    cases hs : step c e with
    | none => rw [hs] at hr; simp at hr
    | some c2 =>
      rw [hs] at hr
      simp only [Option.some_bind] at hr
      cases hrep : reported c e with
      | none =>
        simp only [reportLog, hs, hrep] at hnd ⊢
        simp only [Option.toList, List.nil_append] at hnd ⊢
        exact ih c2 c1 past (CountInv_step_quiet c c2 e past hinv hs hrep) hnd hr
      | some p =>
        obtain ⟨ty, id⟩ := p
        simp only [reportLog, hs, hrep] at hnd ⊢
        simp only [Option.toList, List.singleton_append] at hnd ⊢
        have happ : past ++ (ty, id) :: reportLog c2 es
            = (past ++ [(ty, id)]) ++ reportLog c2 es := by simp
        rw [happ] at hnd ⊢
        have hnew : (ty, id) ∉ past := by
          intro hm
          have h1 := (List.nodup_append.mp hnd).1
          have h2 := List.nodup_append.mp h1
          exact h2.2.2 hm (List.mem_singleton.mpr rfl)
        exact ih c2 c1 _ (CountInv_step_report c c2 e past ty id hinv hs hrep hnew) hnd hr

theorem run_totals (es : List Event) : ∀ (c c1 : Coordinator), run c es = some c1 →
    c1.nMap = c.nMap ∧ c1.nReduce = c.nReduce := by
  induction es with
  | nil =>
    intro c c1 hr
    simp only [run, Option.some.injEq] at hr
    rw [← hr]; exact ⟨rfl, rfl⟩
  | cons e es ih =>
    intro c c1 hr
    simp only [run] at hr
    cases hs : step c e with
    | none => rw [hs] at hr; simp at hr
    | some c2 =>
      rw [hs] at hr
      simp only [Option.some_bind] at hr
      obtain ⟨a1, a2, _⟩ := step_counters c c2 e hs
      obtain ⟨b1, b2⟩ := ih c2 c1 hr
      exact ⟨b1.trans a1, b2.trans a2⟩

/-- C19: along every sequence of `RequestTask`, `TaskDone` and timeout-scan
steps from `MakeCoordinator(files, nReduce)`, `nReduce` not negative, in which
no task (kind, id) is reported with success more than once, the state reached
has `nMapDone` equal to the number of Completed Map tasks and `nReduceDone`
equal to the number of Completed Reduce tasks, the ledger holding `nMap` Map
tasks; `nMapDone ≤ nMap` and `nReduceDone ≤ nReduce`; a Reduce task is in the
ledger only when every Map task is Completed, and `done` holds only when every
task of the ledger is Completed. -/
theorem C19_counters_count_completed (files : List String) (nReduce : Int)
    (es : List Event) (c : Coordinator) (hn : 0 ≤ nReduce)
    (hrun : run (MakeCoordinator files nReduce) es = some c)
    (honce : (reportLog (MakeCoordinator files nReduce) es).Nodup) :
    c.nMapDone = (countCompleted mapTask c.tasks : Int) ∧
    c.nReduceDone = (countCompleted reduceTask c.tasks : Int) ∧
    (countTasks mapTask c.tasks : Int) = c.nMap ∧
    c.nMapDone ≤ c.nMap ∧ c.nReduceDone ≤ c.nReduce ∧
    ((∃ k t, mapGet c.tasks k = some t ∧ t.tType = reduceTask) →
      ∀ k t, mapGet c.tasks k = some t → t.tType = mapTask → t.state = completedTask) ∧
    (Done c = true → ∀ k t, mapGet c.tasks k = some t → t.state = completedTask) := by
  have hinv := CountInv_run es (MakeCoordinator files nReduce) c []
    (CountInv_init files nReduce) (by simpa using honce) hrun
  obtain ⟨hL, hnd, h1, h2, h3, h4, h5, h6, h7⟩ := hinv
  have hnr : c.nReduce = nReduce := (run_totals es _ c hrun).2
  have hleM := countCompleted_le mapTask c.tasks
  have hleR := countCompleted_le reduceTask c.tasks
  have hmapdone : ¬ BeforeTransition c →
      ∀ k t, mapGet c.tasks k = some t → t.tType = mapTask → t.state = completedTask := by
    intro hb k t hg hty
    have hge : c.nMap ≤ c.nMapDone := by
      unfold BeforeTransition at hb
      omega
    have heq : countCompleted mapTask c.tasks = countTasks mapTask c.tasks := by
      rw [h1, h3] at hge
      omega
    exact all_completed_of_count mapTask c.tasks heq (k, t) (mapGet_mem _ k t hg) hty
  refine ⟨h1, h2, h3.symm, ?_, ?_, ?_, ?_⟩
  · rw [h1, h3]; exact_mod_cast hleM
  · by_cases hb : BeforeTransition c
    · have := h4 hb
      rw [h2, hnr]
      omega
    · rw [h2, ← h5 hb]; exact_mod_cast hleR
  · rintro ⟨k0, t0, hg0, hty0⟩
    apply hmapdone
    intro hb
    have := countTasks_pos_of_mem reduceTask c.tasks k0 t0 hg0 hty0
    have := h4 hb
    omega
  · intro hd k t hg
    obtain ⟨d1, d2⟩ := h7 hd
    rcases hL.1 k t hg with ⟨_, hty⟩ | ⟨_, hty⟩
    · have heq : countCompleted mapTask c.tasks = countTasks mapTask c.tasks := by
        rw [h1, h3] at d1
        exact_mod_cast d1
      exact all_completed_of_count mapTask c.tasks heq (k, t) (mapGet_mem _ k t hg) hty
    · have hpos := countTasks_pos_of_mem reduceTask c.tasks k t hg hty
      have hb : ¬ BeforeTransition c := by
        intro hb
        have := h4 hb
        omega
      have heq : countCompleted reduceTask c.tasks = countTasks reduceTask c.tasks := by
        have := h5 hb
        rw [h2, ← this] at d2
        exact_mod_cast d2
      exact all_completed_of_count reduceTask c.tasks heq (k, t) (mapGet_mem _ k t hg) hty

theorem C19_counters_count_completed_witness :
    (reportLog (MakeCoordinator ["a"] 1)
      [Event.taskDone id
        { WorkerID := 1, TaskID := 0, TaskType := mapTask,
          IntermediateFileNames := ["mr-0-0"] },
       Event.taskDone id
        { WorkerID := 1, TaskID := 0, TaskType := reduceTask,
          IntermediateFileNames := [] }]).Nodup ∧
    (∃ c, run (MakeCoordinator ["a"] 1)
      [Event.taskDone id
        { WorkerID := 1, TaskID := 0, TaskType := mapTask,
          IntermediateFileNames := ["mr-0-0"] },
       Event.taskDone id
        { WorkerID := 1, TaskID := 0, TaskType := reduceTask,
          IntermediateFileNames := [] }] = some c ∧
      Done c = true ∧
      c.nMapDone = (countCompleted mapTask c.tasks : Int) ∧
      c.nReduceDone = (countCompleted reduceTask c.tasks : Int) ∧
      (countTasks mapTask c.tasks : Int) = c.nMap ∧
      c.nMapDone ≤ c.nMap ∧ c.nReduceDone ≤ c.nReduce ∧
      ((∃ k t, mapGet c.tasks k = some t ∧ t.tType = reduceTask) →
        ∀ k t, mapGet c.tasks k = some t → t.tType = mapTask → t.state = completedTask) ∧
      (Done c = true → ∀ k t, mapGet c.tasks k = some t → t.state = completedTask)) := by
  refine ⟨by decide,
    { done := true, nMap := 1, nReduce := 1, nMapDone := 1, nReduceDone := 1,
      intermediateFileNames := ["mr-0-0"],
      tasks := [("map-0", { newMapTask 0 "a" with state := completedTask }),
                ("reduce-0", { newReduceTask 0 ["mr-0-0"] with state := completedTask })] },
    by decide, rfl, ?_⟩
  exact C19_counters_count_completed ["a"] 1
    [Event.taskDone id
      { WorkerID := 1, TaskID := 0, TaskType := mapTask,
        IntermediateFileNames := ["mr-0-0"] },
     Event.taskDone id
      { WorkerID := 1, TaskID := 0, TaskType := reduceTask,
        IntermediateFileNames := [] }] _ (by decide) (by decide) (by decide)

/-! ## The round trip of the file names -/

theorem foldl_setAdd (l : List String) : ∀ s : List String, s.Nodup →
    (l.foldl setAdd s).Nodup ∧ ∀ f, f ∈ l.foldl setAdd s ↔ f ∈ s ∨ f ∈ l := by
  induction l with
  | nil => intro s hs; exact ⟨hs, fun f => by simp⟩
  | cons a rest ih =>
    intro s hs
    simp only [List.foldl_cons]
    have hnd : (setAdd s a).Nodup := by
      unfold setAdd
      by_cases h : a ∈ s
      · rw [if_pos h]; exact hs
      · rw [if_neg h]
        rw [List.nodup_append]
        refine ⟨hs, List.nodup_singleton _, ?_⟩
        intro x hx hy
        rw [List.mem_singleton] at hy
        subst hy
        exact h hx
    have hmem : ∀ f, f ∈ setAdd s a ↔ f ∈ s ∨ f = a := by
      intro f
      unfold setAdd
      by_cases h : a ∈ s
      · rw [if_pos h]
        constructor
        · exact Or.inl
        · rintro (h1 | h1)
          · exact h1
          · rw [h1]; exact h
      · rw [if_neg h]
        simp
    obtain ⟨h1, h2⟩ := ih (setAdd s a) hnd
    refine ⟨h1, fun f => ?_⟩
    rw [h2, hmem, List.mem_cons]
    tauto

/-- Whenever `executeMap` returns, it returns the names `mr-<task>-<i>`,
`i = 0, …, NReduce - 1`, in that order. -/
theorem executeMap_names (mapf : String → String → List KeyValue) (taskReply : TaskReply)
    (fs : FileSystem) (r : FileSystem × List String)
    (h : executeMap mapf taskReply fs = some r) :
    r.2 = (List.range taskReply.NReduce.toNat).map
      (fun (i : Nat) => intermediateName taskReply.TaskID i) := by
  unfold executeMap at h
  cases hin : mapGet fs taskReply.MapFileName with
  | none => rw [hin] at h; simp at h
  | some d =>
    rw [hin] at h
    cases d with
    | records kvs => simp at h
    | text content =>
      simp only at h
      by_cases hn : taskReply.NReduce < 0
      · rw [if_pos hn] at h; simp at h
      · rw [if_neg hn] at h
        cases hp : partitionLoop taskReply.NReduce
            (List.replicate taskReply.NReduce.toNat [])
            (mapf taskReply.MapFileName content) with
        | none => rw [hp] at h; simp at h
        | some b =>
          rw [hp] at h
          simp only [Option.some.injEq] at h
          rw [← h]
          exact writeBuckets_names _ _ _ _

/-- A Map report that finds its task: the set of names after the step, and the
lists `startReduce` builds when the step is the transition. -/
theorem step_map_found (c c1 : Coordinator) (rangeOrder : List String → List String)
    (args : DoneArgs) (t0 : Task) (hty : args.TaskType = mapTask)
    (hg0 : mapGet c.tasks (mapKey args.TaskID) = some t0)
    (hs : step c (Event.taskDone rangeOrder args) = some c1) :
    c1.intermediateFileNames
      = args.IntermediateFileNames.foldl setAdd c.intermediateFileNames ∧
    (c.nMapDone + 1 = c.nMap →
      ∃ af, startReduceLoop (List.replicate c.nReduce.toNat [])
          (rangeOrder (args.IntermediateFileNames.foldl setAdd c.intermediateFileNames))
            = some af ∧
        c1.tasks = createReduceTasks af c.nReduce.toNat
          (mapSet c.tasks (mapKey args.TaskID) { t0 with state := completedTask })) := by
  simp only [step] at hs
  cases hr : TaskDone rangeOrder c args with
  | none => rw [hr] at hs; simp at hs
  | some r =>
    rw [hr] at hs
    simp only [Option.map_some', Option.some.injEq] at hs
    rw [← hs]
    rw [TaskDone_map_found rangeOrder c args t0 hty hg0] at hr
    by_cases hn : c.nMapDone + 1 = c.nMap
    · rw [if_pos hn] at hr
      cases hsr : startReduce rangeOrder
          { c with
            tasks := mapSet c.tasks (mapKey args.TaskID) { t0 with state := completedTask },
            nMapDone := c.nMapDone + 1,
            intermediateFileNames :=
              args.IntermediateFileNames.foldl setAdd c.intermediateFileNames } with
      | none => rw [hsr] at hr; simp at hr
      | some c4 =>
        rw [hsr] at hr
        simp only [Option.map_some', Option.some.injEq] at hr
        obtain ⟨_, af, haf, hc4⟩ := startReduce_eq rangeOrder _ c4 hsr
        rw [← hr, (taskDoneFinish_counters c4).2.2.2.2, taskDoneFinish_tasks, hc4]
        exact ⟨rfl, fun _ => ⟨af, haf, rfl⟩⟩
    · rw [if_neg hn] at hr
      rw [← Option.some.inj hr, (taskDoneFinish_counters _).2.2.2.2]
      exact ⟨rfl, fun h => absurd h hn⟩

/-- A Map report that finds its task returns when `startReduce`, if called,
can place every name. -/
theorem step_map_found_returns (c : Coordinator) (rangeOrder : List String → List String)
    (args : DoneArgs) (t0 : Task) (hty : args.TaskType = mapTask)
    (hg0 : mapGet c.tasks (mapKey args.TaskID) = some t0)
    (h : c.nMapDone + 1 = c.nMap → 0 ≤ c.nReduce ∧
      ∃ af, startReduceLoop (List.replicate c.nReduce.toNat [])
        (rangeOrder (args.IntermediateFileNames.foldl setAdd c.intermediateFileNames))
          = some af) :
    ∃ c1, step c (Event.taskDone rangeOrder args) = some c1 := by
  simp only [step]
  rw [TaskDone_map_found rangeOrder c args t0 hty hg0]
  by_cases hn : c.nMapDone + 1 = c.nMap
  · rw [if_pos hn]
    obtain ⟨hnn, af, haf⟩ := h hn
    have hneg : ¬ c.nReduce < 0 := by omega
    simp only [startReduce, hneg, if_false, haf]
    exact ⟨_, rfl⟩
  · rw [if_neg hn]
    exact ⟨_, rfl⟩

/-- Every step other than a Map report that finds its task returns and leaves
the set of names as it is. -/
theorem step_other_returns (c : Coordinator) (e : Event)
    (h : (reported c e).map Prod.fst ≠ some mapTask) :
    ∃ c1, step c e = some c1 ∧ c1.intermediateFileNames = c.intermediateFileNames := by
  cases e with
  | requestTask rangeOrder args now =>
    refine ⟨_, rfl, ?_⟩
    rcases RequestTask_cases rangeOrder c args now with heq | ⟨k, t, _, _, _, heq, _, _⟩
    · rw [heq]
    · rw [heq]
  | timeoutScan now => exact ⟨_, rfl, rfl⟩
  | taskDone rangeOrder args =>
    simp only [step]
    by_cases hm : args.TaskType = mapTask
    · cases hg0 : mapGet c.tasks (mapKey args.TaskID) with
      | none =>
        rw [TaskDone_map_not_found rangeOrder c args hm hg0]
        exact ⟨_, rfl, rfl⟩
      | some t0 =>
        exfalso
        apply h
        rw [reported_taskDone_map c rangeOrder args hm, hg0]
        rfl
    · by_cases hrd : args.TaskType = reduceTask
      · cases hg0 : mapGet c.tasks (reduceKey args.TaskID) with
        | none =>
          rw [TaskDone_reduce_not_found rangeOrder c args hrd hg0]
          exact ⟨_, rfl, rfl⟩
        | some t0 =>
          rw [TaskDone_reduce_found rangeOrder c args t0 hrd hg0]
          exact ⟨_, rfl, (taskDoneFinish_counters _).2.2.2.2⟩
      · rw [TaskDone_other rangeOrder c args hm hrd]
        exact ⟨_, rfl, (taskDoneFinish_counters _).2.2.2.2⟩

/-- A step keeps the Map keys of the ledger. -/
theorem step_map_key_kept (c c1 : Coordinator) (e : Event) (hs : step c e = some c1)
    (t : Int) (h : ∃ task, mapGet c.tasks (mapKey t) = some task) :
    ∃ task, mapGet c1.tasks (mapKey t) = some task := by
  obtain ⟨task, hg⟩ := h
  rcases step_entry c c1 e hs (mapKey t) task hg with hcall | ⟨t1, hg1, _⟩
  · rcases step_shape c c1 e hs with ⟨hrep, _⟩ | ⟨ty, id, k, t0, hrep, _, hg0, hcase⟩
    · simp [callsStartReduce, hrep] at hcall
    · rcases hcase with ⟨ht, _⟩ | ⟨_, _, _, af, ht⟩
      · rw [ht, mapGet_mapSet]
        by_cases hk : mapKey t = k
        · rw [if_pos hk, hg0]; exact ⟨_, rfl⟩
        · rw [if_neg hk, hg]; exact ⟨_, rfl⟩
      · rw [ht, mapGet_createReduceTasks_other af _ _ _
          (fun i _ => mapKey_ne_reduceKey t i), mapGet_mapSet]
        by_cases hk : mapKey t = k
        · rw [if_pos hk, hg0]; exact ⟨_, rfl⟩
        · rw [if_neg hk, hg]; exact ⟨_, rfl⟩
  · exact ⟨t1, hg1⟩

/-- A Map task of the ledger after a step was there before it, with the same
id. -/
theorem step_map_entry_back (c c1 : Coordinator) (e : Event) (hs : step c e = some c1)
    (k : String) (t1 : Task) (hg1 : mapGet c1.tasks k = some t1) (hty : t1.tType = mapTask) :
    ∃ t, mapGet c.tasks k = some t ∧ t.tType = mapTask ∧ t.id = t1.id := by
  have hset : ∀ (k0 : String) (t0 tn : Task), mapGet c.tasks k0 = some t0 →
      tn.tType = t0.tType → tn.id = t0.id → mapGet (mapSet c.tasks k0 tn) k = some t1 →
      ∃ t, mapGet c.tasks k = some t ∧ t.tType = mapTask ∧ t.id = t1.id := by
    intro k0 t0 tn hg0 h1 h2 hg
    rw [mapGet_mapSet] at hg
    by_cases hk : k = k0
    · rw [if_pos hk, hg0] at hg
      have : tn = t1 := Option.some.inj hg
      rw [hk]
      exact ⟨t0, hg0, by rw [← h1, this]; exact hty, by rw [← h2, this]⟩
    · rw [if_neg hk] at hg
      exact ⟨t1, hg, hty, rfl⟩
  rcases step_shape c c1 e hs with ⟨_, hcase⟩ | ⟨ty, id, k0, t0, _, _, hg0, hcase⟩
  · rcases hcase with ht | ⟨k0, t0, tn, hg0, _, _, h1, h2, ht⟩ | ⟨now, ht⟩
    · rw [ht] at hg1; exact ⟨t1, hg1, hty, rfl⟩
    · rw [ht] at hg1; exact hset k0 t0 tn hg0 h1 h2 hg1
    · rw [ht, mapGet_map_values] at hg1
      cases hg : mapGet c.tasks k with
      | none => rw [hg] at hg1; simp at hg1
      | some t =>
        rw [hg] at hg1
        simp only [Option.map_some', Option.some.injEq] at hg1
        refine ⟨t, rfl, ?_, ?_⟩
        · rw [← (timeoutTask_id now t).2.1, hg1]; exact hty
        · rw [← (timeoutTask_id now t).1, hg1]
  · rcases hcase with ⟨ht, _⟩ | ⟨_, _, _, af, ht⟩
    · rw [ht] at hg1; exact hset k0 t0 { t0 with state := completedTask } hg0 rfl rfl hg1
    · rw [ht] at hg1
      rcases mapGet_createReduceTasks_cases af _ _ k t1 hg1 with ⟨i, _, _, hnew⟩ | ⟨_, hold⟩
      · rw [hnew] at hty
        exact absurd hty (by simp [newReduceTask]; decide)
      · exact hset k0 t0 { t0 with state := completedTask } hg0 rfl rfl hold

theorem makeMapTasks_ids : ∀ (files : List String) (i : Nat) (tasks : List (String × Task)),
    (∀ t : Nat, t < i → ∃ task, mapGet tasks (mapKey (t : Int)) = some task) →
    (∀ k task, mapGet tasks k = some task → ∃ t : Nat, t < i ∧ task.id = (t : Int)) →
    (∀ t : Nat, t < i + files.length →
      ∃ task, mapGet (makeMapTasks i files tasks) (mapKey (t : Int)) = some task) ∧
    (∀ k task, mapGet (makeMapTasks i files tasks) k = some task →
      ∃ t : Nat, t < i + files.length ∧ task.id = (t : Int)) := by
  intro files
  induction files with
  | nil => intro i tasks h1 h2; exact ⟨h1, h2⟩
  | cons f fs ih =>
    intro i tasks h1 h2
    simp only [makeMapTasks, List.length_cons]
    have := ih (i + 1) (mapPut tasks (mapKey (i : Int)) (newMapTask i f))
      (by
        intro t ht
        rw [mapGet_mapPut]
        by_cases hk : mapKey (t : Int) = mapKey (i : Int)
        · rw [if_pos hk]; exact ⟨_, rfl⟩
        · rw [if_neg hk]
          apply h1
          have : t ≠ i := fun x => hk (by rw [x])
          omega)
      (by
        intro k task hg
        rw [mapGet_mapPut] at hg
        by_cases hk : k = mapKey (i : Int)
        · rw [if_pos hk] at hg
          rw [← Option.some.inj hg]
          exact ⟨i, by omega, rfl⟩
        · rw [if_neg hk] at hg
          obtain ⟨t, ht, hid⟩ := h2 k task hg
          exact ⟨t, by omega, hid⟩)
    have e1 : i + 1 + fs.length = i + (fs.length + 1) := by omega
    rw [e1] at this
    exact this

theorem NamesInv_init (files : List String) (N : Nat) :
    NamesInv files.length N (MakeCoordinator files (N : Int)) [] := by
  obtain ⟨h1, h2⟩ := makeMapTasks_ids files 0 []
    (fun t ht => by omega) (fun k task hg => by simp [mapGet] at hg)
  rw [Nat.zero_add] at h1 h2
  refine ⟨CountInv_init files N, rfl, rfl, rfl, h1, fun k task hg _ => h2 k task hg,
    fun id h => by simp at h, List.nodup_nil, ?_, ?_⟩
  · intro f
    simp [MakeCoordinator]
  · intro hb
    exfalso
    apply hb
    unfold BeforeTransition
    show (0 : Int) < ((files.length : Nat) : Int) ∨ ((files.length : Nat) : Int) = 0
    omega

theorem CountInv_maps_completed (c : Coordinator) (log : List (Int × Int))
    (hinv : CountInv c log) (hb : ¬ BeforeTransition c) :
    ∀ k t, mapGet c.tasks k = some t → t.tType = mapTask → t.state = completedTask := by
  obtain ⟨_, _, h1, _, h3, _⟩ := hinv
  intro k t hg hty
  have hle := countCompleted_le mapTask c.tasks
  have hge : c.nMap ≤ c.nMapDone := by
    unfold BeforeTransition at hb
    omega
  have heq : countCompleted mapTask c.tasks = countTasks mapTask c.tasks := by
    rw [h1, h3] at hge
    omega
  exact all_completed_of_count mapTask c.tasks heq (k, t) (mapGet_mem _ k t hg) hty

/-- A step other than a Map report that finds its task keeps the invariant of
the file names. -/
theorem NamesInv_step_other (n N : Nat) (c : Coordinator) (e : Event)
    (log : List (Int × Int)) (hinv : NamesInv n N c log)
    (hmr : (reported c e).map Prod.fst ≠ some mapTask)
    (hnd : (log ++ (reported c e).toList).Nodup) :
    ∃ c1, step c e = some c1 ∧ NamesInv n N c1 (log ++ (reported c e).toList) := by
  obtain ⟨hC, hNr, hNm, hcnt, hkeys, hids, hlog, hfnd, hfmem, hred⟩ := hinv
  obtain ⟨c1, hs, hfiles⟩ := step_other_returns c e hmr
  obtain ⟨e1, e2, e3, _, _⟩ := step_counters c c1 e hs
  rw [if_neg hmr, add_zero] at e3
  have hC1 : CountInv c1 (log ++ (reported c e).toList) := by
    cases hrep : reported c e with
    | none =>
      simp only [Option.toList, List.append_nil]
      exact CountInv_step_quiet c c1 e log hC hs hrep
    | some p =>
      obtain ⟨ty, id⟩ := p
      rw [hrep] at hnd
      simp only [Option.toList] at hnd ⊢
      have hnew : (ty, id) ∉ log := by
        intro hm
        exact (List.nodup_append.mp hnd).2.2 hm (List.mem_singleton.mpr rfl)
      exact CountInv_step_report c c1 e log ty id hC hs hrep hnew
  have hmaplog : ∀ id : Int, (mapTask, id) ∈ log ++ (reported c e).toList ↔
      (mapTask, id) ∈ log := by
    intro id
    cases hrep : reported c e with
    | none => simp
    | some p =>
      obtain ⟨ty, id1⟩ := p
      have hne : ty ≠ mapTask := by
        intro h
        apply hmr
        rw [hrep, h]
        rfl
      simp only [Option.toList, List.mem_append, List.mem_singleton, Prod.mk.injEq]
      constructor
      · rintro (h | ⟨h, _⟩)
        · exact h
        · exact absurd h.symm hne
      · exact Or.inl
  have hB : BeforeTransition c1 ↔ BeforeTransition c := by
    unfold BeforeTransition; rw [e1, e3]
  have hcall : callsStartReduce c e = false := by
    unfold callsStartReduce
    cases hrep : reported c e with
    | none => rfl
    | some p =>
      obtain ⟨ty, id1⟩ := p
      have hne : ty ≠ mapTask := by
        intro h
        apply hmr
        rw [hrep, h]
        rfl
      simp [hne]
  refine ⟨c1, hs, hC1, by rw [e2]; exact hNr, by rw [e1]; exact hNm, ?_, ?_, ?_, ?_, ?_, ?_, ?_⟩
  · rw [e3, hcnt]
    congr 1
    cases hrep : reported c e with
    | none => simp
    | some p =>
      obtain ⟨ty, id1⟩ := p
      have hne : ty ≠ mapTask := by
        intro h
        apply hmr
        rw [hrep, h]
        rfl
      simp [List.filter_append, hne]
  · intro t ht
    exact step_map_key_kept c c1 e hs t (hkeys t ht)
  · intro k task hg hty
    obtain ⟨t0, hg0, hty0, hid0⟩ := step_map_entry_back c c1 e hs k task hg hty
    rw [← hid0]
    exact hids k t0 hg0 hty0
  · intro id hm
    exact hlog id ((hmaplog id).mp hm)
  · rw [hfiles]; exact hfnd
  · intro f
    rw [hfiles, hfmem]
    constructor
    · rintro ⟨t, hm, h⟩
      exact ⟨t, (hmaplog _).mpr hm, h⟩
    · rintro ⟨t, hm, h⟩
      exact ⟨t, (hmaplog _).mp hm, h⟩
  · intro hb i hi
    obtain ⟨task, hg, hty, hid, hnd0, hmem⟩ := hred (fun h => hb (hB.mpr h)) i hi
    rcases step_entry c c1 e hs _ task hg with h | ⟨t1, hg1, h1, h2, _, h4⟩
    · rw [hcall] at h; exact absurd h (by decide)
    · exact ⟨t1, hg1, by rw [h2]; exact hty, by rw [h1]; exact hid, by rw [h4]; exact hnd0,
        fun f => by rw [h4]; exact hmem f⟩

/-- A Map report that finds its task and carries the names `executeMap`
returned: the step returns and keeps the invariant of the file names; when it
is the transition, the Reduce tasks get the names of their buckets. -/
theorem NamesInv_step_map (n N : Nat) (hN : N ≤ 2 ^ 63) (c : Coordinator)
    (rangeOrder : List String → List String) (args : DoneArgs)
    (log : List (Int × Int)) (hinv : NamesInv n N c log)
    (hv : IsRangeOrder rangeOrder)
    (hnames : ReportsReturnedNames N (Event.taskDone rangeOrder args))
    (hty : args.TaskType = mapTask) (t0 : Task)
    (hg0 : mapGet c.tasks (mapKey args.TaskID) = some t0)
    (hnew : (mapTask, args.TaskID) ∉ log) :
    ∃ c1, step c (Event.taskDone rangeOrder args) = some c1 ∧
      NamesInv n N c1 (log ++ [(mapTask, args.TaskID)]) := by
  obtain ⟨hC, hNr, hNm, hcnt, hkeys, hids, hlog, hfnd, hfmem, hred⟩ := hinv
  have hrep : reported c (Event.taskDone rangeOrder args) = some (mapTask, args.TaskID) := by
    rw [reported_taskDone_map c rangeOrder args hty, hg0]
    rfl
  -- the task reported
  obtain ⟨hty0, hid0⟩ := found_task_kind c.tasks hC.1.1 mapTask args.TaskID _ t0
    (Or.inl ⟨rfl, rfl⟩) hg0
  obtain ⟨t, htn, htid⟩ := hids _ t0 hg0 hty0
  have hargs : args.TaskID = (t : Int) := by rw [← hid0, htid]
  have hst0 : t0.state ≠ completedTask := by
    intro hc
    apply hnew
    have := hC.2.2.2.2.2.2.2.1 _ t0 hg0 hc
    rw [hty0, hid0] at this
    exact this
  have hlt := countCompleted_lt_of_open mapTask c.tasks _ t0 hg0 hty0 hst0
  have hb0 : c.nMapDone < c.nMap := by
    rw [hC.2.2.1, hC.2.2.2.2.1]
    exact_mod_cast hlt
  -- the names reported
  have hnm : args.IntermediateFileNames
      = (List.range N).map (fun (i : Nat) => intermediateName (t : Int) (i : Int)) := by
    obtain ⟨mapf, taskReply, fs, r, h1, h2, h3, h4⟩ := hnames hty
    rw [h4, executeMap_names mapf taskReply fs r h3, h1, h2, hargs, Int.toNat_ofNat]
  obtain ⟨hnd1, hmem1⟩ := foldl_setAdd args.IntermediateFileNames c.intermediateFileNames hfnd
  have hF2 : ∀ f, f ∈ args.IntermediateFileNames.foldl setAdd c.intermediateFileNames ↔
      ∃ t1 : Nat, (mapTask, (t1 : Int)) ∈ log ++ [(mapTask, args.TaskID)] ∧
        ∃ i : Nat, i < N ∧ f = intermediateName (t1 : Int) (i : Int) := by
    intro f
    rw [hmem1, hfmem, hnm]
    constructor
    · rintro (⟨t1, hm, h⟩ | h)
      · exact ⟨t1, List.mem_append_left _ hm, h⟩
      · obtain ⟨i, hi, hf⟩ := List.mem_map.mp h
        refine ⟨t, ?_, i, List.mem_range.mp hi, hf.symm⟩
        rw [hargs]
        simp
    · rintro ⟨t1, hm, i, hi, hf⟩
      rcases List.mem_append.mp hm with hm | hm
      · exact Or.inl ⟨t1, hm, i, hi, hf⟩
      · right
        rw [List.mem_singleton, hargs] at hm
        have : (t1 : Int) = (t : Int) := (Prod.mk.inj hm).2
        rw [hf, this]
        exact List.mem_map.mpr ⟨i, List.mem_range.mpr hi, rfl⟩
  -- the first loop of startReduce places every name
  have hloop := startReduceLoop_spec
    (rangeOrder (args.IntermediateFileNames.foldl setAdd c.intermediateFileNames))
    (List.replicate N [])
    (by
      intro f hf
      rw [(hv _).mem_iff, hF2] at hf
      obtain ⟨t1, _, i, hi, hfe⟩ := hf
      refine ⟨i, by simpa using hi, ?_⟩
      rw [hfe]
      exact bucket_of_intermediateName t1 i (by omega))
  obtain ⟨af, haf, _, hget⟩ := hloop
  have hNt : c.nReduce.toNat = N := by rw [hNr, Int.toNat_ofNat]
  obtain ⟨c1, hs⟩ := step_map_found_returns c rangeOrder args t0 hty hg0
    (fun _ => ⟨by rw [hNr]; omega, af, by rw [hNt]; exact haf⟩)
  obtain ⟨hfiles, htrans⟩ := step_map_found c c1 rangeOrder args t0 hty hg0 hs
  obtain ⟨e1, e2, e3, _, _⟩ := step_counters c c1 _ hs
  rw [hrep] at e3
  simp only [Option.map_some', if_true] at e3
  have hC1 : CountInv c1 (log ++ [(mapTask, args.TaskID)]) :=
    CountInv_step_report c c1 _ log mapTask args.TaskID hC hs hrep hnew
  have hkeys1 : ∀ t1 : Nat, t1 < n → ∃ task, mapGet c1.tasks (mapKey (t1 : Int)) = some task :=
    fun t1 ht1 => step_map_key_kept c c1 _ hs t1 (hkeys t1 ht1)
  refine ⟨c1, hs, hC1, by rw [e2]; exact hNr, by rw [e1]; exact hNm, ?_, hkeys1, ?_, ?_, ?_,
    ?_, ?_⟩
  · rw [e3, hcnt]
    simp [List.filter_append]
  · intro k task hg hty1
    obtain ⟨t2, hg2, hty2, hid2⟩ := step_map_entry_back c c1 _ hs k task hg hty1
    rw [← hid2]
    exact hids k t2 hg2 hty2
  · intro id hm
    rcases List.mem_append.mp hm with hm | hm
    · exact hlog id hm
    · rw [List.mem_singleton] at hm
      exact ⟨t, htn, by rw [(Prod.mk.inj hm).2, hargs]⟩
  · rw [hfiles]; exact hnd1
  · intro f
    rw [hfiles]
    exact hF2 f
  · intro hb1 i hi
    have hlast : c.nMapDone + 1 = c.nMap := by
      unfold BeforeTransition at hb1
      rw [e1, e3] at hb1
      omega
    obtain ⟨af1, haf1, htasks⟩ := htrans hlast
    rw [hNt] at haf1 htasks
    rw [haf] at haf1
    have haf_eq : af1 = af := (Option.some.inj haf1).symm
    rw [haf_eq] at htasks
    have hgi : mapGet c1.tasks (reduceKey (i : Int))
        = some (newReduceTask i (af.getD i [])) := by
      rw [htasks]
      exact mapGet_createReduceTasks_self af N _ i hi
    have hfiles_i : af.getD i []
        = (rangeOrder (args.IntermediateFileNames.foldl setAdd c.intermediateFileNames)).filter
            (fun f => decide (((Split f '-').get? 2).map Atoi = some (i : Int))) := by
      rw [hget i, @replicate_nil_getD String N i, List.nil_append]
    refine ⟨_, hgi, rfl, rfl, ?_, ?_⟩
    · show (af.getD i []).Nodup
      rw [hfiles_i]
      exact ((hv _).nodup_iff.mpr hnd1).filter _
    · intro f
      show f ∈ af.getD i [] ↔ _
      rw [hfiles_i, List.mem_filter, (hv _).mem_iff, hF2]
      constructor
      · rintro ⟨⟨t1, hm, j, hj, hfe⟩, hp⟩
        obtain ⟨t2, ht2, hid2⟩ := (by
          rcases List.mem_append.mp hm with hm | hm
          · exact hlog _ hm
          · rw [List.mem_singleton] at hm
            exact ⟨t, htn, by rw [(Prod.mk.inj hm).2, hargs]⟩ :
          ∃ t2 : Nat, t2 < n ∧ (t1 : Int) = (t2 : Int))
        have ht12 : t1 = t2 := by exact_mod_cast hid2
        rw [hfe, bucket_of_intermediateName t1 j (by omega)] at hp
        have hji : (j : Int) = (i : Int) := by simpa using hp
        refine ⟨t1, by rw [ht12]; exact ht2, ?_⟩
        rw [hfe, hji]
      · rintro ⟨t1, ht1, hfe⟩
        refine ⟨⟨t1, ?_, i, hi, hfe⟩, ?_⟩
        · obtain ⟨task, hg⟩ := hkeys1 t1 ht1
          obtain ⟨hty2, hid2⟩ := found_task_kind c1.tasks hC1.1.1 mapTask (t1 : Int) _ task
            (Or.inl ⟨rfl, rfl⟩) hg
          have hcomp := CountInv_maps_completed c1 _ hC1 hb1 _ task hg hty2
          have := hC1.2.2.2.2.2.2.2.1 _ task hg hcomp
          rw [hty2, hid2] at this
          exact this
        · rw [hfe, bucket_of_intermediateName t1 i (by omega)]
          simp

theorem reported_map_cases (c : Coordinator) (e : Event)
    (h : (reported c e).map Prod.fst = some mapTask) :
    ∃ rangeOrder args t0, e = Event.taskDone rangeOrder args ∧ args.TaskType = mapTask ∧
      mapGet c.tasks (mapKey args.TaskID) = some t0 ∧
      reported c e = some (mapTask, args.TaskID) := by
  cases e with
  | requestTask rangeOrder args now => simp [reported] at h
  | timeoutScan now => simp [reported] at h
  | taskDone rangeOrder args =>
    by_cases hm : args.TaskType = mapTask
    · rw [reported_taskDone_map c rangeOrder args hm] at h ⊢
      cases hg0 : mapGet c.tasks (mapKey args.TaskID) with
      | none => rw [hg0] at h; simp at h
      | some t0 => exact ⟨rangeOrder, args, t0, rfl, hm, hg0, rfl⟩
    · by_cases hrd : args.TaskType = reduceTask
      · rw [reported_taskDone_reduce c rangeOrder args hrd] at h
        exfalso
        split_ifs at h
        · simp only [Option.map_some', Option.some.injEq] at h
          exact mapTask_ne_reduceTask h.symm
        · simp at h
      · rw [reported_taskDone_other c rangeOrder args hm hrd] at h
        simp at h

theorem NamesInv_run (n N : Nat) (hN : N ≤ 2 ^ 63) (es : List Event) :
    ∀ (c : Coordinator) (past : List (Int × Int)), NamesInv n N c past →
    (∀ e ∈ es, e.valid ∧ ReportsReturnedNames N e) →
    (past ++ reportLog c es).Nodup →
    ∃ c1, run c es = some c1 ∧ NamesInv n N c1 (past ++ reportLog c es) := by
  induction es with
  | nil =>
    intro c past hinv _ _
    exact ⟨c, rfl, by simpa [reportLog] using hinv⟩
  | cons e es ih =>
    intro c past hinv hev hnd
    obtain ⟨hv, hnames⟩ := hev e (List.mem_cons_self _ _)
    have hrest : ∀ e1 ∈ es, e1.valid ∧ ReportsReturnedNames N e1 :=
      fun e1 h1 => hev e1 (List.mem_cons_of_mem _ h1)
    have hstep : ∃ c2, step c e = some c2 ∧ NamesInv n N c2 (past ++ (reported c e).toList) := by
      by_cases hmr : (reported c e).map Prod.fst = some mapTask
      · obtain ⟨rangeOrder, args, t0, rfl, hty, hg0, hrep⟩ := reported_map_cases c e hmr
        rw [hrep]
        have hnew : (mapTask, args.TaskID) ∉ past := by
          intro hm
          simp only [reportLog, hrep, Option.toList] at hnd
          exact (List.nodup_append.mp hnd).2.2 hm (List.mem_append_left _ (List.mem_singleton.mpr rfl))
        exact NamesInv_step_map n N hN c rangeOrder args past hinv hv hnames hty t0 hg0 hnew
      · apply NamesInv_step_other n N c e past hinv hmr
        simp only [reportLog] at hnd
        rw [← List.append_assoc] at hnd
        exact (List.nodup_append.mp hnd).1
    obtain ⟨c2, hs, hinv2⟩ := hstep
    simp only [reportLog, hs] at hnd ⊢
    rw [← List.append_assoc] at hnd ⊢
    obtain ⟨c1, hr, hinv1⟩ := ih c2 _ hinv2 hrest hnd
    exact ⟨c1, by simp only [run, hs, Option.some_bind]; exact hr, hinv1⟩

theorem all_reported_count (n : Nat) (log : List (Int × Int))
    (hall : ∀ t : Nat, t < n → (mapTask, (t : Int)) ∈ log) :
    n ≤ (log.filter (fun p => decide (p.1 = mapTask))).length := by
  have hnd : ((List.range n).map (fun (t : Nat) => (mapTask, (t : Int)))).Nodup := by
    rw [List.nodup_map_iff_inj_on (List.nodup_range n)]
    intro a _ b _ h
    exact_mod_cast (Prod.mk.inj h).2
  have hsub : (List.range n).map (fun (t : Nat) => (mapTask, (t : Int)))
      ⊆ log.filter (fun p => decide (p.1 = mapTask)) := by
    intro p hp
    obtain ⟨t, ht, rfl⟩ := List.mem_map.mp hp
    exact List.mem_filter.mpr ⟨hall t (List.mem_range.mp ht), by simp⟩
  have := (List.subperm_of_subset hnd hsub).length_le
  simpa using this

/-- The round trip of the file names when no task is reported twice. For a
Map task `t ≥ 0` and `N ≥ 1` buckets, `executeMap` on a readable input returns the names `mr-t-0`, …,
`mr-t-(N-1)` in that order; the parsing of `startReduce` (split on `-`, third
field, `Atoi`) gives `i` back for `mr-t-i`, `i < N`, `N` in the range of `int`;
and in every execution from `MakeCoordinator(files, N)`, whatever the
iteration orders and the other requests, in which each Map report carries the
names `executeMap` returned, no task is reported twice with success and every
Map task has been reported, no step panics and Reduce task `i` holds exactly
the names `mr-t-i`, `t` an id of a Map task, each once. -/
theorem file_name_round_trip_once :
    (∀ (mapf : String → String → List KeyValue) (t N : Nat) (file content : String)
      (ty : Int) (rf : List String) (fs : FileSystem),
      0 < N → mapGet fs file = some (FileData.text content) →
      ∃ r, executeMap mapf
          { TaskID := t, TaskType := ty, MapFileName := file, ReduceFileNames := rf,
            NReduce := N } fs = some r ∧
        r.2 = (List.range N).map (fun (i : Nat) => intermediateName (t : Int) (i : Int))) ∧
    (∀ t i N : Nat, i < N → N ≤ 2 ^ 63 →
      ((Split (intermediateName (t : Int) (i : Int)) '-').get? 2).map Atoi
        = some (i : Int)) ∧
    (∀ (files : List String) (N : Nat) (es : List Event),
      files ≠ [] → 0 < N → N ≤ 2 ^ 63 →
      (∀ e ∈ es, e.valid ∧ ReportsReturnedNames N e) →
      (reportLog (MakeCoordinator files (N : Int)) es).Nodup →
      (∀ t : Nat, t < files.length →
        (mapTask, (t : Int)) ∈ reportLog (MakeCoordinator files (N : Int)) es) →
      ∃ c, run (MakeCoordinator files (N : Int)) es = some c ∧
        ∀ i : Nat, i < N →
          ∃ task, mapGet c.tasks (reduceKey (i : Int)) = some task ∧
            task.tType = reduceTask ∧ task.id = (i : Int) ∧ task.reduceFileNames.Nodup ∧
            ∀ f, f ∈ task.reduceFileNames ↔
              ∃ t : Nat, t < files.length ∧ f = intermediateName (t : Int) (i : Int)) := by
  refine ⟨?_, ?_, ?_⟩
  · intro mapf t N file content ty rf fs hN hin
    obtain ⟨r, h1, h2, _⟩ := executeMap_spec mapf t N hN file content ty rf fs hin
    exact ⟨r, h1, h2⟩
  · intro t i N hi hN
    exact bucket_of_intermediateName t i (by omega)
  · intro files N es hne hpos hN hev hnd hall
    obtain ⟨c, hr, hinv⟩ := NamesInv_run files.length N hN es (MakeCoordinator files (N : Int)) []
      (NamesInv_init files N) hev (by simpa using hnd)
    refine ⟨c, hr, ?_⟩
    obtain ⟨_, _, hNm, hcnt, _, _, _, _, _, hred⟩ := hinv
    apply hred
    have hlen : 0 < files.length := List.length_pos.mpr hne
    have hge := all_reported_count files.length _ hall
    rw [List.nil_append] at hcnt
    unfold BeforeTransition
    rw [hNm, hcnt]
    omega

theorem file_name_round_trip_once_witness :
    ∃ c, run (MakeCoordinator ["a", "b"] ((2 : Nat) : Int))
        [Event.taskDone id
          { WorkerID := 1, TaskID := 0, TaskType := mapTask,
            IntermediateFileNames := ["mr-0-0", "mr-0-1"] },
         Event.taskDone List.reverse
          { WorkerID := 2, TaskID := 1, TaskType := mapTask,
            IntermediateFileNames := ["mr-1-0", "mr-1-1"] }] = some c ∧
      ∀ i : Nat, i < 2 →
        ∃ task, mapGet c.tasks (reduceKey (i : Int)) = some task ∧
          task.tType = reduceTask ∧ task.id = (i : Int) ∧ task.reduceFileNames.Nodup ∧
          ∀ f, f ∈ task.reduceFileNames ↔
            ∃ t : Nat, t < ["a", "b"].length ∧ f = intermediateName (t : Int) (i : Int) :=
  file_name_round_trip_once.2.2 ["a", "b"] 2
    [Event.taskDone id
      { WorkerID := 1, TaskID := 0, TaskType := mapTask,
        IntermediateFileNames := ["mr-0-0", "mr-0-1"] },
     Event.taskDone List.reverse
      { WorkerID := 2, TaskID := 1, TaskType := mapTask,
        IntermediateFileNames := ["mr-1-0", "mr-1-1"] }]
    (by decide) (by decide) (by decide)
    (by
      intro e he
      simp only [List.mem_cons, List.mem_singleton, List.not_mem_nil, or_false] at he
      rcases he with rfl | rfl
      · exact ⟨isRangeOrder_id, fun _ =>
          ⟨fun _ _ => [],
           { TaskID := 0, TaskType := mapTask, MapFileName := "a", ReduceFileNames := [],
             NReduce := 2 },
           [("a", FileData.text "")],
           ([("a", FileData.text ""), ("mr-0-0", FileData.records []),
             ("mr-0-1", FileData.records [])], ["mr-0-0", "mr-0-1"]),
           rfl, rfl, by decide, rfl⟩⟩
      · exact ⟨isRangeOrder_reverse, fun _ =>
          ⟨fun _ _ => [],
           { TaskID := 1, TaskType := mapTask, MapFileName := "b", ReduceFileNames := [],
             NReduce := 2 },
           [("b", FileData.text "")],
           ([("b", FileData.text ""), ("mr-1-0", FileData.records []),
             ("mr-1-1", FileData.records [])], ["mr-1-0", "mr-1-1"]),
           rfl, rfl, by decide, rfl⟩⟩)
    (by decide) (by decide)

/-! ## Atomic publication -/

theorem runOps_append (a b : List FsOp) : ∀ fs : FileSystem,
    runOps fs (a ++ b) = (runOps fs a).bind (fun fs1 => runOps fs1 b) := by
  induction a with
  | nil => intro fs; rfl
  | cons op rest ih =>
    intro fs
    simp only [List.cons_append, runOps]
    cases applyOp fs op with
    | none => rfl
    | some fs1 => simp only [Option.some_bind]; exact ih fs1

theorem mapGet_mapErase_ne {V : Type} (m : List (String × V)) (k k1 : String) (h : k1 ≠ k) :
    mapGet (mapErase m k) k1 = mapGet m k1 := by
  induction m with
  | nil => rfl
  | cons e rest ih =>
    obtain ⟨k0, v0⟩ := e
    unfold mapErase at ih ⊢
    by_cases hk : k0 = k
    · have h0 : ¬ k0 = k1 := fun x => h (x.symm.trans hk)
      simp only [List.filter_cons, hk, ne_eq, not_true_eq_false, decide_False,
        Bool.false_eq_true, if_false]
      rw [mapGet_cons, if_neg (by rw [← hk]; exact h0)]
      rw [← hk]
      rw [hk]
      exact ih
    · simp only [List.filter_cons, ne_eq, hk, not_false_eq_true, decide_True, if_true]
      rw [mapGet_cons, mapGet_cons]
      by_cases h1 : k0 = k1
      · rw [if_pos h1, if_pos h1]
      · rw [if_neg h1, if_neg h1]; exact ih

theorem mapErase_of_not_mem {V : Type} (m : List (String × V)) (k : String)
    (h : k ∉ mapKeys m) : mapErase m k = m := by
  unfold mapErase
  apply List.filter_eq_self.mpr
  intro e he
  have : e.1 ≠ k := by
    intro hk
    apply h
    rw [← hk]
    exact List.mem_map.mpr ⟨e, he, rfl⟩
  simp [this]

theorem mapErase_append_last {V : Type} (m : List (String × V)) (k : String) (v : V)
    (h : k ∉ mapKeys m) : mapErase (m ++ [(k, v)]) k = m := by
  have h1 := mapErase_of_not_mem m k h
  unfold mapErase at h1 ⊢
  rw [List.filter_append, h1]
  simp

theorem mapSet_append_last {V : Type} (m : List (String × V)) (k : String) (v v1 : V)
    (h : k ∉ mapKeys m) : mapSet (m ++ [(k, v)]) k v1 = m ++ [(k, v1)] := by
  have h1 := mapSet_of_not_mem m k v1 h
  unfold mapSet at h1 ⊢
  rw [List.map_append, h1]
  simp

theorem mapGet_append_last {V : Type} (m : List (String × V)) (k : String) (v : V)
    (h : k ∉ mapKeys m) : mapGet (m ++ [(k, v)]) k = some v := by
  rw [mapGet_append_of_not_mem m k k v h, if_pos rfl]

/-- An operation that does not name `nm` leaves the file at `nm` as it is. -/
theorem applyOp_frame (fs fs1 : FileSystem) (op : FsOp) (nm : String)
    (h : applyOp fs op = some fs1) (ht : op.touches nm = false) :
    mapGet fs1 nm = mapGet fs nm := by
  cases op with
  | openRead name =>
    simp only [applyOp] at h
    split_ifs at h
    rw [← Option.some.inj h]
  | close name =>
    simp only [applyOp] at h
    split_ifs at h
    rw [← Option.some.inj h]
  | createTemp name empty =>
    simp only [applyOp] at h
    have hne : ¬ name = nm := by simpa [FsOp.touches] using ht
    split_ifs at h with h1
    rw [← Option.some.inj h]
    have hnone : mapGet fs name = none := by
      cases hg : mapGet fs name with
      | none => rfl
      | some d => rw [hg] at h1; simp at h1
    rw [mapGet_append_of_not_mem fs name nm empty ((mapGet_eq_none_iff fs name).mp hnone),
      if_neg (fun x => hne x.symm)]
  | encode name kv =>
    have hne : ¬ name = nm := by simpa [FsOp.touches] using ht
    simp only [applyOp] at h
    cases hg : mapGet fs name with
    | none => rw [hg] at h; simp at h
    | some d =>
      rw [hg] at h
      cases d with
      | text s => simp at h
      | records kvs =>
        simp only [Option.some.injEq] at h
        rw [← h, mapGet_mapSet_ne fs name nm _ (fun x => hne x.symm)]
  | fprintf name line =>
    have hne : ¬ name = nm := by simpa [FsOp.touches] using ht
    simp only [applyOp] at h
    cases hg : mapGet fs name with
    | none => rw [hg] at h; simp at h
    | some d =>
      rw [hg] at h
      cases d with
      | records kvs => simp at h
      | text s =>
        simp only [Option.some.injEq] at h
        rw [← h, mapGet_mapSet_ne fs name nm _ (fun x => hne x.symm)]
  | rename oldName newName =>
    have hne : ¬ oldName = nm ∧ ¬ newName = nm := by simpa [FsOp.touches] using ht
    simp only [applyOp] at h
    cases hg : mapGet fs oldName with
    | none => rw [hg] at h; simp at h
    | some d =>
      rw [hg] at h
      simp only [Option.some.injEq] at h
      rw [← h, mapGet_mapPut, if_neg (fun x => hne.2 x.symm),
        mapGet_mapErase_ne fs oldName nm (fun x => hne.1 x.symm)]

theorem runOps_frame (nm : String) (ops : List FsOp) : ∀ (fs fs1 : FileSystem),
    runOps fs ops = some fs1 → (∀ op ∈ ops, op.touches nm = false) →
    mapGet fs1 nm = mapGet fs nm := by
  induction ops with
  | nil =>
    intro fs fs1 h _
    simp only [runOps, Option.some.injEq] at h
    rw [h]
  | cons op rest ih =>
    intro fs fs1 h ht
    simp only [runOps] at h
    cases ha : applyOp fs op with
    | none => rw [ha] at h; simp at h
    | some fs2 =>
      rw [ha] at h
      simp only [Option.some_bind] at h
      rw [ih fs2 fs1 h (fun o ho => ht o (List.mem_cons_of_mem _ ho)),
        applyOp_frame fs fs2 op nm ha (ht op (List.mem_cons_self _ _))]

theorem filter_singleton_split {α : Type} (p : α → Bool) (x : α) : ∀ l : List α,
    l.filter p = [x] →
    ∃ pre post, l = pre ++ x :: post ∧ (∀ y ∈ pre, p y = false) ∧ (∀ y ∈ post, p y = false) := by
  intro l
  induction l with
  | nil => intro h; simp at h
  | cons a rest ih =>
    intro h
    by_cases ha : p a = true
    · rw [List.filter_cons, if_pos ha] at h
      simp only [List.cons.injEq] at h
      refine ⟨[], rest, by rw [h.1]; rfl, fun y hy => by simp at hy, ?_⟩
      intro y hy
      have := List.filter_eq_nil_iff.mp h.2 y hy
      simpa using this
    · rw [List.filter_cons, if_neg ha] at h
      obtain ⟨pre, post, h1, h2, h3⟩ := ih h
      refine ⟨a :: pre, post, by rw [h1]; rfl, ?_, h3⟩
      intro y hy
      rcases List.mem_cons.mp hy with rfl | hy
      · simpa using ha
      · exact h2 y hy

/-- When one operation only of a run names `nm`, the file at `nm` is, after
any number of the operations, the file before the run or the file after it. -/
theorem atomic_of_single_op (fs sfin : FileSystem) (ops : List FsOp) (nm : String) (x : FsOp)
    (hrun : runOps fs ops = some sfin) (hf : ops.filter (FsOp.touches nm) = [x]) :
    ∀ k : Nat, ∃ s, runOps fs (ops.take k) = some s ∧
      (mapGet s nm = mapGet fs nm ∨ mapGet s nm = mapGet sfin nm) := by
  obtain ⟨pre, post, hops, hpre, hpost⟩ := filter_singleton_split _ x ops hf
  rw [hops, runOps_append] at hrun
  cases h1 : runOps fs pre with
  | none => rw [h1] at hrun; simp at hrun
  | some s1 =>
    rw [h1] at hrun
    simp only [Option.some_bind, runOps] at hrun
    cases h2 : applyOp s1 x with
    | none => rw [h2] at hrun; simp at hrun
    | some s2 =>
      rw [h2] at hrun
      simp only [Option.some_bind] at hrun
      have hfin : mapGet sfin nm = mapGet s2 nm := runOps_frame nm post s2 sfin hrun hpost
      intro k
      by_cases hk : k ≤ pre.length
      · have htake : ops.take k = pre.take k := by
          rw [hops, List.take_append_of_le_length hk]
        have h1b : (runOps fs (pre.take k)).bind (fun s => runOps s (pre.drop k)) = some s1 := by
          rw [← runOps_append, List.take_append_drop]; exact h1
        cases h3 : runOps fs (pre.take k) with
        | none => rw [h3] at h1b; simp at h1b
        | some s =>
          refine ⟨s, by rw [htake]; exact h3, Or.inl ?_⟩
          exact runOps_frame nm _ fs s h3 (fun o ho => hpre o (List.mem_of_mem_take ho))
      · obtain ⟨m, hm⟩ : ∃ m, k - pre.length = m + 1 := ⟨k - pre.length - 1, by omega⟩
        have htake : ops.take k = pre ++ x :: post.take m := by
          rw [hops, List.take_append_eq_append_take, List.take_of_length_le (by omega), hm,
            List.take_succ_cons]
        have hrunb : (runOps s2 (post.take m)).bind (fun s => runOps s (post.drop m))
            = some sfin := by
          rw [← runOps_append, List.take_append_drop]; exact hrun
        cases h3 : runOps s2 (post.take m) with
        | none => rw [h3] at hrunb; simp at hrunb
        | some s =>
          refine ⟨s, ?_, Or.inr ?_⟩
          · rw [htake, runOps_append, h1]
            simp only [Option.some_bind, runOps, h2]
            exact h3
          · rw [hfin]
            exact runOps_frame nm _ s2 s h3 (fun o ho => hpost o (List.mem_of_mem_take ho))

theorem Itoa_no_p (x : Int) : 'p' ∉ (Itoa x).data := by
  intro h
  cases x with
  | ofNat n =>
    have := repr_isDigit n 'p' h
    exact absurd this (by decide)
  | negSucc n =>
    simp only [Itoa, String.data_append, List.mem_append] at h
    rcases h with h | h
    · exact absurd h (by decide)
    · have := repr_isDigit (n + 1) 'p' h
      exact absurd this (by decide)

theorem intermediateName_no_p (t i : Int) : 'p' ∉ (intermediateName t i).data := by
  intro h
  simp only [intermediateName, String.data_append, List.mem_append] at h
  rcases h with ((h | h) | h) | h
  · exact absurd h (by decide)
  · exact Itoa_no_p t h
  · exact absurd h (by decide)
  · exact Itoa_no_p i h

theorem outputName_no_p (t : Int) : 'p' ∉ (outputName t).data := by
  intro h
  simp only [outputName, String.data_append, List.mem_append] at h
  rcases h with h | h
  · exact absurd h (by decide)
  · exact Itoa_no_p t h

theorem tempName_has_p (tempDir suffix : String) : 'p' ∈ (tempName tempDir suffix).data := by
  simp only [tempName, String.data_append, List.mem_append]
  exact Or.inl (Or.inr (by decide))

/-- A temp file is never at the name of a bucket file, whatever the temp
directory and the random part of its name. -/
theorem tempName_ne_intermediateName (tempDir suffix : String) (t i : Int) :
    tempName tempDir suffix ≠ intermediateName t i := by
  intro h
  have := tempName_has_p tempDir suffix
  rw [h] at this
  exact intermediateName_no_p t i this

/-- A temp file is never at the name of an output file. -/
theorem tempName_ne_outputName (tempDir suffix : String) (t : Int) :
    tempName tempDir suffix ≠ outputName t := by
  intro h
  have := tempName_has_p tempDir suffix
  rw [h] at this
  exact outputName_no_p t this

theorem intermediateName_bucket_injective (t : Int) (i j : Nat)
    (h : intermediateName t (i : Int) = intermediateName t (j : Int)) : i = j := by
  have := congrArg String.data h
  simp only [intermediateName, String.data_append, List.append_cancel_left_eq] at this
  have h2 : Itoa (i : Int) = Itoa (j : Int) := string_eq_of_data _ _ this
  exact_mod_cast Itoa_injective _ _ h2

theorem runOps_encodes (tmp : String) (fs : FileSystem) (h : tmp ∉ mapKeys fs)
    (rest : List FsOp) : ∀ (kvs l : List KeyValue),
    runOps (fs ++ [(tmp, FileData.records l)]) (kvs.map (FsOp.encode tmp) ++ rest)
      = runOps (fs ++ [(tmp, FileData.records (l ++ kvs))]) rest := by
  intro kvs
  induction kvs with
  | nil => intro l; simp
  | cons kv kvs ih =>
    intro l
    simp only [List.map_cons, List.cons_append, runOps, applyOp,
      mapGet_append_last fs tmp _ h, mapSet_append_last fs tmp _ _ h, Option.some_bind]
    exact (ih (l ++ [kv])).trans (by simp)

theorem runOps_fprintfs (tmp : String) (fs : FileSystem) (h : tmp ∉ mapKeys fs)
    (rest : List FsOp) : ∀ (lines : List (String × String)) (s : String),
    runOps (fs ++ [(tmp, FileData.text s)]) (lines.map (FsOp.fprintf tmp) ++ rest)
      = runOps (fs ++ [(tmp, FileData.text (lines.foldl (fun r l => r ++ formatLine l) s))])
          rest := by
  intro lines
  induction lines with
  | nil => intro s; simp
  | cons line lines ih =>
    intro s
    simp only [List.map_cons, List.cons_append, runOps, applyOp,
      mapGet_append_last fs tmp _ h, mapSet_append_last fs tmp _ _ h, Option.some_bind]
    exact ih (s ++ formatLine line)

theorem formatLines_foldl (lines : List (String × String)) :
    lines.foldl (fun r l => r ++ formatLine l) "" = formatLines lines := by
  unfold formatLines String.join
  rw [List.foldl_map]

/-- The operations of one bucket, run on a directory without the temp name:
the bucket file holds the records of the bucket, nothing else changes and the
temp file is gone. -/
theorem runOps_bucketOps (tempDir : String) (rnd : Nat → String) (taskID : Int)
    (buckets : List (List KeyValue)) (i : Nat) (fs : FileSystem)
    (h : tempName tempDir (rnd i) ∉ mapKeys fs) :
    runOps fs (bucketOps tempDir rnd taskID buckets i)
      = some (mapPut fs (intermediateName taskID i) (FileData.records (buckets.getD i []))) := by
  have hnone : mapGet fs (tempName tempDir (rnd i)) = none :=
    (mapGet_eq_none_iff fs _).mpr h
  simp only [bucketOps, runOps, applyOp, hnone, Option.isSome_none, Bool.false_eq_true,
    if_false, Option.some_bind]
  rw [runOps_encodes _ fs h]
  simp only [List.nil_append, runOps, applyOp, mapGet_append_last fs _ _ h, Option.isSome_some,
    if_true, Option.some_bind, mapErase_append_last fs _ _ h]

theorem writeBuckets_keys (taskID : Int) (buckets : List (List KeyValue)) (fs : FileSystem) :
    ∀ (n : Nat) (k : String), k ∈ mapKeys (writeBuckets taskID buckets n fs).1 →
      k ∈ mapKeys fs ∨ ∃ i : Nat, i < n ∧ k = intermediateName taskID i := by
  intro n
  induction n with
  | zero => intro k hk; exact Or.inl hk
  | succ n ih =>
    intro k hk
    rw [writeBuckets_succ] at hk
    simp only at hk
    rw [mapKeys_mapPut] at hk
    split_ifs at hk
    · rcases ih k hk with h | ⟨i, hi, h⟩
      · exact Or.inl h
      · exact Or.inr ⟨i, by omega, h⟩
    · rcases List.mem_append.mp hk with hk | hk
      · rcases ih k hk with h | ⟨i, hi, h⟩
        · exact Or.inl h
        · exact Or.inr ⟨i, by omega, h⟩
      · rw [List.mem_singleton] at hk
        exact Or.inr ⟨n, by omega, hk⟩

theorem writeBuckets_get (taskID : Int) (buckets : List (List KeyValue)) (fs : FileSystem)
    (i : Nat) : ∀ n : Nat, i < n →
    mapGet (writeBuckets taskID buckets n fs).1 (intermediateName taskID i)
      = some (FileData.records (buckets.getD i [])) := by
  intro n
  induction n with
  | zero => intro h; omega
  | succ n ih =>
    intro h
    rw [writeBuckets_succ]
    simp only
    rw [mapGet_mapPut]
    by_cases hin : i = n
    · subst hin
      rw [if_pos rfl]
    · rw [if_neg (fun x => hin (intermediateName_bucket_injective taskID i n x))]
      exact ih (by omega)

/-- The operations of the loop over the buckets, run one after the other,
leave the directory `writeBuckets` gives. -/
theorem runOps_buckets (tempDir : String) (rnd : Nat → String) (taskID : Int)
    (buckets : List (List KeyValue)) (fs : FileSystem) : ∀ n : Nat,
    (∀ i : Nat, i < n → tempName tempDir (rnd i) ∉ mapKeys fs) →
    runOps fs ((List.range n).flatMap (bucketOps tempDir rnd taskID buckets))
      = some (writeBuckets taskID buckets n fs).1 := by
  intro n
  induction n with
  | zero => intro _; rfl
  | succ n ih =>
    intro hfresh
    rw [List.range_succ, List.flatMap_append, runOps_append,
      ih (fun i hi => hfresh i (by omega))]
    simp only [Option.some_bind, List.flatMap_singleton]
    rw [writeBuckets_succ]
    simp only
    apply runOps_bucketOps
    intro hm
    rcases writeBuckets_keys taskID buckets fs n _ hm with h | ⟨i, _, h⟩
    · exact hfresh n (by omega) h
    · exact tempName_ne_intermediateName _ _ _ _ h

theorem filter_bucketOps (tempDir : String) (rnd : Nat → String) (taskID : Int)
    (buckets : List (List KeyValue)) (i j : Nat) :
    (bucketOps tempDir rnd taskID buckets j).filter
        (FsOp.touches (intermediateName taskID i))
      = if j = i then
          [FsOp.rename (tempName tempDir (rnd j)) (intermediateName taskID j)]
        else [] := by
  have hne : ¬ tempName tempDir (rnd j) = intermediateName taskID i :=
    tempName_ne_intermediateName _ _ _ _
  have henc : ((buckets.getD j []).map (FsOp.encode (tempName tempDir (rnd j)))).filter
      (FsOp.touches (intermediateName taskID i)) = [] := by
    apply filter_eq_nil_of_none
    intro op hop
    obtain ⟨kv, _, rfl⟩ := List.mem_map.mp hop
    simp [FsOp.touches, hne]
  unfold bucketOps
  rw [List.filter_cons, List.filter_append, henc]
  by_cases hji : j = i
  · subst hji
    simp [FsOp.touches, hne]
  · have h2 : ¬ intermediateName taskID j = intermediateName taskID i :=
      fun x => hji (intermediateName_bucket_injective taskID j i x)
    simp [FsOp.touches, hne, h2, hji]

theorem filter_flatMap_range {α : Type} (p : α → Bool) (f : Nat → List α) (i : Nat)
    (x : α) (hf : ∀ j, (f j).filter p = if j = i then [x] else []) : ∀ n : Nat,
    ((List.range n).flatMap f).filter p = if i < n then [x] else [] := by
  intro n
  induction n with
  | zero => simp
  | succ n ih =>
    rw [List.range_succ, List.flatMap_append, List.filter_append, ih, List.flatMap_singleton,
      hf n]
    by_cases h1 : i < n
    · have h2 : ¬ n = i := by omega
      have h3 : i < n + 1 := by omega
      simp [h1, h2, h3]
    · by_cases h2 : n = i
      · have h3 : i < n + 1 := by omega
        simp [h1, h2, h3]
      · have h3 : ¬ i < n + 1 := by omega
        simp [h1, h2, h3]

theorem readLoop_opens (fs : FileSystem) : ∀ (names : List String) (kva kva1 : List KeyValue),
    readLoop fs kva names = some kva1 → ∀ f ∈ names, (mapGet fs f).isSome = true := by
  intro names
  induction names with
  | nil => intro kva kva1 _ f hf; simp at hf
  | cons name rest ih =>
    intro kva kva1 h f hf
    simp only [readLoop] at h
    cases hg : mapGet fs name with
    | none => rw [hg] at h; simp at h
    | some d =>
      rw [hg] at h
      cases d with
      | text s => simp at h
      | records kvs =>
        simp only at h
        rcases List.mem_cons.mp hf with rfl | hf
        · rw [hg]; rfl
        · exact ih _ _ h f hf

theorem runOps_opens (fs : FileSystem) (rest : List FsOp) : ∀ names : List String,
    (∀ f ∈ names, (mapGet fs f).isSome = true) →
    runOps fs (names.map FsOp.openRead ++ rest) = runOps fs rest := by
  intro names
  induction names with
  | nil => intro _; rfl
  | cons name names ih =>
    intro h
    simp only [List.map_cons, List.cons_append, runOps, applyOp,
      h name (List.mem_cons_self _ _), if_true, Option.some_bind]
    exact ih (fun f hf => h f (List.mem_cons_of_mem _ hf))

/-- The operations of `executeMap` when the function returns: they run to the
directory it returns, and one of them only names the file of bucket `i`. -/
theorem executeMapOps_spec (tempDir : String) (rnd : Nat → String)
    (mapf : String → String → List KeyValue) (taskReply : TaskReply) (fs : FileSystem)
    (r : FileSystem × List String)
    (hfresh : ∀ i : Nat, i < taskReply.NReduce.toNat → tempName tempDir (rnd i) ∉ mapKeys fs)
    (hin : ∀ i : Nat, i < taskReply.NReduce.toNat →
      taskReply.MapFileName ≠ intermediateName taskReply.TaskID i)
    (h : executeMap mapf taskReply fs = some r) :
    ∃ ops content buckets, executeMapOps tempDir rnd mapf taskReply fs = some ops ∧
      mapGet fs taskReply.MapFileName = some (FileData.text content) ∧
      partitionLoop taskReply.NReduce (List.replicate taskReply.NReduce.toNat [])
        (mapf taskReply.MapFileName content) = some buckets ∧
      runOps fs ops = some r.1 ∧
      ∀ i : Nat, i < taskReply.NReduce.toNat →
        ops.filter (FsOp.touches (intermediateName taskReply.TaskID i))
          = [FsOp.rename (tempName tempDir (rnd i)) (intermediateName taskReply.TaskID i)] ∧
        mapGet r.1 (intermediateName taskReply.TaskID i)
          = some (FileData.records (buckets.getD i [])) := by
  unfold executeMap at h
  unfold executeMapOps
  cases hg : mapGet fs taskReply.MapFileName with
  | none => rw [hg] at h; simp at h
  | some d =>
    rw [hg] at h
    cases d with
    | records kvs => simp at h
    | text content =>
      simp only at h ⊢
      by_cases hn : taskReply.NReduce < 0
      · rw [if_pos hn] at h; simp at h
      · rw [if_neg hn] at h ⊢
        cases hp : partitionLoop taskReply.NReduce
            (List.replicate taskReply.NReduce.toNat [])
            (mapf taskReply.MapFileName content) with
        | none => rw [hp] at h; simp at h
        | some buckets =>
          rw [hp] at h
          simp only [Option.some.injEq] at h
          refine ⟨_, content, buckets, rfl, rfl, hp, ?_, ?_⟩
          · simp only [runOps, applyOp, hg, Option.isSome_some, if_true, Option.some_bind]
            rw [runOps_buckets tempDir rnd taskReply.TaskID buckets fs _ hfresh, ← h]
          · intro i hi
            constructor
            · rw [List.filter_cons]
              have h1 : FsOp.touches (intermediateName taskReply.TaskID i)
                  (FsOp.openRead taskReply.MapFileName) = false := by
                simp [FsOp.touches, hin i hi]
              rw [h1]
              simp only [Bool.false_eq_true, if_false]
              rw [filter_flatMap_range _ _ i
                (FsOp.rename (tempName tempDir (rnd i)) (intermediateName taskReply.TaskID i))
                (fun j => by
                  rw [filter_bucketOps]
                  by_cases hji : j = i
                  · rw [if_pos hji, if_pos hji, hji]
                  · rw [if_neg hji, if_neg hji]), if_pos hi]
            · rw [← h]
              exact writeBuckets_get taskReply.TaskID buckets fs i _ hi

/-- The operations of `executeReduce` when the function returns: they run to
the directory it returns, and one of them only names the output file. -/
theorem executeReduceOps_spec (tempDir suffix : String)
    (sortFunc : List KeyValue → List KeyValue) (reducef : String → List String → String)
    (taskReply : TaskReply) (fs fs1 : FileSystem)
    (hfresh : tempName tempDir suffix ∉ mapKeys fs)
    (hin : outputName taskReply.TaskID ∉ taskReply.ReduceFileNames)
    (h : executeReduce sortFunc reducef taskReply fs = some fs1) :
    ∃ ops kva, executeReduceOps tempDir suffix sortFunc reducef taskReply fs = some ops ∧
      runOps fs ops = some fs1 ∧
      ops.filter (FsOp.touches (outputName taskReply.TaskID))
        = [FsOp.rename (tempName tempDir suffix) (outputName taskReply.TaskID)] ∧
      readLoop fs [] taskReply.ReduceFileNames = some kva ∧
      mapGet fs1 (outputName taskReply.TaskID)
        = some (FileData.text (formatLines
            (reduceLoop reducef (sortFunc kva).length (sortFunc kva)))) := by
  unfold executeReduce at h
  unfold executeReduceOps
  cases hr : readLoop fs [] taskReply.ReduceFileNames with
  | none => rw [hr] at h; simp at h
  | some kva =>
    rw [hr] at h
    simp only [Option.some.injEq] at h ⊢
    have hne : ¬ tempName tempDir suffix = outputName taskReply.TaskID :=
      tempName_ne_outputName _ _ _
    have hnone : mapGet fs (tempName tempDir suffix) = none :=
      (mapGet_eq_none_iff fs _).mpr hfresh
    refine ⟨_, kva, rfl, ?_, ?_, rfl, ?_⟩
    · rw [runOps_opens fs _ _ (readLoop_opens fs _ _ _ hr)]
      simp only [runOps, applyOp, hnone, Option.isSome_none, Bool.false_eq_true, if_false,
        Option.some_bind]
      rw [runOps_fprintfs _ fs hfresh, formatLines_foldl]
      simp only [runOps, applyOp, mapGet_append_last fs _ _ hfresh, Option.some_bind,
        mapErase_append_last fs _ _ hfresh]
      rw [h]
    · rw [List.filter_append, List.filter_cons, List.filter_append]
      have h1 : (taskReply.ReduceFileNames.map FsOp.openRead).filter
          (FsOp.touches (outputName taskReply.TaskID)) = [] := by
        apply filter_eq_nil_of_none
        intro op hop
        obtain ⟨f, hf, rfl⟩ := List.mem_map.mp hop
        have : ¬ f = outputName taskReply.TaskID := fun x => hin (x ▸ hf)
        simp [FsOp.touches, this]
      have h2 : ((reduceLoop reducef (sortFunc kva).length (sortFunc kva)).map
          (FsOp.fprintf (tempName tempDir suffix))).filter
          (FsOp.touches (outputName taskReply.TaskID)) = [] := by
        apply filter_eq_nil_of_none
        intro op hop
        obtain ⟨l, _, rfl⟩ := List.mem_map.mp hop
        simp [FsOp.touches, hne]
      rw [h1, h2]
      simp [FsOp.touches, hne]
    · rw [← h, mapGet_mapPut, if_pos rfl]

/-- C17: atomic publication. When `executeMap` (`executeReduce`) returns, its
calls on the file system, in the order of the source, run to the directory it
returns; the temp files, of path `<tempDir>mr-tmp-<random>` unused before, are
never at a canonical name; the only call that names the canonical name
`mr-<taskID>-<i>` (`mr-out-<taskID>`), the inputs being other files, is one
rename of the temp file onto it; and after any number of the calls (so at
every point of the execution, and after a crash there) the canonical name
holds the file it held before the execution, if any, or the complete content:
all the records of bucket `i` (all the output lines). -/
theorem C17_atomic_publication :
    (∀ (tempDir : String) (rnd : Nat → String) (mapf : String → String → List KeyValue)
      (taskReply : TaskReply) (fs : FileSystem) (r : FileSystem × List String),
      (∀ i : Nat, i < taskReply.NReduce.toNat → tempName tempDir (rnd i) ∉ mapKeys fs) →
      (∀ i : Nat, i < taskReply.NReduce.toNat →
        taskReply.MapFileName ≠ intermediateName taskReply.TaskID i) →
      executeMap mapf taskReply fs = some r →
      ∃ ops content buckets, executeMapOps tempDir rnd mapf taskReply fs = some ops ∧
        mapGet fs taskReply.MapFileName = some (FileData.text content) ∧
        partitionLoop taskReply.NReduce (List.replicate taskReply.NReduce.toNat [])
          (mapf taskReply.MapFileName content) = some buckets ∧
        runOps fs ops = some r.1 ∧
        ∀ i : Nat, i < taskReply.NReduce.toNat →
          (∀ (j : Nat) (t : Int),
            tempName tempDir (rnd j) ≠ intermediateName t i) ∧
          ops.filter (FsOp.touches (intermediateName taskReply.TaskID i))
            = [FsOp.rename (tempName tempDir (rnd i))
                (intermediateName taskReply.TaskID i)] ∧
          ∀ k : Nat, ∃ s, runOps fs (ops.take k) = some s ∧
            (mapGet s (intermediateName taskReply.TaskID i)
                = mapGet fs (intermediateName taskReply.TaskID i) ∨
             mapGet s (intermediateName taskReply.TaskID i)
                = some (FileData.records (buckets.getD i [])))) ∧
    (∀ (tempDir suffix : String) (sortFunc : List KeyValue → List KeyValue)
      (reducef : String → List String → String) (taskReply : TaskReply)
      (fs fs1 : FileSystem),
      tempName tempDir suffix ∉ mapKeys fs →
      outputName taskReply.TaskID ∉ taskReply.ReduceFileNames →
      executeReduce sortFunc reducef taskReply fs = some fs1 →
      ∃ ops kva, executeReduceOps tempDir suffix sortFunc reducef taskReply fs = some ops ∧
        readLoop fs [] taskReply.ReduceFileNames = some kva ∧
        runOps fs ops = some fs1 ∧
        tempName tempDir suffix ≠ outputName taskReply.TaskID ∧
        ops.filter (FsOp.touches (outputName taskReply.TaskID))
          = [FsOp.rename (tempName tempDir suffix) (outputName taskReply.TaskID)] ∧
        ∀ k : Nat, ∃ s, runOps fs (ops.take k) = some s ∧
          (mapGet s (outputName taskReply.TaskID)
              = mapGet fs (outputName taskReply.TaskID) ∨
           mapGet s (outputName taskReply.TaskID)
              = some (FileData.text (formatLines
                  (reduceLoop reducef (sortFunc kva).length (sortFunc kva)))))) := by
  constructor
  · intro tempDir rnd mapf taskReply fs r hfresh hin h
    obtain ⟨ops, content, buckets, hops, hg, hp, hrun, hspec⟩ :=
      executeMapOps_spec tempDir rnd mapf taskReply fs r hfresh hin h
    refine ⟨ops, content, buckets, hops, hg, hp, hrun, ?_⟩
    · intro i hi
      obtain ⟨hf, hc⟩ := hspec i hi
      refine ⟨fun j t => tempName_ne_intermediateName _ _ _ _, hf, ?_⟩
      intro k
      obtain ⟨s, hs, hcase⟩ := atomic_of_single_op fs r.1 ops _ _ hrun hf k
      refine ⟨s, hs, ?_⟩
      rcases hcase with h1 | h1
      · exact Or.inl h1
      · exact Or.inr (h1.trans hc)
  · intro tempDir suffix sortFunc reducef taskReply fs fs1 hfresh hin h
    obtain ⟨ops, kva, hops, hrun, hf, hr, hc⟩ :=
      executeReduceOps_spec tempDir suffix sortFunc reducef taskReply fs fs1 hfresh hin h
    refine ⟨ops, kva, hops, hr, hrun, tempName_ne_outputName _ _ _, hf, ?_⟩
    intro k
    obtain ⟨s, hs, hcase⟩ := atomic_of_single_op fs fs1 ops _ _ hrun hf k
    refine ⟨s, hs, ?_⟩
    rcases hcase with h1 | h1
    · exact Or.inl h1
    · exact Or.inr (h1.trans hc)

theorem C17_atomic_publication_witness :
    (∃ ops content buckets,
      executeMapOps "/tmp/" (fun k => Itoa k) (fun _ _ => [⟨"a", "1"⟩, ⟨"b", "1"⟩])
        { TaskID := 0, TaskType := mapTask, MapFileName := "in", ReduceFileNames := [],
          NReduce := 2 } [("in", FileData.text "a b")] = some ops ∧
      mapGet [("in", FileData.text "a b")] "in" = some (FileData.text content) ∧
      partitionLoop 2 (List.replicate (2 : Int).toNat [])
        ((fun _ _ => [⟨"a", "1"⟩, ⟨"b", "1"⟩]) "in" content) = some buckets ∧
      runOps [("in", FileData.text "a b")] ops
        = some [("in", FileData.text "a b"), ("mr-0-0", FileData.records [⟨"a", "1"⟩]),
                ("mr-0-1", FileData.records [⟨"b", "1"⟩])] ∧
      ∀ i : Nat, i < (2 : Int).toNat →
        (∀ (j : Nat) (t : Int),
          tempName "/tmp/" ((fun k => Itoa k) j) ≠ intermediateName t i) ∧
        ops.filter (FsOp.touches (intermediateName 0 i))
          = [FsOp.rename (tempName "/tmp/" ((fun k => Itoa k) i)) (intermediateName 0 i)] ∧
        ∀ k : Nat, ∃ s, runOps [("in", FileData.text "a b")] (ops.take k) = some s ∧
          (mapGet s (intermediateName 0 i)
              = mapGet [("in", FileData.text "a b")] (intermediateName 0 i) ∨
           mapGet s (intermediateName 0 i)
              = some (FileData.records (buckets.getD i [])))) ∧
    (∃ ops kva,
      executeReduceOps "/tmp/" "7" sortByKey (fun _ vs => Itoa vs.length)
        { TaskID := 0, TaskType := reduceTask, MapFileName := "",
          ReduceFileNames := ["mr-0-0"], NReduce := 1 }
        [("mr-0-0", FileData.records [⟨"a", "1"⟩, ⟨"a", "1"⟩])] = some ops ∧
      readLoop [("mr-0-0", FileData.records [⟨"a", "1"⟩, ⟨"a", "1"⟩])] [] ["mr-0-0"]
        = some kva ∧
      runOps [("mr-0-0", FileData.records [⟨"a", "1"⟩, ⟨"a", "1"⟩])] ops
        = some [("mr-0-0", FileData.records [⟨"a", "1"⟩, ⟨"a", "1"⟩]),
                ("mr-out-0", FileData.text "a 2\n")] ∧
      tempName "/tmp/" "7" ≠ outputName 0 ∧
      ops.filter (FsOp.touches (outputName 0))
        = [FsOp.rename (tempName "/tmp/" "7") (outputName 0)] ∧
      ∀ k : Nat, ∃ s,
        runOps [("mr-0-0", FileData.records [⟨"a", "1"⟩, ⟨"a", "1"⟩])] (ops.take k)
          = some s ∧
        (mapGet s (outputName 0)
            = mapGet [("mr-0-0", FileData.records [⟨"a", "1"⟩, ⟨"a", "1"⟩])] (outputName 0) ∨
         mapGet s (outputName 0)
            = some (FileData.text (formatLines
                (reduceLoop (fun _ vs => Itoa vs.length) (sortByKey kva).length
                  (sortByKey kva)))))) :=
  ⟨C17_atomic_publication.1 "/tmp/" (fun k => Itoa k) (fun _ _ => [⟨"a", "1"⟩, ⟨"b", "1"⟩])
      { TaskID := 0, TaskType := mapTask, MapFileName := "in", ReduceFileNames := [],
        NReduce := 2 } [("in", FileData.text "a b")]
      ([("in", FileData.text "a b"), ("mr-0-0", FileData.records [⟨"a", "1"⟩]),
        ("mr-0-1", FileData.records [⟨"b", "1"⟩])], ["mr-0-0", "mr-0-1"])
      (by decide) (by decide) (by decide),
   C17_atomic_publication.2 "/tmp/" "7" sortByKey (fun _ vs => Itoa vs.length)
      { TaskID := 0, TaskType := reduceTask, MapFileName := "",
        ReduceFileNames := ["mr-0-0"], NReduce := 1 }
      [("mr-0-0", FileData.records [⟨"a", "1"⟩, ⟨"a", "1"⟩])]
      [("mr-0-0", FileData.records [⟨"a", "1"⟩, ⟨"a", "1"⟩]),
       ("mr-out-0", FileData.text "a 2\n")]
      (by decide) (by decide) (by decide)⟩

/-- C13: the code at the failing input. Two Map tasks and one bucket; worker 1
is given Map task 0 and stalls, the task times out and is given to worker 2,
both workers report it with the name `executeMap` returned, then worker 1 is
given Map task 1 and reports it. Every report carries the names `executeMap`
returned and every Map task has reported, but the second report of Map task 0
already brought `nMapDone` to `nMap = 2`: `startReduce` ran on the names of
Map task 0 alone, and the file list of Reduce task 0 is `mr-0-0` without
`mr-1-0`, in the state after the last report as well. With each task reported
once the list is `mr-0-0`, `mr-1-0`. -/
theorem C13_duplicate_report_short_file_list :
    (∀ e ∈ [Event.requestTask id { WorkerID := 1 } 0,
        Event.timeoutScan 11000000000,
        Event.requestTask id { WorkerID := 2 } 11000000000,
        Event.taskDone id
          { WorkerID := 1, TaskID := 0, TaskType := mapTask,
            IntermediateFileNames := ["mr-0-0"] },
        Event.taskDone id
          { WorkerID := 2, TaskID := 0, TaskType := mapTask,
            IntermediateFileNames := ["mr-0-0"] },
        Event.requestTask id { WorkerID := 1 } 12000000000,
        Event.taskDone id
          { WorkerID := 1, TaskID := 1, TaskType := mapTask,
            IntermediateFileNames := ["mr-1-0"] }],
      e.valid ∧ ReportsReturnedNames 1 e) ∧
    (RequestTask id (MakeCoordinator ["a", "b"] 1) { WorkerID := 1 } 0).2.TaskID = 0 ∧
    reportLog (MakeCoordinator ["a", "b"] 1)
      [Event.requestTask id { WorkerID := 1 } 0,
       Event.timeoutScan 11000000000,
       Event.requestTask id { WorkerID := 2 } 11000000000,
       Event.taskDone id
         { WorkerID := 1, TaskID := 0, TaskType := mapTask,
           IntermediateFileNames := ["mr-0-0"] },
       Event.taskDone id
         { WorkerID := 2, TaskID := 0, TaskType := mapTask,
           IntermediateFileNames := ["mr-0-0"] },
       Event.requestTask id { WorkerID := 1 } 12000000000,
       Event.taskDone id
         { WorkerID := 1, TaskID := 1, TaskType := mapTask,
           IntermediateFileNames := ["mr-1-0"] }]
      = [(mapTask, 0), (mapTask, 0), (mapTask, 1)] ∧
    (run (MakeCoordinator ["a", "b"] 1)
      [Event.requestTask id { WorkerID := 1 } 0,
       Event.timeoutScan 11000000000,
       Event.requestTask id { WorkerID := 2 } 11000000000,
       Event.taskDone id
         { WorkerID := 1, TaskID := 0, TaskType := mapTask,
           IntermediateFileNames := ["mr-0-0"] },
       Event.taskDone id
         { WorkerID := 2, TaskID := 0, TaskType := mapTask,
           IntermediateFileNames := ["mr-0-0"] },
       Event.requestTask id { WorkerID := 1 } 12000000000,
       Event.taskDone id
         { WorkerID := 1, TaskID := 1, TaskType := mapTask,
           IntermediateFileNames := ["mr-1-0"] }]).map
      (fun c => ((mapGet c.tasks (mapKey 0)).map (fun t => t.state),
        (mapGet c.tasks (mapKey 1)).map (fun t => t.state),
        (mapGet c.tasks (reduceKey 0)).map (fun t => t.reduceFileNames),
        c.intermediateFileNames))
      = some (some completedTask, some completedTask, some ["mr-0-0"],
          ["mr-0-0", "mr-1-0"]) ∧
    (run (MakeCoordinator ["a", "b"] 1)
      [Event.taskDone id
         { WorkerID := 2, TaskID := 0, TaskType := mapTask,
           IntermediateFileNames := ["mr-0-0"] },
       Event.taskDone id
         { WorkerID := 1, TaskID := 1, TaskType := mapTask,
           IntermediateFileNames := ["mr-1-0"] }]).map
      (fun c => (mapGet c.tasks (reduceKey 0)).map (fun t => t.reduceFileNames))
      = some (some ["mr-0-0", "mr-1-0"]) := by
  refine ⟨?_, by decide, by decide, by decide, by decide⟩
  intro e he
  simp only [List.mem_cons, List.mem_singleton, List.not_mem_nil, or_false] at he
  rcases he with rfl | rfl | rfl | rfl | rfl | rfl | rfl
  · exact ⟨isRangeOrder_id, trivial⟩
  · exact ⟨trivial, trivial⟩
  · exact ⟨isRangeOrder_id, trivial⟩
  · exact ⟨isRangeOrder_id, fun _ =>
      ⟨fun _ _ => [],
       { TaskID := 0, TaskType := mapTask, MapFileName := "a", ReduceFileNames := [],
         NReduce := 1 },
       [("a", FileData.text "")],
       ([("a", FileData.text ""), ("mr-0-0", FileData.records [])], ["mr-0-0"]),
       rfl, rfl, by decide, rfl⟩⟩
  · exact ⟨isRangeOrder_id, fun _ =>
      ⟨fun _ _ => [],
       { TaskID := 0, TaskType := mapTask, MapFileName := "a", ReduceFileNames := [],
         NReduce := 1 },
       [("a", FileData.text "")],
       ([("a", FileData.text ""), ("mr-0-0", FileData.records [])], ["mr-0-0"]),
       rfl, rfl, by decide, rfl⟩⟩
  · exact ⟨isRangeOrder_id, trivial⟩
  · exact ⟨isRangeOrder_id, fun _ =>
      ⟨fun _ _ => [],
       { TaskID := 1, TaskType := mapTask, MapFileName := "b", ReduceFileNames := [],
         NReduce := 1 },
       [("b", FileData.text "")],
       ([("b", FileData.text ""), ("mr-1-0", FileData.records [])], ["mr-1-0"]),
       rfl, rfl, by decide, rfl⟩⟩

/-! ## Go strings, UTF-8 and the JSON form -/

theorem char_valid_toNat (c : Char) :
    c.toNat < 55296 ∨ (57343 < c.toNat ∧ c.toNat < 1114112) := by
  have h := c.valid
  simpa [UInt32.isValidChar, Nat.isValidChar, Char.toNat] using h

/-- Decoding the UTF-8 form of a character gives the character back, with the
width of the form. -/
theorem decodeRune_utf8Bytes (c : Char) (rest : List Nat) :
    decodeRune (utf8Bytes c ++ rest) = (c.toNat, (utf8Bytes c).length) := by
  have hv := char_valid_toNat c
  by_cases h1 : c.toNat < 128
  · rw [utf8Bytes_one c h1]
    simp [decodeRune, h1]
  · by_cases h2 : c.toNat < 2048
    · rw [utf8Bytes_two c h1 h2]
      have a1 : ¬ 192 + c.toNat / 64 < 128 := by omega
      have a2 : ¬ 192 + c.toNat / 64 < 194 := by omega
      have a3 : 192 + c.toNat / 64 < 224 := by omega
      have a4 : 128 ≤ 128 + c.toNat % 64 ∧ 128 + c.toNat % 64 ≤ 191 := by omega
      have a5 : (192 + c.toNat / 64 - 192) * 64 + (128 + c.toNat % 64 - 128) = c.toNat := by
        omega
      simp only [List.cons_append, List.nil_append, decodeRune, a1, a2, a3, a4, a5, if_true,
        if_false, and_self, List.length_cons, List.length_nil]
    · by_cases h3 : c.toNat < 65536
      · rw [utf8Bytes_three c h2 h3]
        have a1 : ¬ 224 + c.toNat / 4096 < 128 := by omega
        have a2 : ¬ 224 + c.toNat / 4096 < 194 := by omega
        have a3 : ¬ 224 + c.toNat / 4096 < 224 := by omega
        have a4 : 224 + c.toNat / 4096 < 240 := by omega
        have a5 : (if 224 + c.toNat / 4096 = 224 then 160 else 128) ≤ 128 + c.toNat / 64 % 64 ∧
            128 + c.toNat / 64 % 64 ≤ (if 224 + c.toNat / 4096 = 237 then 159 else 191) ∧
            128 ≤ 128 + c.toNat % 64 ∧ 128 + c.toNat % 64 ≤ 191 := by
          refine ⟨?_, ?_, by omega, by omega⟩
          · split_ifs <;> omega
          · split_ifs <;> omega
        have a6 : (224 + c.toNat / 4096 - 224) * 4096 + (128 + c.toNat / 64 % 64 - 128) * 64
            + (128 + c.toNat % 64 - 128) = c.toNat := by omega
        simp only [List.cons_append, List.nil_append, decodeRune, a1, a2, a3, a4, if_true,
          if_false, List.length_cons, List.length_nil]
        rw [if_pos a5, a6]
      · rw [utf8Bytes_four c h3]
        have a1 : ¬ 240 + c.toNat / 262144 < 128 := by omega
        have a2 : ¬ 240 + c.toNat / 262144 < 194 := by omega
        have a3 : ¬ 240 + c.toNat / 262144 < 224 := by omega
        have a4 : ¬ 240 + c.toNat / 262144 < 240 := by omega
        have a4b : 240 + c.toNat / 262144 < 245 := by omega
        have a5 : (if 240 + c.toNat / 262144 = 240 then 144 else 128)
              ≤ 128 + c.toNat / 4096 % 64 ∧
            128 + c.toNat / 4096 % 64 ≤ (if 240 + c.toNat / 262144 = 244 then 143 else 191) ∧
            128 ≤ 128 + c.toNat / 64 % 64 ∧ 128 + c.toNat / 64 % 64 ≤ 191 ∧
            128 ≤ 128 + c.toNat % 64 ∧ 128 + c.toNat % 64 ≤ 191 := by
          refine ⟨?_, ?_, by omega, by omega, by omega, by omega⟩
          · split_ifs <;> omega
          · split_ifs <;> omega
        have a6 : (240 + c.toNat / 262144 - 240) * 262144
            + (128 + c.toNat / 4096 % 64 - 128) * 4096
            + (128 + c.toNat / 64 % 64 - 128) * 64 + (128 + c.toNat % 64 - 128) = c.toNat := by
          omega
        simp only [List.cons_append, List.nil_append, decodeRune, a1, a2, a3, a4, a4b, if_true,
          if_false, List.length_cons, List.length_nil]
        rw [if_pos a5, a6]

theorem jsonChars_utf8 : ∀ (cs : List Char) (fuel : Nat),
    ((cs.map utf8Bytes).flatten).length ≤ fuel →
    jsonChars fuel ((cs.map utf8Bytes).flatten) = cs := by
  intro cs
  induction cs with
  | nil =>
    intro fuel _
    cases fuel <;> rfl
  | cons c cs ih =>
    intro fuel hfuel
    simp only [List.map_cons, List.flatten_cons, List.length_append] at hfuel ⊢
    have hne := utf8Bytes_ne_nil c
    cases hb : utf8Bytes c with
    | nil => exact absurd hb hne
    | cons b bs =>
      have hlen : 1 ≤ (utf8Bytes c).length := by rw [hb]; simp
      cases fuel with
      | zero => omega
      | succ fuel =>
        have hd := decodeRune_utf8Bytes c ((cs.map utf8Bytes).flatten)
        rw [hb] at hd
        simp only [List.cons_append] at hd ⊢
        simp only [jsonChars, hd]
        rw [Char.ofNat_toNat]
        congr 1
        rw [← List.cons_append, List.drop_left]
        apply ih
        omega

/-- A text written by `json.Encoder` and read by `json.Decoder` comes back as
it was. -/
theorem jsonString_stringBytes (s : String) : jsonString (stringBytes s) = s := by
  unfold jsonString stringBytes
  rw [jsonChars_utf8 s.data _ (Nat.le_refl _)]

theorem jsonRecord_goBytes (kv : KeyValue) : jsonRecord (goBytes kv) = kv := by
  cases kv
  simp [jsonRecord, goBytes, jsonString_stringBytes]

theorem ihash_eq_ihashBytes (key : String) : ihash key = ihashBytes (stringBytes key) := rfl

/-! ## The map side on Go strings: what the tasks write -/

theorem bucketBytes_lt (key : List Nat) (M : Nat) (hM : 0 < M) :
    0 ≤ Int.tmod (ihashBytes key) (M : Int) ∧
      (Int.tmod (ihashBytes key) (M : Int)).toNat < M := by
  have hnn : 0 ≤ ihashBytes key := by
    unfold ihashBytes
    exact Int.ofNat_nonneg _
  have h0 := Int.tmod_nonneg (M : Int) hnn
  have h1 := Int.tmod_lt_of_pos (ihashBytes key) (show (0 : Int) < (M : Int) by omega)
  refine ⟨h0, ?_⟩
  omega

theorem partitionLoopBytes_spec (M : Nat) (hM : 0 < M) : ∀ (kva : List RawKeyValue)
    (buckets : List (List RawKeyValue)), buckets.length = M →
    ∃ b1, partitionLoopBytes (M : Int) buckets kva = some b1 ∧ b1.length = M ∧
      ∀ j : Nat, b1.getD j []
        = buckets.getD j [] ++
          kva.filter
            (fun kv => decide ((Int.tmod (ihashBytes kv.Key) (M : Int)).toNat = j)) := by
  intro kva
  induction kva with
  | nil =>
    intro buckets hlen
    exact ⟨buckets, rfl, hlen, fun j => by simp⟩
  | cons kv rest ih =>
    intro buckets hlen
    have hb := bucketBytes_lt kv.Key M hM
    obtain ⟨a1, ha1, hlen1, hget1⟩ :=
      bucketAppend_spec kv buckets (Int.tmod (ihashBytes kv.Key) (M : Int)).toNat
        (by rw [hlen]; exact hb.2)
    obtain ⟨b1, hb1, hlenb, hget⟩ := ih a1 (by rw [hlen1, hlen])
    refine ⟨b1, ?_, hlenb, ?_⟩
    · have hM0 : ¬ ((M : Int) = 0) := by omega
      have hneg : ¬ (Int.tmod (ihashBytes kv.Key) (M : Int) < 0) := by omega
      simp only [partitionLoopBytes, hM0, if_false, hneg, ha1]
      exact hb1
    · intro j
      rw [hget j, hget1 j, List.filter_cons]
      by_cases hj : j = (Int.tmod (ihashBytes kv.Key) (M : Int)).toNat
      · rw [if_pos hj, if_pos (decide_eq_true hj.symm)]
        simp
      · have hne : ¬ ((Int.tmod (ihashBytes kv.Key) (M : Int)).toNat = j) :=
          fun he => hj he.symm
        rw [if_neg hj, if_neg (by simpa using hne)]

/-- What `executeMapBytes` does for Map task `t` and `M ≥ 1` buckets on an
input that exists: it returns, bucket file `mr-t-i` holds the records read back
from the pairs of the map output whose key hashes to `i`, in the order of
emission, and no other file changes. -/
theorem executeMapBytes_spec (enc : List KeyValue → String)
    (mapf : String → String → List RawKeyValue) (t M : Nat) (hM : 0 < M)
    (file : String) (d : FileData) (ty : Int) (rf : List String) (fs : FileSystem)
    (hin : mapGet fs file = some d) :
    ∃ r, executeMapBytes enc mapf
        { TaskID := t, TaskType := ty, MapFileName := file, ReduceFileNames := rf,
          NReduce := M } fs = some r ∧
      r.2 = (List.range M).map (fun (i : Nat) => intermediateName t i) ∧
      (∀ i : Nat, i < M → mapGet r.1 (intermediateName t i)
        = some (FileData.records (((mapf file (fileText enc d)).filter
            (fun kv => decide ((Int.tmod (ihashBytes kv.Key) (M : Int)).toNat = i))).map
              jsonRecord))) ∧
      (∀ k, (∀ i : Nat, i < M → k ≠ intermediateName t i) → mapGet r.1 k = mapGet fs k) := by
  obtain ⟨b1, hb1, hlen, hget⟩ := partitionLoopBytes_spec M hM (mapf file (fileText enc d))
    (List.replicate M []) (by simp)
  have hneg : ¬ ((M : Int) < 0) := by omega
  have hrun : executeMapBytes enc mapf
      { TaskID := t, TaskType := ty, MapFileName := file, ReduceFileNames := rf,
        NReduce := M } fs
      = some (writeBuckets (t : Int) (b1.map (fun b => b.map jsonRecord)) M fs) := by
    simp only [executeMapBytes, hin, hneg, if_false, Int.toNat_ofNat, hb1]
  refine ⟨_, hrun, writeBuckets_names _ _ M fs, ?_, ?_⟩
  · intro i hi
    rw [writeBuckets_self t _ M fs i hi]
    have hg : (b1.map (fun b => b.map jsonRecord)).getD i [] = (b1.getD i []).map jsonRecord := by
      simp only [List.getD_eq_getElem?_getD, List.getElem?_map]
      cases b1[i]? <;> rfl
    rw [hg, hget i, @replicate_nil_getD RawKeyValue M i, List.nil_append]
  · intro k hk
    exact writeBuckets_other t _ M fs k hk

theorem executeMapBytes_keeps (enc : List KeyValue → String)
    (mapf : String → String → List RawKeyValue) (taskReply : TaskReply)
    (fs : FileSystem) (r : FileSystem × List String)
    (h : executeMapBytes enc mapf taskReply fs = some r) (k : String)
    (hk : (mapGet fs k).isSome = true) : (mapGet r.1 k).isSome = true := by
  unfold executeMapBytes at h
  cases hg : mapGet fs taskReply.MapFileName with
  | none => rw [hg] at h; simp at h
  | some d =>
    rw [hg] at h
    simp only at h
    by_cases hn : taskReply.NReduce < 0
    · rw [if_pos hn] at h; simp at h
    · rw [if_neg hn] at h
      cases hp : partitionLoopBytes taskReply.NReduce
          (List.replicate taskReply.NReduce.toNat [])
          (mapf taskReply.MapFileName (fileText enc d)) with
      | none => rw [hp] at h; simp at h
      | some b =>
        rw [hp] at h
        simp only [Option.some.injEq] at h
        rw [← h]
        generalize taskReply.NReduce.toNat = n
        induction n with
        | zero => exact hk
        | succ n ih =>
          rw [writeBuckets_succ]
          simp only
          rw [mapGet_mapPut]
          split_ifs
          · rfl
          · exact ih

/-- The Map tasks run in turn on inputs that exist: the run returns, one read
is recorded for each task, and bucket file `mr-t-i` of task `t` holds the
records read back from the pairs that the invocation of `t` emitted with a key
hashing to `i`. -/
theorem runMapsBytes_spec (enc : List KeyValue → String)
    (mapf : String → String → List RawKeyValue) (M : Nat) (hM : 0 < M) :
    ∀ (files : List String) (t0 : Nat) (fs : FileSystem),
    (∀ f ∈ files, (mapGet fs f).isSome = true) →
    ∃ fs1, runMapsBytes enc mapf M t0 files fs = some fs1 ∧
      (mapReads enc mapf M t0 files fs).length = files.length ∧
      (∀ (j : Nat) (p : String × String),
        (mapReads enc mapf M t0 files fs).get? j = some p → ∀ i : Nat, i < M →
        mapGet fs1 (intermediateName ((t0 + j : Nat) : Int) i)
          = some (FileData.records (((mapf p.1 p.2).filter
              (fun kv => decide ((Int.tmod (ihashBytes kv.Key) (M : Int)).toNat = i))).map
                jsonRecord))) ∧
      (∀ k, (∀ j i : Nat, j < files.length → i < M →
          k ≠ intermediateName ((t0 + j : Nat) : Int) i) → mapGet fs1 k = mapGet fs k) := by
  intro files
  induction files with
  | nil =>
    intro t0 fs _
    exact ⟨fs, rfl, rfl, fun j p hj => by simp [mapReads] at hj, fun k _ => rfl⟩
  | cons f rest ih =>
    intro t0 fs hin
    cases hg : mapGet fs f with
    | none =>
      have := hin f (List.mem_cons_self _ _)
      rw [hg] at this
      simp at this
    | some d =>
      obtain ⟨r, hr, _, hself, hother⟩ :=
        executeMapBytes_spec enc mapf t0 M hM f d mapTask [] fs hg
      have hin1 : ∀ f1 ∈ rest, (mapGet r.1 f1).isSome = true := fun f1 h1 =>
        executeMapBytes_keeps enc mapf _ fs r hr f1 (hin f1 (List.mem_cons_of_mem _ h1))
      obtain ⟨fs1, hfs1, hlen1, hself1, hother1⟩ := ih (t0 + 1) r.1 hin1
      have hreads : mapReads enc mapf M t0 (f :: rest) fs
          = (f, fileText enc d) :: mapReads enc mapf M (t0 + 1) rest r.1 := by
        simp only [mapReads, hg, hr]
      rw [hreads]
      refine ⟨fs1, ?_, ?_, ?_, ?_⟩
      · simp only [runMapsBytes, hr]
        exact hfs1
      · simp [hlen1]
      · intro j p hj i hi
        cases j with
        | zero =>
          simp only [List.get?_cons_zero, Option.some.injEq] at hj
          subst hj
          rw [hother1 _ (fun j' i' _ _ he => by
            have := (intermediateName_injective _ _ _ _ he).1
            omega)]
          exact hself i hi
        | succ j =>
          simp only [List.get?_cons_succ] at hj
          have := hself1 j p hj i hi
          have harith : t0 + 1 + j = t0 + (j + 1) := by omega
          rw [harith] at this
          exact this
      · intro k hk
        rw [hother1 k (fun j' i' hj' hi' => by
          have := hk (j' + 1) i' (by simp; omega) hi'
          have harith : t0 + 1 + j' = t0 + (j' + 1) := by omega
          rw [harith]
          exact this)]
        exact hother k (fun i hi => by
          have := hk 0 i (by simp) hi
          simpa using this)

/-! ## The output of a job -/

/-- The lines the Reduce tasks write when bucket `i` holds the records of `S`
whose key hashes to `i`: a key of `S` has one line, in the output of its
bucket, with the reduced value of its records; another key has none. -/
theorem reduce_outputs_keys (sortFunc : List KeyValue → List KeyValue)
    (reducef : String → List String → String) (hsort : IsSortFunc sortFunc)
    (S : List KeyValue) (M : Nat) (hM : 1 ≤ M) :
    (∀ key : String, (∃ kv ∈ S, kv.Key = key) →
      ∃ i : Nat, i < M ∧ i = (Int.tmod (ihash key) (M : Int)).toNat ∧
        ∃ vs : List String,
          vs.Perm ((S.filter (fun kv => decide (kv.Key = key))).map (fun kv => kv.Value)) ∧
          (reduceLoop reducef
              (sortFunc (S.filter
                (fun kv => decide ((Int.tmod (ihash kv.Key) (M : Int)).toNat = i)))).length
              (sortFunc (S.filter
                (fun kv => decide ((Int.tmod (ihash kv.Key) (M : Int)).toNat = i))))).filter
            (fun line => decide (line.1 = key)) = [(key, reducef key vs)] ∧
          ∀ j : Nat, j < M → j ≠ i →
            (reduceLoop reducef
                (sortFunc (S.filter
                  (fun kv => decide ((Int.tmod (ihash kv.Key) (M : Int)).toNat = j)))).length
                (sortFunc (S.filter
                  (fun kv => decide ((Int.tmod (ihash kv.Key) (M : Int)).toNat = j))))).filter
              (fun line => decide (line.1 = key)) = []) ∧
    (∀ key : String, (¬ ∃ kv ∈ S, kv.Key = key) →
      ∀ j : Nat, j < M →
        (reduceLoop reducef
            (sortFunc (S.filter
              (fun kv => decide ((Int.tmod (ihash kv.Key) (M : Int)).toNat = j)))).length
            (sortFunc (S.filter
              (fun kv => decide ((Int.tmod (ihash kv.Key) (M : Int)).toNat = j))))).filter
          (fun line => decide (line.1 = key)) = []) := by
  constructor
  · intro key ⟨kv, hkv, hkey⟩
    have hb := (bucket_lt key M hM).2
    refine ⟨(Int.tmod (ihash key) (M : Int)).toNat, hb, rfl, ?_⟩
    obtain ⟨hperm, hsorted⟩ := hsort
      (S.filter (fun kv => decide ((Int.tmod (ihash kv.Key) (M : Int)).toNat
          = (Int.tmod (ihash key) (M : Int)).toNat)))
    refine ⟨_, ?_, ((reduceLoop_filter reducef _ _ (Nat.le_refl _) hsorted key).1 ?_), ?_⟩
    · have h1 := (hperm.filter (fun kv => decide (kv.Key = key))).map (fun kv => kv.Value)
      rw [bucket_filter_key, if_pos rfl] at h1
      exact h1
    · refine ⟨kv, hperm.mem_iff.mpr ?_, hkey⟩
      rw [List.mem_filter]
      exact ⟨hkv, by simp [hkey]⟩
    · intro j _ hj
      obtain ⟨hpermj, hsortedj⟩ := hsort
        (S.filter (fun kv => decide ((Int.tmod (ihash kv.Key) (M : Int)).toNat = j)))
      apply (reduceLoop_filter reducef _ _ (Nat.le_refl _) hsortedj key).2
      rintro ⟨x, hx, hxk⟩
      have hx1 := hpermj.mem_iff.mp hx
      rw [List.mem_filter] at hx1
      have : (Int.tmod (ihash x.Key) (M : Int)).toNat = j := by simpa using hx1.2
      rw [hxk] at this
      exact hj this.symm
  · intro key hnot j _
    obtain ⟨hpermj, hsortedj⟩ := hsort
      (S.filter (fun kv => decide ((Int.tmod (ihash kv.Key) (M : Int)).toNat = j)))
    apply (reduceLoop_filter reducef _ _ (Nat.le_refl _) hsortedj key).2
    rintro ⟨x, hx, hxk⟩
    have hx1 := hpermj.mem_iff.mp hx
    rw [List.mem_filter] at hx1
    exact hnot ⟨x, hx1.1, hxk⟩

theorem jsonRecord_valid (kv : RawKeyValue)
    (h : IsValidUTF8 kv.Key ∧ IsValidUTF8 kv.Value) :
    stringBytes (jsonRecord kv).Key = kv.Key ∧ stringBytes (jsonRecord kv).Value = kv.Value := by
  obtain ⟨⟨k, hk⟩, ⟨v, hv⟩⟩ := h
  simp only [jsonRecord]
  rw [hk, hv, jsonString_stringBytes, jsonString_stringBytes]
  exact ⟨rfl, rfl⟩

/-- With inputs that are text files named otherwise than the bucket files,
each Map task reads its input as it was before the job. -/
theorem mapReads_text (enc : List KeyValue → String)
    (mapf : String → String → List RawKeyValue) (M : Nat) (hM : 0 < M) :
    ∀ (inputs : List (String × String)) (t0 : Nat) (fs : FileSystem),
    (∀ p ∈ inputs, mapGet fs p.1 = some (FileData.text p.2)) →
    (∀ p ∈ inputs, ∀ t i : Nat, p.1 ≠ intermediateName t i) →
    mapReads enc mapf M t0 (inputs.map Prod.fst) fs = inputs := by
  intro inputs
  induction inputs with
  | nil => intro t0 fs _ _; rfl
  | cons p0 rest ih =>
    intro t0 fs hin hnames
    have hg := hin p0 (List.mem_cons_self _ _)
    obtain ⟨r, hr, _, _, hother⟩ :=
      executeMapBytes_spec enc mapf t0 M hM p0.1 (FileData.text p0.2) mapTask [] fs hg
    simp only [List.map_cons, mapReads, hg, hr, fileText]
    rw [ih (t0 + 1) r.1
      (fun p hp => by
        rw [hother p.1 (fun i _ => hnames p (List.mem_cons_of_mem _ hp) t0 i)]
        exact hin p (List.mem_cons_of_mem _ hp))
      (fun p hp => hnames p (List.mem_cons_of_mem _ hp))]

theorem values_of_records (E : List RawKeyValue) (key : String)
    (hv : ∀ kv ∈ E, IsValidUTF8 kv.Key ∧ IsValidUTF8 kv.Value) :
    ((((E.map jsonRecord).filter (fun kv => decide (kv.Key = key))).map
        (fun kv => kv.Value)).map stringBytes)
      = (E.filter (fun kv => decide (kv.Key = stringBytes key))).map (fun kv => kv.Value) := by
  induction E with
  | nil => rfl
  | cons x rest ih =>
    have hx := jsonRecord_valid x (hv x (List.mem_cons_self _ _))
    have ih1 := ih (fun kv hkv => hv kv (List.mem_cons_of_mem _ hkv))
    simp only [List.map_cons, List.filter_cons]
    by_cases hk : x.Key = stringBytes key
    · have hk1 : (jsonRecord x).Key = key := by
        simp only [jsonRecord, hk, jsonString_stringBytes]
      simp only [hk1, hk, decide_True, if_true, List.map_cons, ih1, hx.2]
    · have hk1 : ¬ (jsonRecord x).Key = key := by
        intro h
        apply hk
        rw [← h, hx.1]
      simp only [hk1, hk, decide_False, Bool.false_eq_true, if_false, ih1]

/-- C10, for map functions that emit valid UTF-8: with a sorting function that
meets the contract of `slices.SortFunc`, `M ≥ 1` buckets, inputs that exist and map invocations that
emit keys and values in valid UTF-8, running `executeMap` on each input (task
ids 0, 1, ...) and then `executeReduce` for each bucket `i` on `mr-0-i`,
`mr-1-i`, ... returns and leaves in each `mr-out-i` the lines `out i`, such
that: every key emitted by a map invocation has exactly one line in exactly
one output (that of its bucket `ihash(key) % M`), the value on that line is
`reducef(key, vs)` for a permutation `vs` of all the values emitted for the
key, and a key that was not emitted has no line. What the invocations read
is `mapReads`; for text inputs named otherwise than the bucket files these are
the inputs as they were. For the inputs "a b a" and "b c", 2 buckets and word
count the outputs are `a 2`, `c 1` (in `mr-out-0`) and `b 2` (in `mr-out-1`). -/
theorem C10_job_output_valid_utf8 (sortFunc : List KeyValue → List KeyValue)
    (enc : List KeyValue → String)
    (mapf : String → String → List RawKeyValue) (reducef : String → List String → String)
    (files : List String) (M : Nat) (fs : FileSystem)
    (hsort : IsSortFunc sortFunc) (hM : 1 ≤ M)
    (hin : ∀ f ∈ files, (mapGet fs f).isSome = true)
    (hvalid : ∀ p ∈ mapReads enc mapf M 0 files fs, ∀ kv ∈ mapf p.1 p.2,
      IsValidUTF8 kv.Key ∧ IsValidUTF8 kv.Value) :
    (∃ (fs1 : FileSystem) (out : Nat → List (String × String)),
      runJobBytes sortFunc enc mapf reducef files M fs = some fs1 ∧
      (∀ i : Nat, i < M →
        mapGet fs1 (outputName i) = some (FileData.text (formatLines (out i)))) ∧
      (∀ key : String,
        (∃ kv ∈ ((mapReads enc mapf M 0 files fs).map (fun p => mapf p.1 p.2)).flatten,
          kv.Key = stringBytes key) →
        ∃ i : Nat, i < M ∧ i = (Int.tmod (ihashBytes (stringBytes key)) (M : Int)).toNat ∧
          ∃ vs : List String,
            (vs.map stringBytes).Perm
              (((((mapReads enc mapf M 0 files fs).map (fun p => mapf p.1 p.2)).flatten).filter
                (fun kv => decide (kv.Key = stringBytes key))).map (fun kv => kv.Value)) ∧
            (out i).filter (fun line => decide (line.1 = key)) = [(key, reducef key vs)] ∧
            ∀ j : Nat, j < M → j ≠ i →
              (out j).filter (fun line => decide (line.1 = key)) = []) ∧
      (∀ key : String,
        (¬ ∃ kv ∈ ((mapReads enc mapf M 0 files fs).map (fun p => mapf p.1 p.2)).flatten,
          kv.Key = stringBytes key) →
        ∀ j : Nat, j < M → (out j).filter (fun line => decide (line.1 = key)) = [])) ∧
    (∀ inputs : List (String × String), files = inputs.map Prod.fst →
      (∀ p ∈ inputs, mapGet fs p.1 = some (FileData.text p.2)) →
      (∀ p ∈ inputs, ∀ t i : Nat, p.1 ≠ intermediateName t i) →
      mapReads enc mapf M 0 files fs = inputs) ∧
    ((runJobBytes sortByKey (fun _ => "") (fun f c => (wcMap f c).map goBytes) wcReduce
        ["pg-0.txt", "pg-1.txt"] 2
        [("pg-0.txt", FileData.text "a b a"), ("pg-1.txt", FileData.text "b c")]).map
      (fun fs1 => (mapGet fs1 (outputName 0), mapGet fs1 (outputName 1)))
      = some (some (FileData.text "a 2\nc 1\n"), some (FileData.text "b 2\n"))) := by
  refine ⟨?_, ?_, by decide⟩
  swap
  · intro inputs hfiles hin1 hnames
    rw [hfiles]
    exact mapReads_text enc mapf M hM inputs 0 fs hin1 hnames
  obtain ⟨fsm, hfsm, hlen, hself, _⟩ := runMapsBytes_spec enc mapf M hM files 0 fs hin
  -- the pairs emitted and the records read back from them
  have hvalidE : ∀ kv ∈ ((mapReads enc mapf M 0 files fs).map
      (fun p => mapf p.1 p.2)).flatten, IsValidUTF8 kv.Key ∧ IsValidUTF8 kv.Value := by
    intro kv hkv
    obtain ⟨l, hl, hkvl⟩ := List.mem_flatten.mp hkv
    obtain ⟨p, hp, rfl⟩ := List.mem_map.mp hl
    exact hvalid p hp kv hkvl
  have hbucket : ∀ p ∈ mapReads enc mapf M 0 files fs, ∀ i : Nat,
      ((mapf p.1 p.2).filter
        (fun kv => decide ((Int.tmod (ihashBytes kv.Key) (M : Int)).toNat = i))).map jsonRecord
      = ((mapf p.1 p.2).map jsonRecord).filter
          (fun kv => decide ((Int.tmod (ihash kv.Key) (M : Int)).toNat = i)) := by
    intro p hp i
    rw [List.filter_map]
    congr 1
    apply List.filter_congr
    intro kv hkv
    simp only [Function.comp]
    rw [ihash_eq_ihashBytes, (jsonRecord_valid kv (hvalid p hp kv hkv)).1]
  obtain ⟨fs1, hfs1, hout, _⟩ := runReduces_spec sortFunc reducef
    (fun i p => ((mapf p.1 p.2).map jsonRecord).filter
      (fun kv => decide ((Int.tmod (ihash kv.Key) (M : Int)).toNat = i)))
    (mapReads enc mapf M 0 files fs) M (List.range M) fsm (List.nodup_range M)
    (fun i hi j p hj => by
      have := hself j p hj i (List.mem_range.mp hi)
      rw [hbucket p (List.mem_iff_get?.mpr ⟨j, hj⟩) i] at this
      simpa using this)
  have hkva : ∀ i : Nat,
      ((mapReads enc mapf M 0 files fs).map (fun p => ((mapf p.1 p.2).map jsonRecord).filter
        (fun kv => decide ((Int.tmod (ihash kv.Key) (M : Int)).toNat = i)))).flatten
      = ((((mapReads enc mapf M 0 files fs).map (fun p => mapf p.1 p.2)).flatten).map
          jsonRecord).filter
          (fun kv => decide ((Int.tmod (ihash kv.Key) (M : Int)).toNat = i)) := by
    intro i
    rw [filter_flatten_map (fun (p : String × String) => (mapf p.1 p.2).map jsonRecord)
      (fun kv => decide ((Int.tmod (ihash kv.Key) (M : Int)).toNat = i))
      (mapReads enc mapf M 0 files fs), List.map_flatten, List.map_map]
    rfl
  simp only [hkva] at hout
  obtain ⟨hkeys, hnokeys⟩ := reduce_outputs_keys sortFunc reducef hsort
    ((((mapReads enc mapf M 0 files fs).map (fun p => mapf p.1 p.2)).flatten).map jsonRecord)
    M hM
  -- a record read back has the key `key` when the pair has the bytes of `key`
  have hkeyiff : ∀ (key : String), ∀ kv ∈ ((mapReads enc mapf M 0 files fs).map
      (fun p => mapf p.1 p.2)).flatten,
      ((jsonRecord kv).Key = key ↔ kv.Key = stringBytes key) := by
    intro key kv hkv
    constructor
    · intro h
      rw [← h, (jsonRecord_valid kv (hvalidE kv hkv)).1]
    · intro h
      simp only [jsonRecord, h, jsonString_stringBytes]
  refine ⟨fs1, fun i =>
    reduceLoop reducef
      (sortFunc (((((mapReads enc mapf M 0 files fs).map (fun p => mapf p.1 p.2)).flatten).map
        jsonRecord).filter
        (fun kv => decide ((Int.tmod (ihash kv.Key) (M : Int)).toNat = i)))).length
      (sortFunc (((((mapReads enc mapf M 0 files fs).map (fun p => mapf p.1 p.2)).flatten).map
        jsonRecord).filter
        (fun kv => decide ((Int.tmod (ihash kv.Key) (M : Int)).toNat = i)))),
    ?_, ?_, ?_, ?_⟩
  · simp only [runJobBytes, hfsm]
    rw [← hlen]
    exact hfs1
  · intro i hi
    exact hout i (List.mem_range.mpr hi)
  · intro key ⟨kv, hkv, hkey⟩
    obtain ⟨i, hi, hib, vs, hperm, hline, hothers⟩ := hkeys key
      ⟨jsonRecord kv, List.mem_map.mpr ⟨kv, hkv, rfl⟩, (hkeyiff key kv hkv).mpr hkey⟩
    refine ⟨i, hi, hib, vs, ?_, hline, hothers⟩
    have h1 := hperm.map stringBytes
    rw [values_of_records _ key hvalidE] at h1
    exact h1
  · intro key hnot j hj
    apply hnokeys key _ j hj
    rintro ⟨skv, hskv, hk⟩
    obtain ⟨kv, hkv, rfl⟩ := List.mem_map.mp hskv
    exact hnot ⟨kv, hkv, (hkeyiff key kv hkv).mp hk⟩

theorem C10_job_output_valid_utf8_witness :
    ∃ (fs1 : FileSystem) (out : Nat → List (String × String)),
      runJobBytes sortByKey (fun _ => "") (fun f c => (wcMap f c).map goBytes) wcReduce
        ["pg-0.txt", "pg-1.txt"] 2
        [("pg-0.txt", FileData.text "a b a"), ("pg-1.txt", FileData.text "b c")] = some fs1 ∧
      (∀ i : Nat, i < 2 →
        mapGet fs1 (outputName i) = some (FileData.text (formatLines (out i)))) ∧
      ∃ i : Nat, i < 2 ∧ ∃ vs : List String,
        (vs.map stringBytes).Perm [stringBytes "1", stringBytes "1"] ∧
        (out i).filter (fun line => decide (line.1 = "a")) = [("a", wcReduce "a" vs)] := by
  obtain ⟨⟨fs1, out, hrun, hout, hkeys, _⟩, _⟩ :=
    C10_job_output_valid_utf8 sortByKey (fun _ => "") (fun f c => (wcMap f c).map goBytes)
      wcReduce ["pg-0.txt", "pg-1.txt"] 2
      [("pg-0.txt", FileData.text "a b a"), ("pg-1.txt", FileData.text "b c")]
      isSortFunc_sortByKey (by decide) (by decide)
      (by
        intro p _ kv hkv
        obtain ⟨skv, _, rfl⟩ := List.mem_map.mp hkv
        exact ⟨⟨skv.Key, rfl⟩, ⟨skv.Value, rfl⟩⟩)
  obtain ⟨i, hi, _, vs, hvs, hline, _⟩ := hkeys "a"
    ⟨goBytes { Key := "a", Value := "1" }, by decide, rfl⟩
  have hvals : ((((mapReads (fun _ => "") (fun f c => (wcMap f c).map goBytes) ((2 : Nat) : Int) 0
      ["pg-0.txt", "pg-1.txt"]
      [("pg-0.txt", FileData.text "a b a"), ("pg-1.txt", FileData.text "b c")]).map
        (fun p => (wcMap p.1 p.2).map goBytes)).flatten).filter
          (fun kv => decide (kv.Key = stringBytes "a"))).map (fun kv => kv.Value)
      = [stringBytes "1", stringBytes "1"] := by decide
  rw [hvals] at hvs
  exact ⟨fs1, out, hrun, hout, i, hi, vs, hvs, hline⟩

theorem not_valid_of_jsonString (bs : List Nat) (h : stringBytes (jsonString bs) ≠ bs) :
    ¬ IsValidUTF8 bs := by
  rintro ⟨s, hs⟩
  apply h
  rw [hs, jsonString_stringBytes]

/-- C10 without the restriction to valid UTF-8 fails. A map function emits two
keys that are not valid UTF-8: the bytes `ff` and `fe`, each with the value
"1", on one input and 2 buckets. `ihash` sends `ff` to bucket 0 and `fe` to bucket 1, and both
bucket files hold the key U+FFFD that `json.Decoder` reads back. The job
returns with the line `U+FFFD 1` in `mr-out-0` and in `mr-out-1`: a key that
no invocation emitted (its bytes are `ef bf bd`) has a line in both outputs,
and neither emitted key has a line. -/
theorem C10_invalid_utf8_keys :
    ¬ IsValidUTF8 [255] ∧ ¬ IsValidUTF8 [254] ∧
    Int.tmod (ihashBytes [255]) 2 = 0 ∧ Int.tmod (ihashBytes [254]) 2 = 1 ∧
    mapReads (fun _ => "")
        (fun _ _ => [{ Key := [255], Value := [49] }, { Key := [254], Value := [49] }])
        2 0 ["in"] [("in", FileData.text "")] = [("in", "")] ∧
    ((runMapsBytes (fun _ => "")
        (fun _ _ => [{ Key := [255], Value := [49] }, { Key := [254], Value := [49] }])
        2 0 ["in"] [("in", FileData.text "")]).map
      (fun fs1 => (mapGet fs1 (intermediateName 0 0), mapGet fs1 (intermediateName 0 1)))
      = some (some (FileData.records [{ Key := String.mk [Char.ofNat 65533], Value := "1" }]),
          some (FileData.records [{ Key := String.mk [Char.ofNat 65533], Value := "1" }]))) ∧
    ((runJobBytes sortByKey (fun _ => "")
        (fun _ _ => [{ Key := [255], Value := [49] }, { Key := [254], Value := [49] }])
        wcReduce ["in"] 2 [("in", FileData.text "")]).map
      (fun fs1 => (mapGet fs1 (outputName 0), mapGet fs1 (outputName 1)))
      = some (some (FileData.text (formatLines [(String.mk [Char.ofNat 65533], "1")])),
          some (FileData.text (formatLines [(String.mk [Char.ofNat 65533], "1")])))) ∧
    stringBytes (String.mk [Char.ofNat 65533]) = [239, 191, 189] ∧
    stringBytes (String.mk [Char.ofNat 65533]) ≠ [255] ∧
    stringBytes (String.mk [Char.ofNat 65533]) ≠ [254] := by
  refine ⟨not_valid_of_jsonString _ (by decide), not_valid_of_jsonString _ (by decide),
    by decide, by decide, by decide, by decide, by decide, by decide, by decide, by decide⟩

/-! ## The two forms of `executeMap` -/

theorem bucketAppend_map {α β : Type} (f : α → β) (x : α) : ∀ (bs : List (List α)) (i : Nat),
    bucketAppend (bs.map (fun b => b.map f)) i (f x)
      = (bucketAppend bs i x).map (fun bs1 => bs1.map (fun b => b.map f)) := by
  intro bs
  induction bs with
  | nil => intro i; rfl
  | cons b bs ih =>
    intro i
    cases i with
    | zero => simp [bucketAppend]
    | succ i =>
      simp only [List.map_cons, bucketAppend, ih i]
      cases bucketAppend bs i x <;> rfl

theorem partitionLoopBytes_goBytes (nReduce : Int) : ∀ (kva : List KeyValue)
    (bs : List (List KeyValue)),
    partitionLoopBytes nReduce (bs.map (fun b => b.map goBytes)) (kva.map goBytes)
      = (partitionLoop nReduce bs kva).map (fun bs1 => bs1.map (fun b => b.map goBytes)) := by
  intro kva
  induction kva with
  | nil => intro bs; rfl
  | cons kv rest ih =>
    intro bs
    simp only [List.map_cons, partitionLoopBytes, partitionLoop]
    by_cases h0 : nReduce = 0
    · simp [h0]
    · simp only [h0, if_false]
      have hh : ihashBytes (goBytes kv).Key = ihash kv.Key := rfl
      rw [hh]
      by_cases hneg : Int.tmod (ihash kv.Key) nReduce < 0
      · simp [hneg]
      · simp only [hneg, if_false]
        rw [bucketAppend_map goBytes kv bs]
        cases bucketAppend bs (Int.tmod (ihash kv.Key) nReduce).toNat kv with
        | none => rfl
        | some b1 => exact ih b1

/-- On an input kept as text and a map function that emits texts,
`executeMapBytes` is `executeMap`. -/
theorem executeMapBytes_goBytes (enc : List KeyValue → String)
    (mapf : String → String → List KeyValue) (taskReply : TaskReply) (fs : FileSystem)
    (content : String) (hin : mapGet fs taskReply.MapFileName = some (FileData.text content)) :
    executeMapBytes enc (fun f c => (mapf f c).map goBytes) taskReply fs
      = executeMap mapf taskReply fs := by
  unfold executeMapBytes executeMap
  simp only [hin, fileText]
  by_cases hn : taskReply.NReduce < 0
  · simp [hn]
  · simp only [hn, if_false]
    have h := partitionLoopBytes_goBytes taskReply.NReduce
      (mapf taskReply.MapFileName content) (List.replicate taskReply.NReduce.toNat [])
    simp only [List.map_replicate, List.map_nil] at h
    rw [h]
    cases partitionLoop taskReply.NReduce (List.replicate taskReply.NReduce.toNat [])
        (mapf taskReply.MapFileName content) with
    | none => rfl
    | some b =>
      simp only [Option.map_some']
      congr 2
      rw [List.map_map]
      conv_rhs => rw [← List.map_id b]
      apply List.map_congr_left
      intro l _
      simp only [Function.comp, List.map_map, id]
      conv_rhs => rw [← List.map_id l]
      apply List.map_congr_left
      intro kv _
      exact jsonRecord_goBytes kv

end MR
